import Mathlib

/-!
# Verification of the Quoridor engine and AI

This file embeds the rules engine (`core.py`) and the adversarial-search AI
(`ai.py`) of the Quoridor repository as executable Lean definitions, and
proves or refutes the specification claims about them.

Conventions of the embedding:
* Python `int` becomes `Int`; board coordinates are pairs of `Int`.
* A wall tuple `(orientation, row, col, 2)` becomes the structure `Wall`
  with fields `o`, `r`, `c`; the fourth component is the constant `2` at
  every construction site in the source, so it is dropped and every
  membership test against a literal `(o, r, c, 2)` becomes a test against
  `⟨o, r, c⟩`.
* The Python `set` of walls becomes a `Finset Wall`; the dictionaries
  keyed by the two player ids become pairs of fields with accessors.
* Exceptions become `Except Err`; each distinct `raise` site gets its own
  `Err` constructor, which models the distinguishable messages.
* The breadth-first searches use an explicit fuel of 200 steps.  Each loop
  iteration of the Python BFS pops one queue element, and every enqueue
  inserts a fresh in-bounds cell into the visited structure, so a run can
  never pop more than 1 + 81 elements (9 seeds + 81 for the multi-source
  variant) and the fuel is never exhausted.  The correctness theorems
  about the searches carry this argument as an explicit measure invariant
  (queue length plus twice the unvisited in-bounds cells never exceeds
  the remaining fuel), so no judged statement depends on the fuel value
  beyond its being at least 163.
-/

namespace Quoridor

/-- The two player ids `'j1'` and `'j2'` of the source. -/
inductive Player
  | one
  | two
deriving DecidableEq, Repr

/-- The opponent of a player (the `PLAYER_TWO if player == PLAYER_ONE else
PLAYER_ONE` idiom of the source). -/
def Player.other : Player → Player
  | .one => .two
  | .two => .one

/-- A board coordinate `(row, col)`. -/
abbrev Coord := Int × Int

/-- Wall orientation: `'h'` or `'v'`. -/
inductive Orient
  | h
  | v
deriving DecidableEq, Repr

/-- A wall `(orientation, row, col, 2)`; the constant span `2` is dropped. -/
structure Wall where
  o : Orient
  r : Int
  c : Int
deriving DecidableEq, Repr

/-- `BOARD_SIZE = 9`. -/
def board_size : Int := 9

/-- The full game state (`GameState` in `core.py`): the two positions, the
wall set, the two wall budgets, and the player to move. -/
structure GameState where
  pos_one : Coord
  pos_two : Coord
  walls : Finset Wall
  budget_one : Int
  budget_two : Int
  current_player : Player
deriving DecidableEq

/-- `state.player_positions[p]`. -/
def GameState.pos (s : GameState) : Player → Coord
  | .one => s.pos_one
  | .two => s.pos_two

/-- `state.player_walls[p]`. -/
def GameState.budget (s : GameState) : Player → Int
  | .one => s.budget_one
  | .two => s.budget_two

/-- Functional update of one player's position. -/
def GameState.set_pos (s : GameState) (p : Player) (t : Coord) : GameState :=
  match p with
  | .one => { s with pos_one := t }
  | .two => { s with pos_two := t }

/-- Functional decrement of one player's wall budget. -/
def GameState.dec_budget (s : GameState) (p : Player) : GameState :=
  match p with
  | .one => { s with budget_one := s.budget_one - 1 }
  | .two => { s with budget_two := s.budget_two - 1 }

/-- `GameState.is_game_over`: player one wins on row 8 (checked first),
player two wins on row 0. -/
def GameState.is_game_over (s : GameState) : Bool × Option Player :=
  if s.pos_one.1 = board_size - 1 then (true, some .one)
  else if s.pos_two.1 = 0 then (true, some .two)
  else (false, none)

/-- `create_new_game()`: both pawns on the centre column, empty wall set,
ten walls each, player one to move. -/
def create_new_game : GameState :=
  { pos_one := (0, 4)
    pos_two := (8, 4)
    walls := ∅
    budget_one := 10
    budget_two := 10
    current_player := .one }

/-- The distinguishable failure causes (`InvalidMoveError` messages). -/
inductive Err
  | not_your_turn
  | invalid_pawn_move
  | no_walls_left
  | wall_out_of_bounds
  | wall_duplicate
  | wall_overlap
  | wall_cross
  | wall_blocks_one
  | wall_blocks_two
  | no_valid_ai_move
deriving DecidableEq, Repr

instance {ε α : Type _} [DecidableEq ε] [DecidableEq α] :
    DecidableEq (Except ε α) := fun x y =>
  match x, y with
  | .error a, .error b =>
    if h : a = b then .isTrue (h ▸ rfl)
    else .isFalse fun hh => h (Except.error.inj hh)
  | .ok a, .ok b =>
    if h : a = b then .isTrue (h ▸ rfl)
    else .isFalse fun hh => h (Except.ok.inj hh)
  | .error _, .ok _ => .isFalse fun h => Except.noConfusion h
  | .ok _, .error _ => .isFalse fun h => Except.noConfusion h

/-- Whether a coordinate lies on the 9×9 board. -/
def in_bounds (c : Coord) : Prop :=
  0 ≤ c.1 ∧ c.1 < board_size ∧ 0 ≤ c.2 ∧ c.2 < board_size

instance (c : Coord) : Decidable (in_bounds c) := by
  unfold in_bounds; infer_instance

/-- `_is_wall_between(state, start, end)`: does a wall segment cross the
boundary between the two cells?  A vertical pair of cells is blocked by a
horizontal wall anchored at the smaller row in the shared column or one
column to its left; symmetrically for a horizontal pair. -/
def is_wall_between (walls : Finset Wall) (a b : Coord) : Prop :=
  if a.2 = b.2 then
    let r_wall := min a.1 b.1
    (⟨.h, r_wall, a.2⟩ : Wall) ∈ walls ∨
      (0 < a.2 ∧ (⟨.h, r_wall, a.2 - 1⟩ : Wall) ∈ walls)
  else if a.1 = b.1 then
    let c_wall := min a.2 b.2
    (⟨.v, a.1, c_wall⟩ : Wall) ∈ walls ∨
      (0 < a.1 ∧ (⟨.v, a.1 - 1, c_wall⟩ : Wall) ∈ walls)
  else False

instance (walls : Finset Wall) (a b : Coord) :
    Decidable (is_wall_between walls a b) := by
  unfold is_wall_between; infer_instance

/-- The four orthogonal neighbour cells, in the source's order
up, down, left, right. -/
def neighbors (c : Coord) : List Coord :=
  [(c.1 - 1, c.2), (c.1 + 1, c.2), (c.1, c.2 - 1), (c.1, c.2 + 1)]

/-- `get_possible_pawn_moves(state, player)`: the four orthogonal steps,
filtered by bounds and walls, with the straight-jump and diagonal-jump
rules when the neighbour cell holds the opponent. -/
def get_possible_pawn_moves (s : GameState) (p : Player) : List Coord :=
  let cur := s.pos p
  let opp := s.pos p.other
  (neighbors cur).flatMap fun m =>
    if ¬ in_bounds m then []
    else if is_wall_between s.walls cur m then []
    else if m = opp then
      let jump : Coord := (opp.1 + (opp.1 - cur.1), opp.2 + (opp.2 - cur.2))
      if in_bounds jump ∧ ¬ is_wall_between s.walls opp jump then [jump]
      else if cur.2 = opp.2 then
        ([-1, 1] : List Int).flatMap fun dc =>
          let d : Coord := (opp.1, opp.2 + dc)
          if 0 ≤ d.2 ∧ d.2 < board_size ∧ ¬ is_wall_between s.walls opp d then
            [d]
          else []
      else if cur.1 = opp.1 then
        ([-1, 1] : List Int).flatMap fun dr =>
          let d : Coord := (opp.1 + dr, opp.2)
          if 0 ≤ d.1 ∧ d.1 < board_size ∧ ¬ is_wall_between s.walls opp d then
            [d]
          else []
      else []
    else [m]

/-- `move_pawn(state, player, target)`: turn check, legality check, then a
new state with the position updated and the turn flipped. -/
def move_pawn (s : GameState) (p : Player) (t : Coord) :
    Except Err GameState :=
  if p ≠ s.current_player then .error .not_your_turn
  else if t ∉ get_possible_pawn_moves s p then .error .invalid_pawn_move
  else .ok { s.set_pos p t with current_player := p.other }

/-- The two parallel walls that would overlap a proposed wall (one anchor
unit to either side along its long axis). -/
def overlap_candidates (w : Wall) : List Wall :=
  match w.o with
  | .h => [⟨.h, w.r, w.c - 1⟩, ⟨.h, w.r, w.c + 1⟩]
  | .v => [⟨.v, w.r - 1, w.c⟩, ⟨.v, w.r + 1, w.c⟩]

/-- The perpendicular wall anchored at the same coordinates. -/
def crossing_wall (w : Wall) : Wall :=
  match w.o with
  | .h => ⟨.v, w.r, w.c⟩
  | .v => ⟨.h, w.r, w.c⟩

/-- `_validate_wall_placement(state, wall)`: bounds, duplicate, overlap and
crossing checks, in the source's order, each with its own error. -/
def validate_wall_placement (s : GameState) (w : Wall) : Except Err Unit :=
  if ¬ (0 ≤ w.r ∧ w.r < board_size - 1 ∧ 0 ≤ w.c ∧ w.c < board_size - 1) then
    .error .wall_out_of_bounds
  else if w ∈ s.walls then .error .wall_duplicate
  else if ∃ ow ∈ overlap_candidates w, ow ∈ s.walls then .error .wall_overlap
  else if crossing_wall w ∈ s.walls then .error .wall_cross
  else .ok ()

/-- One step of the BFS loop body of `_path_exists`: fold the four
neighbours of the popped cell, appending fresh, in-bounds, unblocked cells
to the queue and marking them visited. -/
def bfs_expand (walls : Finset Wall) (cur : Coord)
    (acc : List Coord × Finset Coord) : List Coord × Finset Coord :=
  (neighbors cur).foldl
    (fun acc m =>
      if m ∉ acc.2 ∧ in_bounds m ∧ ¬ is_wall_between walls cur m then
        (acc.1 ++ [m], insert m acc.2)
      else acc)
    acc

/-- The per-neighbour accumulator step of the `_path_exists` BFS loop
body (`bfs_expand` is its fold over the four neighbours). -/
def pstep (walls : Finset Wall) (cur : Coord)
    (acc : List Coord × Finset Coord) (m : Coord) :
    List Coord × Finset Coord :=
  if m ∉ acc.2 ∧ in_bounds m ∧ ¬ is_wall_between walls cur m then
    (acc.1 ++ [m], insert m acc.2)
  else acc

/-- The BFS loop of `_path_exists(state, start_pos, is_goal)`. -/
def path_exists_aux (walls : Finset Wall) (is_goal : Coord → Bool) :
    Nat → List Coord → Finset Coord → Bool
  | 0, _, _ => false
  | _ + 1, [], _ => false
  | fuel + 1, cur :: q, visited =>
    if is_goal cur then true
    else
      let step := bfs_expand walls cur (q, visited)
      path_exists_aux walls is_goal fuel step.1 step.2

/-- `_path_exists(state, start_pos, is_goal)`. -/
def path_exists (walls : Finset Wall) (start : Coord)
    (is_goal : Coord → Bool) : Bool :=
  path_exists_aux walls is_goal 200 [start] {start}

/-- The goal predicate of player one in `place_wall` (`pos[0] == 8`). -/
def goal_one (c : Coord) : Bool := c.1 == board_size - 1

/-- The goal predicate of player two in `place_wall` (`pos[0] == 0`). -/
def goal_two (c : Coord) : Bool := c.1 == 0

/-- `place_wall(state, player, wall)`: turn and budget checks, geometry
validation, then the dual path-existence check on the state with the wall
added; on success the wall is added, the budget decremented and the turn
flipped. -/
def place_wall (s : GameState) (p : Player) (w : Wall) :
    Except Err GameState :=
  if p ≠ s.current_player then .error .not_your_turn
  else if s.budget p ≤ 0 then .error .no_walls_left
  else
    match validate_wall_placement s w with
    | .error e => .error e
    | .ok _ =>
      let temp_walls := insert w s.walls
      if path_exists temp_walls s.pos_one goal_one then
        if path_exists temp_walls s.pos_two goal_two then
          .ok { s.dec_budget p with
                walls := temp_walls
                current_player := p.other }
        else .error .wall_blocks_two
      else .error .wall_blocks_one

/-- A move: `('deplacement', coord)` or `('mur', wall)`. -/
inductive Move
  | deplacement (t : Coord)
  | mur (w : Wall)
deriving DecidableEq, Repr

/-- The game session (`QuoridorGame`): the undo history (most recent state
first) and the current state. -/
structure Session where
  history : List GameState
  current : GameState
deriving DecidableEq

/-- A fresh session (`QuoridorGame.__init__`). -/
def new_session : Session := ⟨[], create_new_game⟩

/-- `QuoridorGame.play_move`: dispatch on the move type, acting as the
current player; on failure the session is unchanged (the history entry
pushed by the source is popped again in its `except` branch). -/
def Session.play_move (g : Session) (m : Move) : Except Err Session :=
  let p := g.current.current_player
  let r := match m with
    | .deplacement t => move_pawn g.current p t
    | .mur w => place_wall g.current p w
  match r with
  | .error e => .error e
  | .ok s' => .ok ⟨g.current :: g.history, s'⟩

/-- `QuoridorGame.undo_move`: pop the most recent saved state if any. -/
def Session.undo_move (g : Session) : Bool × Session :=
  match g with
  | ⟨[], _⟩ => (false, g)
  | ⟨prev :: rest, _⟩ => (true, ⟨rest, prev⟩)

/-!
## The AI (`ai.py`)

The AI module adopts the goal convention opposite to `core.py`: its path
functions send player one toward row 0 and player two toward row 8, while
`core.py`'s `is_game_over` and `place_wall` send player one toward row 8
and player two toward row 0.  The embedding reproduces the AI exactly as
written.
-/

/-- The goal row used by the AI's path functions (`ai.py`): row 0 for
player one and row 8 for player two — the reverse of the winning rows of
`core.py`. -/
def ai_goal_row : Player → Int
  | .one => 0
  | .two => board_size - 1

/-- Association-list lookup, modelling a Python `dict` keyed by cells. -/
def dlookup : List (Coord × Int) → Coord → Option Int
  | [], _ => none
  | (k, v) :: rest, c => if k = c then some v else dlookup rest c

/-- The BFS loop of `_get_shortest_path_length`: a queue of
(cell, distance) pairs and a visited set. -/
def shortest_aux (walls : Finset Wall) (is_goal : Coord → Bool) :
    Nat → List (Coord × Int) → Finset Coord → Option Int
  | 0, _, _ => none
  | _ + 1, [], _ => none
  | fuel + 1, cd :: q, visited =>
    if is_goal cd.1 then some cd.2
    else
      let step := (neighbors cd.1).foldl
        (fun (acc : List (Coord × Int) × Finset Coord) m =>
          if m ∉ acc.2 ∧ in_bounds m ∧ ¬ is_wall_between walls cd.1 m then
            (acc.1 ++ [(m, cd.2 + 1)], insert m acc.2)
          else acc)
        (q, visited)
      shortest_aux walls is_goal fuel step.1 step.2

/-- The per-neighbour accumulator step of the `_get_shortest_path_length`
BFS loop body (`shortest_aux`'s inner fold over the four neighbours, with
`d` the distance label of the popped cell). -/
def sstep (walls : Finset Wall) (cur : Coord) (d : Int)
    (acc : List (Coord × Int) × Finset Coord) (m : Coord) :
    List (Coord × Int) × Finset Coord :=
  if m ∉ acc.2 ∧ in_bounds m ∧ ¬ is_wall_between walls cur m then
    (acc.1 ++ [(m, d + 1)], insert m acc.2)
  else acc

/-- `_get_shortest_path_length(state, player)`: BFS hop count from the
player's position to the AI's goal row for that player (`none` models the
`float('inf')` returned when no path exists). -/
def shortest_path_length (s : GameState) (p : Player) : Option Int :=
  shortest_aux s.walls (fun c => c.1 == ai_goal_row p) 200
    [(s.pos p, 0)] {s.pos p}

/-- The multi-source BFS loop of `_get_all_distances_to_goal`: the
distance dictionary doubles as the visited set. -/
def all_dists_loop (walls : Finset Wall) :
    Nat → List Coord → List (Coord × Int) → List (Coord × Int)
  | 0, _, dists => dists
  | _ + 1, [], dists => dists
  | fuel + 1, cur :: q, dists =>
    let d := (dlookup dists cur).getD 0
    let step := (neighbors cur).foldl
      (fun (acc : List Coord × List (Coord × Int)) m =>
        if (dlookup acc.2 m).isNone ∧ in_bounds m ∧
            ¬ is_wall_between walls cur m then
          (acc.1 ++ [m], acc.2 ++ [(m, d + 1)])
        else acc)
      (q, dists)
    all_dists_loop walls fuel step.1 step.2

/-- The per-neighbour accumulator step of the `_get_all_distances_to_goal`
BFS loop body (`all_dists_loop`'s inner fold, with `d` the distance label
of the popped cell; the distance dictionary doubles as the visited set). -/
def astep (walls : Finset Wall) (cur : Coord) (d : Int)
    (acc : List Coord × List (Coord × Int)) (m : Coord) :
    List Coord × List (Coord × Int) :=
  if (dlookup acc.2 m).isNone ∧ in_bounds m ∧
      ¬ is_wall_between walls cur m then
    (acc.1 ++ [m], acc.2 ++ [(m, d + 1)])
  else acc

/-- The nine cells of a goal row, in column order 0..8. -/
def goal_seeds (g : Int) : List Coord :=
  (List.range 9).map fun (c : Nat) => (g, (c : Int))

/-- The body of `_get_all_distances_to_goal`, as a function of the wall
set and the goal row (the only parts of the state it reads). -/
def all_dists_core (walls : Finset Wall) (g : Int) : List (Coord × Int) :=
  all_dists_loop walls 200 (goal_seeds g) ((goal_seeds g).map fun c => (c, 0))

/-- `_get_all_distances_to_goal(state, player)`: distances of every
reachable cell from the AI's goal row of the player. -/
def get_all_distances_to_goal (s : GameState) (p : Player) :
    List (Coord × Int) :=
  all_dists_core s.walls (ai_goal_row p)

/-- `_get_path_metrics(state, player)`: `(L1, L2, fragility)`, with
`none` modelling the `float('inf')` components. -/
def path_metrics (s : GameState) (p : Player) :
    Option Int × Option Int × Int :=
  let dists := get_all_distances_to_goal s p
  let pos := s.pos p
  if dlookup dists pos = some 0 then (some 0, some 0, 0)
  else
    let nd := (neighbors pos).foldl
      (fun (acc : List Int) m =>
        if in_bounds m ∧ ¬ is_wall_between s.walls pos m then
          match dlookup dists m with
          | some dv => acc ++ [dv]
          | none => acc
        else acc) []
    match nd.insertionSort (· ≤ ·) with
    | [] => (none, none, 0)
    | [d0] => (some (d0 + 1), some (d0 + 1 + 10), 10)
    | d0 :: d1 :: _ => (some (d0 + 1), some (d1 + 1), (d1 + 1) - (d0 + 1))

/-- `AI._evaluate_state` for an AI controlling `me`: win/loss detection,
then the weighted heuristic of `ai.py` (distance differential, fragility,
endgame bonuses, wall budgets, mobility, centrality). -/
def evaluate_state (me : Player) (s : GameState) : Int :=
  let og := s.is_game_over
  if og.1 = true ∧ og.2 = some me then 20000
  else if og.1 = true ∧ og.2 = some me.other then -20000
  else
    let m_me := path_metrics s me
    let m_opp := path_metrics s me.other
    match m_me.1, m_opp.1 with
    | none, _ => -20000
    | some _, none => 20000
    | some l1i, some l1o =>
      let fi := m_me.2.2
      let fo := m_opp.2.2
      let score := 150 * (l1o - l1i) - 25 * fi + 25 * fo
      let score := if l1i ≤ 3 then score + 500 else score
      let score := if l1o ≤ 3 then score - 500 else score
      let score := if l1i ≤ 2 then score + 200 else score
      let score := if l1o ≤ 2 then score - 200 else score
      let mw := s.budget me
      let ow := s.budget me.other
      let score := score + 15 * (mw - ow)
      let score := if l1o ≤ 4 ∧ 0 < mw then score + 30 * mw else score
      let score := if l1i ≤ 4 ∧ 0 < ow then score - 30 * ow else score
      let score := score +
        8 * (((get_possible_pawn_moves s me).length : Int) -
             ((get_possible_pawn_moves s me.other).length : Int))
      score - 5 * |(s.pos me).2 - 4| + 5 * |(s.pos me.other).2 - 4|

/-- `AI._is_wall_valid(state, player, wall)`: geometry via
`_validate_wall_placement`, then the dual path checks — with the AI's
reversed goal rows (player one toward row 0, player two toward row 8). -/
def is_wall_valid (s : GameState) (_p : Player) (w : Wall) : Bool :=
  match validate_wall_placement s w with
  | .error _ => false
  | .ok _ =>
    let temp_walls := insert w s.walls
    path_exists temp_walls s.pos_one (fun c => c.1 == 0) &&
      path_exists temp_walls s.pos_two (fun c => c.1 == board_size - 1)

/-- The geometrically placeable wall anchors within two cells of a
position, in the source's loop order (row offset, column offset,
then `'h'` before `'v'`). -/
def square_candidates (pos : Coord) : List Wall :=
  ([-2, -1, 0, 1, 2] : List Int).flatMap fun dr =>
    ([-2, -1, 0, 1, 2] : List Int).flatMap fun dc =>
      ([Orient.h, Orient.v]).filterMap fun o =>
        let r := pos.1 + dr
        let c := pos.2 + dc
        if 0 ≤ r ∧ r < board_size - 1 ∧ 0 ≤ c ∧ c < board_size - 1 then
          some ⟨o, r, c⟩
        else none

/-- The walls enumerated by `AI._get_strategic_walls` before
deduplication: the anchors around the opponent, then those around the
acting player. -/
def candidate_list (s : GameState) (p : Player) : List Wall :=
  square_candidates (s.pos p.other) ++ square_candidates (s.pos p)

/-- The strategic wall candidate set of `AI._get_strategic_walls`: all
anchors within two cells of either pawn (the source's Python `set`,
before the random shuffle and the cap at 20). -/
def strategic_wall_candidates (s : GameState) (p : Player) : Finset Wall :=
  (candidate_list s p).toFinset

/-- A selection function modelling one outcome of the random
`shuffle`-then-truncate of `_get_strategic_walls`. -/
abbrev SelFn : Type := GameState → Player → List Wall

/-- What a legitimate outcome of `_get_strategic_walls` looks like: a
duplicate-free list drawn from the candidate set whose length is that of
the shuffled list truncated to 20 elements. -/
def SelOK (sel : SelFn) : Prop :=
  ∀ s p, (sel s p).Nodup ∧ (∀ w ∈ sel s p, w ∈ strategic_wall_candidates s p) ∧
    (sel s p).length = min (strategic_wall_candidates s p).card 20

/-- One concrete selection outcome: the deduplicated candidate list,
truncated to 20 entries. -/
def default_sel : SelFn := fun s p => (candidate_list s p).dedup.take 20

/-- `AI._get_all_possible_moves`: all pawn moves, then the selected wall
candidates that pass `_is_wall_valid`, when the player still has walls. -/
def get_all_possible_moves (sel : SelFn) (s : GameState) : List Move :=
  let p := s.current_player
  let pawn := (get_possible_pawn_moves s p).map Move.deplacement
  if 0 < s.budget p then
    pawn ++ ((sel s p).filter fun w => is_wall_valid s p w).map Move.mur
  else pawn

/-- `AI._apply_move`: dispatch acting as the state's current player. -/
def apply_move (s : GameState) (m : Move) : Except Err GameState :=
  match m with
  | .deplacement t => move_pawn s s.current_player t
  | .mur w => place_wall s s.current_player w

/-- Minimax scores: Python floats that are either an exact integer or one
of the two infinite sentinels `±math.inf`. -/
inductive XInt
  | neg_inf
  | fin (n : Int)
  | pos_inf
deriving DecidableEq, Repr

/-- The float comparison `a <= b` on scores. -/
def XInt.ble : XInt → XInt → Bool
  | .neg_inf, _ => true
  | _, .pos_inf => true
  | .pos_inf, _ => false
  | .fin _, .neg_inf => false
  | .fin a, .fin b => a ≤ b

/-- The float comparison `a < b` on scores. -/
def XInt.blt (a b : XInt) : Bool := ! XInt.ble b a

/-- Python `max(a, b)` (keeps the first argument on ties). -/
def XInt.max2 (a b : XInt) : XInt := if XInt.ble b a then a else b

/-- Python `min(a, b)` (keeps the first argument on ties). -/
def XInt.min2 (a b : XInt) : XInt := if XInt.ble a b then a else b

/-- The content hashed by `AI._state_hash`: the two positions, the wall
set and the player to move — not the wall budgets.  Python's integer
hash is modelled as injective on this content. -/
def state_key (s : GameState) : Coord × Coord × Finset Wall × Player :=
  (s.pos_one, s.pos_two, s.walls, s.current_player)

/-- The transposition table: canonical content ↦ (depth, score).
Insertion shadows older entries, as assignment to a `dict` key does. -/
abbrev Table : Type := List ((Coord × Coord × Finset Wall × Player) × Nat × XInt)

/-- Dictionary lookup in the transposition table. -/
def table_lookup : Table → Coord × Coord × Finset Wall × Player →
    Option (Nat × XInt)
  | [], _ => none
  | (k, v) :: rest, key => if k = key then some v else table_lookup rest key

/-- Dictionary assignment in the transposition table. -/
def table_insert (t : Table) (k : Coord × Coord × Finset Wall × Player)
    (v : Nat × XInt) : Table :=
  (k, v) :: t

/-- The maximizing loop of `AI._minimax`: fold the candidate moves,
skipping failing ones, tracking the running maximum and raising `alpha`,
and breaking out once `beta <= alpha`. -/
def max_loop (f : GameState → XInt → XInt → Table → XInt × Table)
    (s : GameState) :
    List Move → XInt → XInt → XInt → Table → XInt × Table
  | [], best, _, _, table => (best, table)
  | m :: rest, best, alpha, beta, table =>
    match apply_move s m with
    | .error _ => max_loop f s rest best alpha beta table
    | .ok ns =>
      let vt := f ns alpha beta table
      let best' := XInt.max2 best vt.1
      let alpha' := XInt.max2 alpha vt.1
      if XInt.ble beta alpha' then (best', vt.2)
      else max_loop f s rest best' alpha' beta vt.2

/-- The minimizing loop of `AI._minimax`, symmetric to `max_loop`. -/
def min_loop (f : GameState → XInt → XInt → Table → XInt × Table)
    (s : GameState) :
    List Move → XInt → XInt → XInt → Table → XInt × Table
  | [], best, _, _, table => (best, table)
  | m :: rest, best, alpha, beta, table =>
    match apply_move s m with
    | .error _ => min_loop f s rest best alpha beta table
    | .ok ns =>
      let vt := f ns alpha beta table
      let best' := XInt.min2 best vt.1
      let beta' := XInt.min2 beta vt.1
      if XInt.ble beta' alpha then (best', vt.2)
      else min_loop f s rest best' alpha beta' vt.2

/-- `AI._minimax(state, depth, alpha, beta, is_maximizing)` with the
transposition table threaded explicitly: cache check first (reusable when
the cached depth is at least the requested depth), then the depth-0 or
game-over leaf evaluation, else the pruned maximizing or minimizing loop;
the computed value is stored at the current depth before returning. -/
def minimax (me : Player) (sel : SelFn) :
    Nat → GameState → XInt → XInt → Bool → Table → XInt × Table
  | 0, s, _, _, _, table =>
    let k := state_key s
    match table_lookup table k with
    | some (_, cv) => (cv, table)
    | none =>
      let e := XInt.fin (evaluate_state me s)
      (e, table_insert table k (0, e))
  | d + 1, s, alpha, beta, maxing, table =>
    let k := state_key s
    let cached := match table_lookup table k with
      | some (cd, cv) => if d + 1 ≤ cd then some cv else none
      | none => none
    match cached with
    | some cv => (cv, table)
    | none =>
      if (s.is_game_over).1 = true then
        let e := XInt.fin (evaluate_state me s)
        (e, table_insert table k (d + 1, e))
      else
        let moves := get_all_possible_moves sel s
        if maxing then
          let r := max_loop (fun ns a b tb => minimax me sel d ns a b false tb)
            s moves .neg_inf alpha beta table
          (r.1, table_insert r.2 k (d + 1, r.1))
        else
          let r := min_loop (fun ns a b tb => minimax me sel d ns a b true tb)
            s moves .pos_inf alpha beta table
          (r.1, table_insert r.2 k (d + 1, r.1))

/-- Modelled from the spec: the exhaustive, unpruned, uncached minimax
over the same game tree — the same move generator, the same skipping of
failing candidates, and the same evaluation function at depth-0 or
terminal leaves — used as the reference point of the alpha-beta claim. -/
def plain_minimax (me : Player) (sel : SelFn) :
    Nat → GameState → Bool → XInt
  | 0, s, _ => .fin (evaluate_state me s)
  | d + 1, s, maxing =>
    if (s.is_game_over).1 = true then .fin (evaluate_state me s)
    else
      let moves := get_all_possible_moves sel s
      if maxing then
        moves.foldl
          (fun best m =>
            match apply_move s m with
            | .error _ => best
            | .ok ns => XInt.max2 best (plain_minimax me sel d ns false))
          .neg_inf
      else
        moves.foldl
          (fun best m =>
            match apply_move s m with
            | .error _ => best
            | .ok ns => XInt.min2 best (plain_minimax me sel d ns true))
          .pos_inf

/-- The root loop of `AI.find_best_move`: evaluate each candidate with a
fresh full window, strictly improving the running best. -/
def best_loop (me : Player) (sel : SelFn) (d : Nat) (s : GameState) :
    List Move → Option Move → XInt → Table → Option Move × XInt × Table
  | [], best, bv, table => (best, bv, table)
  | m :: rest, best, bv, table =>
    match apply_move s m with
    | .error _ => best_loop me sel d s rest best bv table
    | .ok ns =>
      let vt := minimax me sel d ns .neg_inf .pos_inf false table
      if XInt.blt bv vt.1 then best_loop me sel d s rest (some m) vt.1 vt.2
      else best_loop me sel d s rest best bv vt.2

/-- `AI.find_best_move`: scan the (already shuffled) root candidates with
`_minimax(depth - 1, -inf, +inf, minimizing)`, then the defensive
fallback — `random.choice` over the pawn moves is modelled as taking the
first one; no theorem below reaches the fallback. -/
def find_best_move (me : Player) (sel : SelFn) (depth : Nat) (s : GameState)
    (shuffled : List Move) (table : Table) : Except Err Move :=
  match best_loop me sel (depth - 1) s shuffled none .neg_inf table with
  | (some m, _, _) => .ok m
  | (none, _, _) =>
    match get_possible_pawn_moves s s.current_player with
    | [] => .error .no_valid_ai_move
    | c :: _ => .ok (.deplacement c)

/-- The comparison the root loop performs on every candidate after the
first: `True` of this predicate records that no remaining candidate's
search value strictly exceeds the running best `bv`, with the
transposition table threaded exactly as `best_loop` threads it. -/
def loop_values_le (me : Player) (sel : SelFn) (d : Nat) (s : GameState) :
    List Move → XInt → Table → Bool
  | [], _, _ => true
  | m :: rest, bv, table =>
    match apply_move s m with
    | .error _ => loop_values_le me sel d s rest bv table
    | .ok ns =>
      let vt := minimax me sel d ns .neg_inf .pos_inf false table
      XInt.ble vt.1 bv && loop_values_le me sel d s rest bv vt.2

/-- The maximizing loop of the alpha-beta recursion with the
transposition table disabled (used to isolate the effect of the cache). -/
def max_loop_nt (f : GameState → XInt → XInt → XInt) (s : GameState) :
    List Move → XInt → XInt → XInt → XInt
  | [], best, _, _ => best
  | m :: rest, best, alpha, beta =>
    match apply_move s m with
    | .error _ => max_loop_nt f s rest best alpha beta
    | .ok ns =>
      let v := f ns alpha beta
      let best' := XInt.max2 best v
      let alpha' := XInt.max2 alpha v
      if XInt.ble beta alpha' then best'
      else max_loop_nt f s rest best' alpha' beta

/-- The minimizing loop of the cache-free alpha-beta recursion. -/
def min_loop_nt (f : GameState → XInt → XInt → XInt) (s : GameState) :
    List Move → XInt → XInt → XInt → XInt
  | [], best, _, _ => best
  | m :: rest, best, alpha, beta =>
    match apply_move s m with
    | .error _ => min_loop_nt f s rest best alpha beta
    | .ok ns =>
      let v := f ns alpha beta
      let best' := XInt.min2 best v
      let beta' := XInt.min2 beta v
      if XInt.ble beta' alpha then best'
      else min_loop_nt f s rest best' alpha beta'

/-- `AI._minimax` with the transposition table removed and everything
else unchanged: the same leaf evaluation, move generation, skipping of
failing moves, and alpha-beta pruning. -/
def minimax_no_tt (me : Player) (sel : SelFn) :
    Nat → GameState → XInt → XInt → Bool → XInt
  | 0, s, _, _, _ => .fin (evaluate_state me s)
  | d + 1, s, alpha, beta, maxing =>
    if (s.is_game_over).1 = true then .fin (evaluate_state me s)
    else
      let moves := get_all_possible_moves sel s
      if maxing then
        max_loop_nt (fun ns a b => minimax_no_tt me sel d ns a b false)
          s moves .neg_inf alpha beta
      else
        min_loop_nt (fun ns a b => minimax_no_tt me sel d ns a b true)
          s moves .pos_inf alpha beta

/-- The accumulator step of the plain maximizing fold, abstracted over
the child evaluation. -/
def pfold_max (p : GameState → XInt) (s : GameState) (best : XInt)
    (m : Move) : XInt :=
  match apply_move s m with
  | .error _ => best
  | .ok ns => XInt.max2 best (p ns)

/-- The accumulator step of the plain minimizing fold, abstracted over
the child evaluation. -/
def pfold_min (p : GameState → XInt) (s : GameState) (best : XInt)
    (m : Move) : XInt :=
  match apply_move s m with
  | .error _ => best
  | .ok ns => XInt.min2 best (p ns)

/-!
## Specification-side notions

The no-block invariant and the graph-theoretic reading of the breadth
first searches.
-/

/-- Both players can still reach their own goal rows (player one row 8,
player two row 0), through the engine's own path test. -/
def both_have_paths (s : GameState) : Prop :=
  path_exists s.walls s.pos_one goal_one = true ∧
  path_exists s.walls s.pos_two goal_two = true

/-- The states reachable from `create_new_game()` by legal operations. -/
inductive Reachable : GameState → Prop
  | init : Reachable create_new_game
  | pawn {s : GameState} {p : Player} {t : Coord} {s' : GameState} :
      Reachable s → move_pawn s p t = .ok s' → Reachable s'
  | wall {s : GameState} {p : Player} {w : Wall} {s' : GameState} :
      Reachable s → place_wall s p w = .ok s' → Reachable s'

/-- One traversable grid edge as the BFS loops see it: `b` is one of the
four neighbours of `a`, lies on the board, and the boundary between the
two cells is not walled. -/
def step_adj (walls : Finset Wall) (a b : Coord) : Prop :=
  b ∈ neighbors a ∧ in_bounds b ∧ ¬ is_wall_between walls a b

/-- `reach_in walls S n v`: the cell `v` is within `n` traversable edges
of the source set `S`. -/
def reach_in (walls : Finset Wall) (S : Coord → Prop) : Nat → Coord → Prop
  | 0 => S
  | n + 1 => fun v =>
      reach_in walls S n v ∨ ∃ u, reach_in walls S n u ∧ step_adj walls u v

/-- `d` is the exact BFS distance of `v` from the source set. -/
def dist_is (walls : Finset Wall) (S : Coord → Prop) (v : Coord) (d : Nat) :
    Prop :=
  reach_in walls S d v ∧ ∀ k, reach_in walls S k v → d ≤ k

/-- The eighty-one cells of the board, as a finite set. -/
def board_cells : Finset Coord :=
  (Finset.range 9 ×ˢ Finset.range 9).image fun rc =>
    ((rc.1 : Int), (rc.2 : Int))

/-!
## Concrete states used to settle individual claims
-/

/-- C2: player one standing next to its true goal row (one step from
row 8), player two far away. -/
def c2s : GameState :=
  { pos_one := (7, 4), pos_two := (1, 4), walls := ∅,
    budget_one := 10, budget_two := 10, current_player := .one }

/-- C3: five walls of a near-complete barrier between rows 4/5; the
sixth wall `c3w` completes it. -/
def c3_walls : Finset Wall :=
  {⟨.h, 4, 0⟩, ⟨.h, 4, 2⟩, ⟨.h, 4, 4⟩, ⟨.h, 5, 5⟩, ⟨.h, 5, 7⟩}

/-- C3: the barrier state: player one above the barrier, player two
below it and within two cells of the sealing wall's anchor. -/
def c3s : GameState :=
  { pos_one := (0, 4), pos_two := (6, 5), walls := c3_walls,
    budget_one := 5, budget_two := 5, current_player := .two }

/-- C3: the sealing wall. -/
def c3w : Wall := ⟨.v, 4, 5⟩

/-- C3: one concrete shuffled-and-capped selection outcome at `c3s`: the
sealing wall first, then nineteen other strategic candidates. -/
def c3_list : List Wall :=
  [⟨.v, 4, 5⟩, ⟨.h, 0, 2⟩, ⟨.h, 0, 3⟩, ⟨.h, 0, 4⟩, ⟨.h, 0, 5⟩, ⟨.h, 0, 6⟩,
   ⟨.h, 1, 2⟩, ⟨.h, 1, 3⟩, ⟨.h, 1, 4⟩, ⟨.h, 1, 5⟩, ⟨.h, 1, 6⟩, ⟨.h, 2, 2⟩,
   ⟨.h, 2, 3⟩, ⟨.h, 2, 4⟩, ⟨.h, 2, 5⟩, ⟨.h, 2, 6⟩, ⟨.h, 4, 3⟩, ⟨.h, 4, 4⟩,
   ⟨.h, 4, 5⟩, ⟨.h, 4, 6⟩]

/-- C3: the selection function realizing that outcome (elsewhere it
falls back to the deterministic default outcome). -/
def c3_sel : SelFn := fun s p =>
  if s = c3s ∧ p = .two then c3_list else default_sel s p

/-- C4: a wall set carving two small separated zones around columns 6–8
(cheap to search exhaustively). -/
def c4_walls : Finset Wall :=
  {⟨.h, 2, 7⟩, ⟨.v, 7, 5⟩, ⟨.h, 0, 4⟩, ⟨.h, 7, 0⟩, ⟨.v, 3, 5⟩, ⟨.h, 5, 7⟩,
   ⟨.v, 0, 7⟩, ⟨.v, 5, 5⟩, ⟨.v, 7, 7⟩, ⟨.h, 0, 0⟩, ⟨.h, 7, 2⟩, ⟨.v, 1, 5⟩,
   ⟨.h, 1, 6⟩, ⟨.h, 0, 2⟩, ⟨.h, 7, 4⟩}

/-- C4: the state on which the cached and the exhaustive search scores
differ at depth 4. -/
def c4s : GameState :=
  { pos_one := (1, 8), pos_two := (2, 7), walls := c4_walls,
    budget_one := 0, budget_two := 0, current_player := .one }

/-- C5: walls confining the AI's distance fields to small pockets around
the two goal rows; no terminal position is masked. -/
def c5_walls : Finset Wall :=
  {⟨.h, 0, 2⟩, ⟨.h, 0, 4⟩, ⟨.h, 0, 6⟩, ⟨.h, 1, 0⟩, ⟨.h, 1, 7⟩, ⟨.v, 1, 6⟩,
   ⟨.v, 1, 1⟩, ⟨.h, 7, 1⟩, ⟨.h, 7, 3⟩, ⟨.h, 7, 5⟩, ⟨.h, 7, 7⟩, ⟨.h, 6, 0⟩,
   ⟨.v, 7, 0⟩}

/-- C5: player two to move, one legal step from row 0 (`(1,0) → (0,0)`),
player one far from row 8 and out of walls. -/
def c5s : GameState :=
  { pos_one := (4, 4), pos_two := (1, 0), walls := c5_walls,
    budget_one := 0, budget_two := 0, current_player := .two }

/-- C5: a shuffle outcome that lists the stalling sideways move before
the immediately winning move. -/
def c5_order : List Move := [.deplacement (1, 1), .deplacement (0, 0)]

/-- C5 (amended-claim witness): the `c5s` pocket walls with the cell
`(2,0)` opened from above and resealed below, so that player two has a
third pawn move `(2,0)` that traps it away from its search goal row and
scores far below the win. -/
def c5b_walls : Finset Wall :=
  {⟨.h, 0, 2⟩, ⟨.h, 0, 4⟩, ⟨.h, 0, 6⟩, ⟨.h, 2, 0⟩, ⟨.h, 1, 7⟩, ⟨.v, 1, 6⟩,
   ⟨.v, 1, 1⟩, ⟨.h, 7, 1⟩, ⟨.h, 7, 3⟩, ⟨.h, 7, 5⟩, ⟨.h, 7, 7⟩, ⟨.h, 6, 0⟩,
   ⟨.v, 7, 0⟩}

/-- C5 (amended-claim witness): player two to move with three pawn
moves — the immediate win `(0,0)`, the low-scoring trap `(2,0)` and the
stalling `(1,1)`. -/
def c5b : GameState :=
  { pos_one := (4, 4), pos_two := (1, 0), walls := c5b_walls,
    budget_one := 0, budget_two := 0, current_player := .two }

/-- C5 (amended-claim witness): the state after player two plays the
winning step `(1,0) → (0,0)` at `c5b`. -/
def c5b_win : GameState :=
  { pos_one := (4, 4), pos_two := (0, 0), walls := c5b_walls,
    budget_one := 0, budget_two := 0, current_player := .one }

/-- C1's witness wall and resulting state: the first wall of a fresh
game. -/
def c1_result : GameState :=
  { pos_one := (0, 4), pos_two := (8, 4),
    walls := {⟨.h, 1, 4⟩},
    budget_one := 9, budget_two := 10, current_player := .two }

/-- C6's witness: the state after `move_pawn` of player one to `(1,4)`
from a fresh game. -/
def c6_result : GameState :=
  { pos_one := (1, 4), pos_two := (8, 4), walls := ∅,
    budget_one := 10, budget_two := 10, current_player := .two }

/-- C8's witness: the session after playing that pawn move. -/
def c8_result : Session := ⟨[create_new_game], c6_result⟩

/-- C10's witness: a finished game (player two stands on row 0), player
one to move. -/
def c10s : GameState :=
  { pos_one := (4, 4), pos_two := (0, 3), walls := ∅,
    budget_one := 10, budget_two := 10, current_player := .one }

/-- Claim C7's rule (a): the anchor lies outside `[0, N-2]²`. -/
def rule_oob (w : Wall) : Prop :=
  ¬ (0 ≤ w.r ∧ w.r ≤ board_size - 2 ∧ 0 ≤ w.c ∧ w.c ≤ board_size - 2)

instance (w : Wall) : Decidable (rule_oob w) := by
  unfold rule_oob; infer_instance

/-- Claim C7's rule (b): an identical wall already exists. -/
def rule_dup (s : GameState) (w : Wall) : Prop := w ∈ s.walls

/-- Claim C7's rule (c): a same-orientation wall anchored one unit to
either side along the wall's long axis exists (column ±1 for horizontal
walls, row ±1 for vertical ones). -/
def rule_overlap (s : GameState) (w : Wall) : Prop :=
  (w.o = .h ∧ ((⟨.h, w.r, w.c - 1⟩ : Wall) ∈ s.walls ∨
    (⟨.h, w.r, w.c + 1⟩ : Wall) ∈ s.walls)) ∨
  (w.o = .v ∧ ((⟨.v, w.r - 1, w.c⟩ : Wall) ∈ s.walls ∨
    (⟨.v, w.r + 1, w.c⟩ : Wall) ∈ s.walls))

/-- Claim C7's rule (d): a perpendicular wall anchored at the exact same
coordinates exists. -/
def rule_cross (s : GameState) (w : Wall) : Prop :=
  (w.o = .h ∧ (⟨.v, w.r, w.c⟩ : Wall) ∈ s.walls) ∨
  (w.o = .v ∧ (⟨.h, w.r, w.c⟩ : Wall) ∈ s.walls)

/-!
# Theorems

Shared helper lemmas first, then one theorem per claim, each with a
witness where the statement carries hypotheses.
-/

/-- The deterministic default selection is a legitimate outcome of
`_get_strategic_walls`'s shuffle-and-truncate. -/
theorem default_sel_ok : SelOK default_sel := by
  intro s p
  refine ⟨?_, ?_, ?_⟩
  · exact ((candidate_list s p).nodup_dedup).sublist (List.take_sublist _ _)
  · intro w hw
    rw [strategic_wall_candidates, List.mem_toFinset]
    exact (candidate_list s p).dedup_subset (List.take_subset _ _ hw)
  · show ((candidate_list s p).dedup.take 20).length = _
    rw [List.length_take, strategic_wall_candidates, List.card_toFinset,
      Nat.min_comm]

/-- C6: `move_pawn` fails exactly when the mover is not the current
player or the target is not among the legal pawn moves; on success the
new state has the mover at the target, the turn flipped, and everything
else unchanged. -/
theorem c6_move_pawn_contract (s : GameState) (p : Player) (t : Coord) :
    ((∃ e, move_pawn s p t = .error e) ↔
      p ≠ s.current_player ∨ t ∉ get_possible_pawn_moves s p) ∧
    (∀ s', move_pawn s p t = .ok s' →
      s'.pos p = t ∧ s'.pos p.other = s.pos p.other ∧
      s'.walls = s.walls ∧ s'.budget_one = s.budget_one ∧
      s'.budget_two = s.budget_two ∧ s'.current_player = p.other) := by
  constructor
  · constructor
    · rintro ⟨e, he⟩
      by_contra hc
      push_neg at hc
      rw [move_pawn, if_neg (by simpa using hc.1), if_neg (by simpa using hc.2)]
        at he
      cases he
    · intro h
      rw [move_pawn]
      rcases h with h | h
      · rw [if_pos h]; exact ⟨_, rfl⟩
      · by_cases hp : p ≠ s.current_player
        · rw [if_pos hp]; exact ⟨_, rfl⟩
        · rw [if_neg hp, if_pos h]; exact ⟨_, rfl⟩
  · intro s' h
    rw [move_pawn] at h
    split_ifs at h
    cases h
    cases p <;>
      simp [GameState.set_pos, GameState.pos, GameState.budget, Player.other]

/-- C6 witness: playing `(1,4)` from the initial state. -/
theorem c6_move_pawn_contract_witness :
    c6_result.pos .one = (1, 4) ∧ c6_result.walls = create_new_game.walls :=
  have h : move_pawn create_new_game .one (1, 4) = .ok c6_result := by decide
  ⟨((c6_move_pawn_contract create_new_game .one (1, 4)).2 c6_result h).1,
   ((c6_move_pawn_contract create_new_game .one (1, 4)).2 c6_result h).2.2.1⟩

/-- The source's bound test matches rule (a). -/
theorem oob_bridge (w : Wall) :
    (¬ (0 ≤ w.r ∧ w.r < board_size - 1 ∧ 0 ≤ w.c ∧ w.c < board_size - 1)) ↔
      rule_oob w := by
  unfold rule_oob board_size
  constructor <;> (intro h hc; exact h (by omega))

/-- The source's overlap scan matches rule (c). -/
theorem overlap_bridge (s : GameState) (w : Wall) :
    (∃ ow ∈ overlap_candidates w, ow ∈ s.walls) ↔ rule_overlap s w := by
  rcases w with ⟨o, r, c⟩
  cases o <;> simp [overlap_candidates, rule_overlap]

/-- The source's crossing test matches rule (d). -/
theorem cross_bridge (s : GameState) (w : Wall) :
    (crossing_wall w ∈ s.walls) ↔ rule_cross s w := by
  rcases w with ⟨o, r, c⟩
  cases o <;> simp [crossing_wall, rule_cross]

/-- C7: `_validate_wall_placement` fails exactly on the four geometric
rules — out-of-bounds anchor, duplicate wall, overlapping parallel wall,
crossing perpendicular wall — each with its own error (the source checks
them in this order), and returns normally otherwise. -/
theorem c7_validate_wall_geometry_exact (s : GameState) (w : Wall) :
    ((∃ e, validate_wall_placement s w = .error e) ↔
      rule_oob w ∨ rule_dup s w ∨ rule_overlap s w ∨ rule_cross s w) ∧
    (validate_wall_placement s w = .error .wall_out_of_bounds ↔ rule_oob w) ∧
    (validate_wall_placement s w = .error .wall_duplicate ↔
      ¬ rule_oob w ∧ rule_dup s w) ∧
    (validate_wall_placement s w = .error .wall_overlap ↔
      ¬ rule_oob w ∧ ¬ rule_dup s w ∧ rule_overlap s w) ∧
    (validate_wall_placement s w = .error .wall_cross ↔
      ¬ rule_oob w ∧ ¬ rule_dup s w ∧ ¬ rule_overlap s w ∧ rule_cross s w) ∧
    (validate_wall_placement s w = .ok () ↔
      ¬ rule_oob w ∧ ¬ rule_dup s w ∧ ¬ rule_overlap s w ∧ ¬ rule_cross s w)
    := by
  have ho := overlap_bridge s w
  have hx := cross_bridge s w
  unfold validate_wall_placement
  split_ifs with h1 h2 h3 h4
  · have h1' : ¬ rule_oob w := by unfold rule_oob board_size at *; omega
    have h2' : rule_dup s w := by unfold rule_dup; exact h2
    simp [h1', h2']
  · have h1' : ¬ rule_oob w := by unfold rule_oob board_size at *; omega
    have h2' : ¬ rule_dup s w := by unfold rule_dup; exact h2
    have h3' : rule_overlap s w := ho.mp h3
    simp [h1', h2', h3']
  · have h1' : ¬ rule_oob w := by unfold rule_oob board_size at *; omega
    have h2' : ¬ rule_dup s w := by unfold rule_dup; exact h2
    have h3' : ¬ rule_overlap s w := fun hc => h3 (ho.mpr hc)
    have h4' : rule_cross s w := hx.mp h4
    simp [h1', h2', h3', h4']
  · have h1' : ¬ rule_oob w := by unfold rule_oob board_size at *; omega
    have h2' : ¬ rule_dup s w := by unfold rule_dup; exact h2
    have h3' : ¬ rule_overlap s w := fun hc => h3 (ho.mpr hc)
    have h4' : ¬ rule_cross s w := fun hc => h4 (hx.mpr hc)
    simp [h1', h2', h3', h4']
  · have h1' : rule_oob w := by unfold rule_oob board_size at *; omega
    simp [h1']

/-- C7 witness: a wall outside the anchor range is rejected with the
bounds error in a fresh game. -/
theorem c7_validate_wall_geometry_exact_witness :
    validate_wall_placement create_new_game ⟨.h, 8, 4⟩ =
      .error .wall_out_of_bounds :=
  (c7_validate_wall_geometry_exact create_new_game ⟨.h, 8, 4⟩).2.1.mpr
    (by decide)

/-- C8: undoing immediately after a successful `play_move` restores the
whole session — in particular the positions, the wall set, the wall
budgets and the current player of its state — and reports `true`. -/
theorem c8_undo_round_trip (g : Session) (m : Move) (g' : Session)
    (h : g.play_move m = .ok g') :
    g'.undo_move = (true, g) := by
  rw [Session.play_move.eq_def] at h
  dsimp only at h
  rcases hr : (match m with
    | Move.deplacement t => move_pawn g.current g.current.current_player t
    | Move.mur w => place_wall g.current g.current.current_player w) with e | s'
  · rw [hr] at h
    cases h
  · rw [hr] at h
    cases h
    rfl

/-- C8 witness: play one pawn move in a fresh session and undo it. -/
theorem c8_undo_round_trip_witness :
    c8_result.undo_move = (true, new_session) :=
  c8_undo_round_trip new_session (.deplacement (1, 4)) c8_result (by decide)

/-- C10: in a finished game (here player two already stands on row 0),
the engine still accepts moves: any listed pawn move of the current
player succeeds, and any wall that passes the turn, budget, geometry and
dual-path checks succeeds — `is_game_over` reports termination but never
blocks an operation. -/
theorem c10_terminal_states_accept_moves (s : GameState) (t : Coord)
    (w : Wall) (_hover : (s.is_game_over).1 = true) :
    (t ∈ get_possible_pawn_moves s s.current_player →
      ∃ s', move_pawn s s.current_player t = .ok s') ∧
    (0 < s.budget s.current_player →
      validate_wall_placement s w = .ok () →
      path_exists (insert w s.walls) s.pos_one goal_one = true →
      path_exists (insert w s.walls) s.pos_two goal_two = true →
      ∃ s', place_wall s s.current_player w = .ok s') := by
  constructor
  · intro ht
    rw [move_pawn, if_neg (by simp), if_neg (by simpa using ht)]
    exact ⟨_, rfl⟩
  · intro hb hv h1 h2
    rw [place_wall, if_neg (by simp), if_neg (by omega), hv]
    rw [if_pos h1, if_pos h2]
    exact ⟨_, rfl⟩

/-- C10 witness: at `c10s` the game is over (player two on row 0), yet a
pawn move and a wall placement by player one both succeed. -/
theorem c10_terminal_states_accept_moves_witness :
    (∃ s', move_pawn c10s .one (5, 4) = .ok s') ∧
    (∃ s', place_wall c10s .one ⟨.h, 6, 4⟩ = .ok s') :=
  have h := c10_terminal_states_accept_moves c10s (5, 4) ⟨.h, 6, 4⟩ (by decide)
  ⟨h.1 (by decide), h.2 (by decide) (by decide) (by decide) (by decide)⟩

/-- C2: the AI's path metrics do not use the canonical goal rows.  With
player one at `(7, 4)` — one hop from its true goal row 8 — the AI's
shortest-path function reports 7 (the hop count to row 0), and its
multi-source field for player one is seeded at row 0 (distance 0 there,
distance 8 at `(8, 4)`), not at row 8 as the claim states. -/
theorem c2_ai_path_metrics_use_reversed_goal_rows :
    shortest_path_length c2s .one = some 7 ∧
    shortest_path_length c2s .one ≠ some 1 ∧
    dlookup (get_all_distances_to_goal c2s .one) (0, 4) = some 0 ∧
    dlookup (get_all_distances_to_goal c2s .one) (8, 4) = some 8 ∧
    ai_goal_row .one = 0 ∧ ai_goal_row .two = board_size - 1 ∧
    (c2s.is_game_over) = (false, none) ∧
    ({ c2s with pos_one := (8, 4) } : GameState).is_game_over =
      (true, some .one) := by
  have h1 : shortest_path_length c2s .one = some 7 := by decide
  refine ⟨h1, ?_, by decide, by decide, by decide, by decide, by decide,
    by decide⟩
  rw [h1]
  intro h
  cases h

/-- C3: the AI's wall pre-filter is unsound against `place_wall`.  At the
barrier state `c3s`, the sealing wall `c3w` is a strategic candidate and
`c3_sel` is a legitimate selection outcome listing it; `_is_wall_valid`
accepts it (its reversed-goal path checks pass), so the generated move
list contains it — but `place_wall` rejects it because player one can no
longer reach row 8. -/
theorem c3_generated_wall_rejected_by_place_wall :
    SelOK c3_sel ∧
    is_wall_valid c3s .two c3w = true ∧
    Move.mur c3w ∈ get_all_possible_moves c3_sel c3s ∧
    place_wall c3s .two c3w = .error .wall_blocks_one := by
  refine ⟨?_, by decide, by decide, by decide⟩
  intro s p
  by_cases h : s = c3s ∧ p = .two
  · rw [c3_sel, if_pos h, h.1, h.2]
    exact ⟨by decide, by decide, by decide⟩
  · rw [c3_sel, if_neg h]
    exact default_sel_ok s p

/-- C4: starting from an empty transposition table, `_minimax` with the
cache as implemented does not match the exhaustive minimax over the same
tree: at `c4s` with depth 4 (minimizing, full window) the cached search
returns 20000 while the exhaustive search returns −1282. -/
theorem c4_transposition_cache_changes_score :
    plain_minimax .two default_sel 4 c4s false = .fin (-1282) ∧
    (minimax .two default_sel 4 c4s .neg_inf .pos_inf false []).1 =
      .fin 20000 ∧
    (minimax .two default_sel 4 c4s .neg_inf .pos_inf false []).1 ≠
      plain_minimax .two default_sel 4 c4s false := by
  have h1 : plain_minimax .two default_sel 4 c4s false = .fin (-1282) := by
    decide
  have h2 : (minimax .two default_sel 4 c4s .neg_inf .pos_inf false []).1 =
      .fin 20000 := by decide
  refine ⟨h1, h2, ?_⟩
  rw [h1, h2]
  intro h
  have := XInt.fin.inj h
  omega

/-- `ble` is reflexive. -/
theorem XInt.ble_refl (a : XInt) : XInt.ble a a = true := by
  cases a <;> simp [XInt.ble]

/-- `ble` is transitive. -/
theorem XInt.ble_trans {a b c : XInt} (h1 : XInt.ble a b = true)
    (h2 : XInt.ble b c = true) : XInt.ble a c = true := by
  cases a <;> cases b <;> cases c <;> simp_all [XInt.ble] <;> omega

/-- `ble` is total. -/
theorem XInt.ble_total (a b : XInt) :
    XInt.ble a b = true ∨ XInt.ble b a = true := by
  cases a <;> cases b <;> simp [XInt.ble] <;> omega

/-- `ble` is antisymmetric. -/
theorem XInt.ble_antisymm {a b : XInt} (h1 : XInt.ble a b = true)
    (h2 : XInt.ble b a = true) : a = b := by
  cases a <;> cases b <;> simp_all [XInt.ble] <;> omega

/-- A failed comparison flips. -/
theorem XInt.ble_of_not_ble {a b : XInt} (h : XInt.ble a b = false) :
    XInt.ble b a = true := by
  rcases XInt.ble_total a b with h' | h'
  · rw [h'] at h; cases h
  · exact h'

/-- Bottom is below everything. -/
theorem XInt.neg_inf_ble (a : XInt) : XInt.ble .neg_inf a = true := by
  cases a <;> rfl

/-- Everything is below top. -/
theorem XInt.ble_pos_inf (a : XInt) : XInt.ble a .pos_inf = true := by
  cases a <;> rfl

/-- Only bottom is below bottom. -/
theorem XInt.eq_neg_inf_of_ble {a : XInt} (h : XInt.ble a .neg_inf = true) :
    a = .neg_inf := by
  cases a <;> simp_all [XInt.ble]

/-- Only top is above top. -/
theorem XInt.eq_pos_inf_of_ble {a : XInt} (h : XInt.ble .pos_inf a = true) :
    a = .pos_inf := by
  cases a <;> simp_all [XInt.ble]

/-- `max2` returns one of its arguments. -/
theorem XInt.max2_eq_or (a b : XInt) :
    XInt.max2 a b = a ∨ XInt.max2 a b = b := by
  rw [XInt.max2]; split_ifs <;> simp

/-- The first argument is below the maximum. -/
theorem XInt.le_max2_left (a b : XInt) :
    XInt.ble a (XInt.max2 a b) = true := by
  rw [XInt.max2]
  split_ifs with h
  · exact XInt.ble_refl a
  · simp only [Bool.not_eq_true] at h
    exact XInt.ble_of_not_ble h

/-- The second argument is below the maximum. -/
theorem XInt.le_max2_right (a b : XInt) :
    XInt.ble b (XInt.max2 a b) = true := by
  rw [XInt.max2]
  split_ifs with h
  · exact h
  · exact XInt.ble_refl b

/-- An upper bound of both arguments bounds the maximum. -/
theorem XInt.max2_le {a b c : XInt} (h1 : XInt.ble a c = true)
    (h2 : XInt.ble b c = true) : XInt.ble (XInt.max2 a b) c = true := by
  rcases XInt.max2_eq_or a b with h | h <;> rw [h] <;> assumption

/-- The maximum with a smaller second argument. -/
theorem XInt.max2_eq_left {a b : XInt} (h : XInt.ble b a = true) :
    XInt.max2 a b = a := by
  rw [XInt.max2, if_pos h]

/-- The maximum with a larger second argument. -/
theorem XInt.max2_eq_right {a b : XInt} (h : XInt.ble b a = false) :
    XInt.max2 a b = b := by
  rw [XInt.max2, if_neg (by simp [h])]

/-- `max2` is associative. -/
theorem XInt.max2_assoc (a b c : XInt) :
    XInt.max2 (XInt.max2 a b) c = XInt.max2 a (XInt.max2 b c) := by
  refine XInt.ble_antisymm (XInt.max2_le (XInt.max2_le ?_ ?_) ?_)
    (XInt.max2_le ?_ (XInt.max2_le ?_ ?_))
  · exact XInt.le_max2_left a (XInt.max2 b c)
  · exact XInt.ble_trans (XInt.le_max2_left b c)
      (XInt.le_max2_right a (XInt.max2 b c))
  · exact XInt.ble_trans (XInt.le_max2_right b c)
      (XInt.le_max2_right a (XInt.max2 b c))
  · exact XInt.ble_trans (XInt.le_max2_left a b)
      (XInt.le_max2_left (XInt.max2 a b) c)
  · exact XInt.ble_trans (XInt.le_max2_right a b)
      (XInt.le_max2_left (XInt.max2 a b) c)
  · exact XInt.le_max2_right (XInt.max2 a b) c

/-- `min2` returns one of its arguments. -/
theorem XInt.min2_eq_or (a b : XInt) :
    XInt.min2 a b = a ∨ XInt.min2 a b = b := by
  rw [XInt.min2]; split_ifs <;> simp

/-- The minimum is below its first argument. -/
theorem XInt.min2_le_left (a b : XInt) :
    XInt.ble (XInt.min2 a b) a = true := by
  rw [XInt.min2]
  split_ifs with h
  · exact XInt.ble_refl a
  · simp only [Bool.not_eq_true] at h
    exact XInt.ble_of_not_ble h

/-- The minimum is below its second argument. -/
theorem XInt.min2_le_right (a b : XInt) :
    XInt.ble (XInt.min2 a b) b = true := by
  rw [XInt.min2]
  split_ifs with h
  · exact h
  · exact XInt.ble_refl b

/-- A lower bound of both arguments is below the minimum. -/
theorem XInt.le_min2 {a b c : XInt} (h1 : XInt.ble c a = true)
    (h2 : XInt.ble c b = true) : XInt.ble c (XInt.min2 a b) = true := by
  rcases XInt.min2_eq_or a b with h | h <;> rw [h] <;> assumption

/-- The minimum with a larger second argument. -/
theorem XInt.min2_eq_left {a b : XInt} (h : XInt.ble a b = true) :
    XInt.min2 a b = a := by
  rw [XInt.min2, if_pos h]

/-- The minimum with a smaller second argument. -/
theorem XInt.min2_eq_right {a b : XInt} (h : XInt.ble a b = false) :
    XInt.min2 a b = b := by
  rw [XInt.min2, if_neg (by simp [h])]

/-- `min2` is associative. -/
theorem XInt.min2_assoc (a b c : XInt) :
    XInt.min2 (XInt.min2 a b) c = XInt.min2 a (XInt.min2 b c) := by
  refine XInt.ble_antisymm (XInt.le_min2 ?_ (XInt.le_min2 ?_ ?_))
    (XInt.le_min2 (XInt.le_min2 ?_ ?_) ?_)
  · exact XInt.ble_trans (XInt.min2_le_left (XInt.min2 a b) c)
      (XInt.min2_le_left a b)
  · exact XInt.ble_trans (XInt.min2_le_left (XInt.min2 a b) c)
      (XInt.min2_le_right a b)
  · exact XInt.min2_le_right (XInt.min2 a b) c
  · exact XInt.min2_le_left a (XInt.min2 b c)
  · exact XInt.ble_trans (XInt.min2_le_right a (XInt.min2 b c))
      (XInt.min2_le_left b c)
  · exact XInt.ble_trans (XInt.min2_le_right a (XInt.min2 b c))
      (XInt.min2_le_right b c)

/-- The plain maximizing fold only grows. -/
theorem pfold_max_ge (p : GameState → XInt) (s : GameState) :
    ∀ (l : List Move) (b : XInt),
      XInt.ble b (l.foldl (pfold_max p s) b) = true := by
  intro l
  induction l with
  | nil => intro b; exact XInt.ble_refl b
  | cons m t ih =>
    intro b
    refine XInt.ble_trans ?_ (ih (pfold_max p s b m))
    rw [pfold_max]
    rcases apply_move s m with e | ns
    · exact XInt.ble_refl b
    · exact XInt.le_max2_left b (p ns)

/-- The plain minimizing fold only shrinks. -/
theorem pfold_min_le (p : GameState → XInt) (s : GameState) :
    ∀ (l : List Move) (b : XInt),
      XInt.ble (l.foldl (pfold_min p s) b) b = true := by
  intro l
  induction l with
  | nil => intro b; exact XInt.ble_refl b
  | cons m t ih =>
    intro b
    refine XInt.ble_trans (ih (pfold_min p s b m)) ?_
    rw [pfold_min]
    rcases apply_move s m with e | ns
    · exact XInt.ble_refl b
    · exact XInt.min2_le_left b (p ns)

/-- A score below a maximum but not below its first component is below
its second component. -/
theorem XInt.ble_max2_cases {a b c : XInt}
    (h : XInt.ble c (XInt.max2 a b) = true) (ha : XInt.ble c a = false) :
    XInt.ble c b = true := by
  rcases XInt.max2_eq_or a b with hc | hc <;> rw [hc] at h
  · rw [h] at ha; cases ha
  · exact h

/-- Fail-soft analysis of the maximizing alpha-beta loop against the
plain maximizing fold: with a coupled accumulator pair the loop result
agrees with the fold inside the window and fails soft outside it. -/
theorem max_loop_nt_triple (f : GameState → XInt → XInt → XInt)
    (p : GameState → XInt) (s : GameState) (β : XInt)
    (hf : ∀ ns α, XInt.ble β α = false →
      (XInt.ble (p ns) α = true → XInt.ble (f ns α β) α = true) ∧
      (XInt.ble β (p ns) = true → XInt.ble β (f ns α β) = true) ∧
      (XInt.ble (p ns) α = false → XInt.ble β (p ns) = false →
        f ns α β = p ns)) :
    ∀ (l : List Move) (b pb α₀ : XInt),
      XInt.ble β (XInt.max2 α₀ b) = false →
      (XInt.ble pb α₀ = true → XInt.ble b α₀ = true) →
      (XInt.ble β pb = true → XInt.ble β b = true) →
      (XInt.ble pb α₀ = false → XInt.ble β pb = false → b = pb) →
      (XInt.ble (l.foldl (pfold_max p s) pb) α₀ = true →
        XInt.ble (max_loop_nt f s l b (XInt.max2 α₀ b) β) α₀ = true) ∧
      (XInt.ble β (l.foldl (pfold_max p s) pb) = true →
        XInt.ble β (max_loop_nt f s l b (XInt.max2 α₀ b) β) = true) ∧
      (XInt.ble (l.foldl (pfold_max p s) pb) α₀ = false →
        XInt.ble β (l.foldl (pfold_max p s) pb) = false →
        max_loop_nt f s l b (XInt.max2 α₀ b) β =
          l.foldl (pfold_max p s) pb) := by
  intro l
  induction l with
  | nil =>
    intro b pb α₀ hJ6 hJ2 hJ3 hJ4
    exact ⟨fun h => hJ2 h, fun h => hJ3 h, fun h1 h2 => hJ4 h1 h2⟩
  | cons m t ih =>
    intro b pb α₀ hJ6 hJ2 hJ3 hJ4
    have hβα₀ : XInt.ble β α₀ = false := by
      rcases hh : XInt.ble β α₀ with _ | _
      · rfl
      · rw [XInt.ble_trans hh (XInt.le_max2_left α₀ b)] at hJ6; cases hJ6
    rcases happ : apply_move s m with e | ns
    · have hl : max_loop_nt f s (m :: t) b (XInt.max2 α₀ b) β =
          max_loop_nt f s t b (XInt.max2 α₀ b) β := by
        simp only [max_loop_nt, happ]
      have hp : (m :: t).foldl (pfold_max p s) pb =
          t.foldl (pfold_max p s) pb := by
        simp only [List.foldl_cons, pfold_max, happ]
      rw [hl, hp]
      exact ih b pb α₀ hJ6 hJ2 hJ3 hJ4
    · have child := hf ns (XInt.max2 α₀ b) hJ6
      set v := p ns with hv
      set r := f ns (XInt.max2 α₀ b) β with hr
      have hp : (m :: t).foldl (pfold_max p s) pb =
          t.foldl (pfold_max p s) (XInt.max2 pb v) := by
        simp only [List.foldl_cons, pfold_max, happ, ← hv]
      rcases hbr : XInt.ble β (XInt.max2 (XInt.max2 α₀ b) r) with _ | _
      · -- no cutoff: continue the loop with raised accumulators
        have hl : max_loop_nt f s (m :: t) b (XInt.max2 α₀ b) β =
            max_loop_nt f s t (XInt.max2 b r)
              (XInt.max2 (XInt.max2 α₀ b) r) β := by
          simp only [max_loop_nt, happ, ← hr]
          rw [hbr, if_neg Bool.false_ne_true]
        rw [hl, hp, XInt.max2_assoc]
        apply ih (XInt.max2 b r) (XInt.max2 pb v) α₀
        · rw [← XInt.max2_assoc]; exact hbr
        · intro hpb'
          have hpbα : XInt.ble pb α₀ = true :=
            XInt.ble_trans (XInt.le_max2_left pb v) hpb'
          have hvα : XInt.ble v α₀ = true :=
            XInt.ble_trans (XInt.le_max2_right pb v) hpb'
          have hbα : XInt.ble b α₀ = true := hJ2 hpbα
          have hα : XInt.max2 α₀ b = α₀ := XInt.max2_eq_left hbα
          have hrα : XInt.ble r α₀ = true := by
            have := child.1 (by rw [hα]; exact hvα)
            rw [hα] at this; exact this
          exact XInt.max2_le hbα hrα
        · intro hβpb'
          rcases XInt.max2_eq_or pb v with hc | hc <;> rw [hc] at hβpb'
          · exact XInt.ble_trans (hJ3 hβpb') (XInt.le_max2_left b r)
          · exact XInt.ble_trans (child.2.1 hβpb') (XInt.le_max2_right b r)
        · intro hα' hβ'
          rcases XInt.max2_eq_or pb v with hc | hc
          · rw [hc] at hα' hβ' ⊢
            have hvpb : XInt.ble v pb = true := by
              have := XInt.le_max2_right pb v
              rw [hc] at this; exact this
            have hbeq : b = pb := hJ4 hα' hβ'
            have hαeq : XInt.max2 α₀ b = pb := by
              rw [hbeq]; exact XInt.max2_eq_right hα'
            have hrpb : XInt.ble r pb = true := by
              have := child.1 (by rw [hαeq]; exact hvpb)
              rw [hαeq] at this; exact this
            rw [hbeq]
            exact XInt.max2_eq_left hrpb
          · rw [hc] at hα' hβ'
            rw [hc]
            rcases hpbα : XInt.ble pb α₀ with _ | _
            · rcases hβpb : XInt.ble β pb with _ | _
              · have hbeq : b = pb := hJ4 hpbα hβpb
                have hαeq : XInt.max2 α₀ b = pb := by
                  rw [hbeq]; exact XInt.max2_eq_right hpbα
                rcases hvpb : XInt.ble v pb with _ | _
                · have hrv : r = v :=
                    child.2.2 (by rw [hαeq]; exact hvpb) hβ'
                  rw [hrv, hbeq]
                  exact XInt.max2_eq_right hvpb
                · have hpbv : XInt.ble pb v = true := by
                    have := XInt.le_max2_left pb v
                    rw [hc] at this; exact this
                  have hveq : v = pb := XInt.ble_antisymm hvpb hpbv
                  have hrpb : XInt.ble r pb = true := by
                    have := child.1
                      (by rw [hαeq, hveq]; exact XInt.ble_refl pb)
                    rw [hαeq] at this; exact this
                  rw [hbeq, hveq]
                  exact XInt.max2_eq_left hrpb
              · have : XInt.ble β v = true :=
                  XInt.ble_trans hβpb
                    (by have := XInt.le_max2_left pb v
                        rw [hc] at this; exact this)
                rw [this] at hβ'; cases hβ'
            · have hbα : XInt.ble b α₀ = true := hJ2 hpbα
              have hαeq : XInt.max2 α₀ b = α₀ := XInt.max2_eq_left hbα
              have hrv : r = v := child.2.2 (by rw [hαeq]; exact hα') hβ'
              rw [hrv]
              apply XInt.max2_eq_right
              rcases hh : XInt.ble v b with _ | _
              · rfl
              · rw [XInt.ble_trans hh hbα] at hα'; cases hα'
      · -- cutoff: the child failed high, and so does the whole node
        have hl : max_loop_nt f s (m :: t) b (XInt.max2 α₀ b) β =
            XInt.max2 b r := by
          simp only [max_loop_nt, happ, ← hr]
          rw [hbr, if_pos rfl]
        have hβr : XInt.ble β r = true := XInt.ble_max2_cases hbr hJ6
        have hvα : XInt.ble v (XInt.max2 α₀ b) = false := by
          rcases hh : XInt.ble v (XInt.max2 α₀ b) with _ | _
          · rfl
          · have := XInt.ble_trans hβr (child.1 hh)
            rw [this] at hJ6; cases hJ6
        have hβv : XInt.ble β v = true := by
          rcases hh : XInt.ble β v with _ | _
          · have := child.2.2 hvα hh
            rw [← this] at hh
            rw [hβr] at hh; cases hh
          · rfl
        have hβV : XInt.ble β ((m :: t).foldl (pfold_max p s) pb) = true := by
          rw [hp]
          exact XInt.ble_trans
            (XInt.ble_trans hβv (XInt.le_max2_right pb v))
            (pfold_max_ge p s t (XInt.max2 pb v))
        refine ⟨?_, ?_, ?_⟩
        · intro hVα
          rw [XInt.ble_trans hβV hVα] at hβα₀; cases hβα₀
        · intro _
          rw [hl]
          exact XInt.ble_trans hβr (XInt.le_max2_right b r)
        · intro _ h2
          rw [hβV] at h2; cases h2

/-- A score above a minimum but not above its first component is above
its second component. -/
theorem XInt.min2_ble_cases {a b c : XInt}
    (h : XInt.ble (XInt.min2 a b) c = true) (ha : XInt.ble a c = false) :
    XInt.ble b c = true := by
  rcases XInt.min2_eq_or a b with hc | hc <;> rw [hc] at h
  · rw [h] at ha; cases ha
  · exact h

/-- Fail-soft analysis of the minimizing alpha-beta loop, dual to
`max_loop_nt_triple`. -/
theorem min_loop_nt_triple (f : GameState → XInt → XInt → XInt)
    (p : GameState → XInt) (s : GameState) (α : XInt)
    (hf : ∀ ns β, XInt.ble β α = false →
      (XInt.ble (p ns) α = true → XInt.ble (f ns α β) α = true) ∧
      (XInt.ble β (p ns) = true → XInt.ble β (f ns α β) = true) ∧
      (XInt.ble (p ns) α = false → XInt.ble β (p ns) = false →
        f ns α β = p ns)) :
    ∀ (l : List Move) (b pb β₀ : XInt),
      XInt.ble (XInt.min2 β₀ b) α = false →
      (XInt.ble β₀ pb = true → XInt.ble β₀ b = true) →
      (XInt.ble pb α = true → XInt.ble b α = true) →
      (XInt.ble β₀ pb = false → XInt.ble pb α = false → b = pb) →
      (XInt.ble (l.foldl (pfold_min p s) pb) α = true →
        XInt.ble (min_loop_nt f s l b α (XInt.min2 β₀ b)) α = true) ∧
      (XInt.ble β₀ (l.foldl (pfold_min p s) pb) = true →
        XInt.ble β₀ (min_loop_nt f s l b α (XInt.min2 β₀ b)) = true) ∧
      (XInt.ble (l.foldl (pfold_min p s) pb) α = false →
        XInt.ble β₀ (l.foldl (pfold_min p s) pb) = false →
        min_loop_nt f s l b α (XInt.min2 β₀ b) =
          l.foldl (pfold_min p s) pb) := by
  intro l
  induction l with
  | nil =>
    intro b pb β₀ hJ6 hJ2 hJ3 hJ4
    exact ⟨fun h => hJ3 h, fun h => hJ2 h, fun h1 h2 => hJ4 h2 h1⟩
  | cons m t ih =>
    intro b pb β₀ hJ6 hJ2 hJ3 hJ4
    have hβ₀α : XInt.ble β₀ α = false := by
      rcases hh : XInt.ble β₀ α with _ | _
      · rfl
      · rw [XInt.ble_trans (XInt.min2_le_left β₀ b) hh] at hJ6; cases hJ6
    rcases happ : apply_move s m with e | ns
    · have hl : min_loop_nt f s (m :: t) b α (XInt.min2 β₀ b) =
          min_loop_nt f s t b α (XInt.min2 β₀ b) := by
        simp only [min_loop_nt, happ]
      have hp : (m :: t).foldl (pfold_min p s) pb =
          t.foldl (pfold_min p s) pb := by
        simp only [List.foldl_cons, pfold_min, happ]
      rw [hl, hp]
      exact ih b pb β₀ hJ6 hJ2 hJ3 hJ4
    · have child := hf ns (XInt.min2 β₀ b) hJ6
      set v := p ns with hv
      set r := f ns α (XInt.min2 β₀ b) with hr
      have hp : (m :: t).foldl (pfold_min p s) pb =
          t.foldl (pfold_min p s) (XInt.min2 pb v) := by
        simp only [List.foldl_cons, pfold_min, happ, ← hv]
      rcases hbr : XInt.ble (XInt.min2 (XInt.min2 β₀ b) r) α with _ | _
      · -- no cutoff
        have hl : min_loop_nt f s (m :: t) b α (XInt.min2 β₀ b) =
            min_loop_nt f s t (XInt.min2 b r) α
              (XInt.min2 (XInt.min2 β₀ b) r) := by
          simp only [min_loop_nt, happ, ← hr]
          rw [hbr, if_neg Bool.false_ne_true]
        rw [hl, hp, XInt.min2_assoc]
        apply ih (XInt.min2 b r) (XInt.min2 pb v) β₀
        · rw [← XInt.min2_assoc]; exact hbr
        · intro hpb'
          have hβpb : XInt.ble β₀ pb = true :=
            XInt.ble_trans hpb' (XInt.min2_le_left pb v)
          have hβv : XInt.ble β₀ v = true :=
            XInt.ble_trans hpb' (XInt.min2_le_right pb v)
          have hβb : XInt.ble β₀ b = true := hJ2 hβpb
          have hβeq : XInt.min2 β₀ b = β₀ := XInt.min2_eq_left hβb
          have hβr : XInt.ble β₀ r = true := by
            have := child.2.1 (by rw [hβeq]; exact hβv)
            rw [hβeq] at this; exact this
          exact XInt.le_min2 hβb hβr
        · intro hpb'
          rcases XInt.min2_eq_or pb v with hc | hc <;> rw [hc] at hpb'
          · exact XInt.ble_trans (XInt.min2_le_left b r) (hJ3 hpb')
          · exact XInt.ble_trans (XInt.min2_le_right b r) (child.1 hpb')
        · intro hβ' hα'
          rcases XInt.min2_eq_or pb v with hc | hc
          · rw [hc] at hβ' hα' ⊢
            have hpbv : XInt.ble pb v = true := by
              have := XInt.min2_le_right pb v
              rw [hc] at this; exact this
            have hbeq : b = pb := hJ4 hβ' hα'
            have hβeq : XInt.min2 β₀ b = pb := by
              rw [hbeq]; exact XInt.min2_eq_right hβ'
            have hpbr : XInt.ble pb r = true := by
              have := child.2.1 (by rw [hβeq]; exact hpbv)
              rw [hβeq] at this; exact this
            rw [hbeq]
            exact XInt.min2_eq_left hpbr
          · rw [hc] at hβ' hα'
            rw [hc]
            rcases hβpb : XInt.ble β₀ pb with _ | _
            · rcases hpbα : XInt.ble pb α with _ | _
              · have hbeq : b = pb := hJ4 hβpb hpbα
                have hβeq : XInt.min2 β₀ b = pb := by
                  rw [hbeq]; exact XInt.min2_eq_right hβpb
                rcases hpbv : XInt.ble pb v with _ | _
                · have hrv : r = v :=
                    child.2.2 hα' (by rw [hβeq]; exact hpbv)
                  rw [hrv, hbeq]
                  exact XInt.min2_eq_right hpbv
                · have hvpb : XInt.ble v pb = true := by
                    have := XInt.min2_le_left pb v
                    rw [hc] at this; exact this
                  have hveq : v = pb := XInt.ble_antisymm hvpb hpbv
                  have hpbr : XInt.ble pb r = true := by
                    have := child.2.1
                      (by rw [hβeq, hveq]; exact XInt.ble_refl pb)
                    rw [hβeq] at this; exact this
                  rw [hbeq, hveq]
                  exact XInt.min2_eq_left hpbr
              · have : XInt.ble v α = true :=
                  XInt.ble_trans
                    (by have := XInt.min2_le_left pb v
                        rw [hc] at this; exact this) hpbα
                rw [this] at hα'; cases hα'
            · have hβb : XInt.ble β₀ b = true := hJ2 hβpb
              have hβeq : XInt.min2 β₀ b = β₀ := XInt.min2_eq_left hβb
              have hrv : r = v := child.2.2 hα' (by rw [hβeq]; exact hβ')
              rw [hrv]
              apply XInt.min2_eq_right
              rcases hh : XInt.ble b v with _ | _
              · rfl
              · rw [XInt.ble_trans hβb hh] at hβ'; cases hβ'
      · -- cutoff: the child failed low, and so does the whole node
        have hl : min_loop_nt f s (m :: t) b α (XInt.min2 β₀ b) =
            XInt.min2 b r := by
          simp only [min_loop_nt, happ, ← hr]
          rw [hbr, if_pos rfl]
        have hrα : XInt.ble r α = true := XInt.min2_ble_cases hbr hJ6
        have hvβ : XInt.ble (XInt.min2 β₀ b) v = false := by
          rcases hh : XInt.ble (XInt.min2 β₀ b) v with _ | _
          · rfl
          · have := XInt.ble_trans (child.2.1 hh) hrα
            rw [this] at hJ6; cases hJ6
        have hvα : XInt.ble v α = true := by
          rcases hh : XInt.ble v α with _ | _
          · have := child.2.2 hh hvβ
            rw [← this] at hh
            rw [hrα] at hh; cases hh
          · rfl
        have hVα : XInt.ble ((m :: t).foldl (pfold_min p s) pb) α = true := by
          rw [hp]
          exact XInt.ble_trans
            (XInt.ble_trans (pfold_min_le p s t (XInt.min2 pb v))
              (XInt.min2_le_right pb v)) hvα
        refine ⟨?_, ?_, ?_⟩
        · intro _
          rw [hl]
          exact XInt.ble_trans (XInt.min2_le_right b r) hrα
        · intro hβV
          rw [XInt.ble_trans hβV hVα] at hβ₀α; cases hβ₀α
        · intro h1 _
          rw [hVα] at h1; cases h1

/-- The fail-soft triple for the cache-free alpha-beta recursion against
the plain exhaustive minimax, at every window with `α < β`. -/
theorem minimax_no_tt_triple (me : Player) (sel : SelFn) :
    ∀ (d : Nat) (s : GameState) (α β : XInt) (maxing : Bool),
      XInt.ble β α = false →
      (XInt.ble (plain_minimax me sel d s maxing) α = true →
        XInt.ble (minimax_no_tt me sel d s α β maxing) α = true) ∧
      (XInt.ble β (plain_minimax me sel d s maxing) = true →
        XInt.ble β (minimax_no_tt me sel d s α β maxing) = true) ∧
      (XInt.ble (plain_minimax me sel d s maxing) α = false →
        XInt.ble β (plain_minimax me sel d s maxing) = false →
        minimax_no_tt me sel d s α β maxing =
          plain_minimax me sel d s maxing) := by
  intro d
  induction d with
  | zero =>
    intro s α β maxing _
    exact ⟨fun h => h, fun h => h, fun _ _ => rfl⟩
  | succ d ih =>
    intro s α β maxing hαβ
    rcases hover : (s.is_game_over).1 with _ | _
    · have hnot : ¬((s.is_game_over).1 = true) := by
        rw [hover]; exact Bool.false_ne_true
      cases maxing
      · have el : minimax_no_tt me sel (d + 1) s α β false =
            min_loop_nt (fun ns a b => minimax_no_tt me sel d ns a b true)
              s (get_all_possible_moves sel s) .pos_inf α β := by
          simp only [minimax_no_tt]
          rw [if_neg hnot, if_neg Bool.false_ne_true]
        have ep : plain_minimax me sel (d + 1) s false =
            (get_all_possible_moves sel s).foldl
              (pfold_min (fun ns => plain_minimax me sel d ns true) s)
              .pos_inf := by
          simp only [plain_minimax]
          rw [if_neg hnot, if_neg Bool.false_ne_true]
          rfl
        have e : XInt.min2 β .pos_inf = β := by
          rw [XInt.min2, if_pos (XInt.ble_pos_inf β)]
        have h := min_loop_nt_triple
          (fun ns a b => minimax_no_tt me sel d ns a b true)
          (fun ns => plain_minimax me sel d ns true) s α
          (fun ns b hb => ih ns α b true hb)
          (get_all_possible_moves sel s) XInt.pos_inf XInt.pos_inf β
          (by rw [e]; exact hαβ)
          (fun h => h)
          (fun h => h)
          (fun _ _ => rfl)
        rw [e] at h
        rw [el, ep]
        exact ⟨h.1, h.2.1, fun h1 h2 => h.2.2 h1 h2⟩
      · have el : minimax_no_tt me sel (d + 1) s α β true =
            max_loop_nt (fun ns a b => minimax_no_tt me sel d ns a b false)
              s (get_all_possible_moves sel s) .neg_inf α β := by
          simp only [minimax_no_tt]
          rw [if_neg hnot, if_true]
        have ep : plain_minimax me sel (d + 1) s true =
            (get_all_possible_moves sel s).foldl
              (pfold_max (fun ns => plain_minimax me sel d ns false) s)
              .neg_inf := by
          simp only [plain_minimax]
          rw [if_neg hnot, if_true]
          rfl
        have e : XInt.max2 α .neg_inf = α := by
          rw [XInt.max2, if_pos (XInt.neg_inf_ble α)]
        have h := max_loop_nt_triple
          (fun ns a b => minimax_no_tt me sel d ns a b false)
          (fun ns => plain_minimax me sel d ns false) s β
          (fun ns a ha => ih ns a β false ha)
          (get_all_possible_moves sel s) XInt.neg_inf XInt.neg_inf α
          (by rw [e]; exact hαβ)
          (fun h => h)
          (fun h => h)
          (fun _ _ => rfl)
        rw [e] at h
        rw [el, ep]
        exact ⟨h.1, h.2.1, fun h1 h2 => h.2.2 h1 h2⟩
    · have el : minimax_no_tt me sel (d + 1) s α β maxing =
          .fin (evaluate_state me s) := by
        simp only [minimax_no_tt]
        rw [if_pos hover]
      have ep : plain_minimax me sel (d + 1) s maxing =
          .fin (evaluate_state me s) := by
        simp only [plain_minimax]
        rw [if_pos hover]
      rw [el, ep]
      exact ⟨fun h => h, fun h => h, fun _ _ => rfl⟩

/-- C4 (amended): with the transposition cache disabled and everything
else as implemented, the alpha-beta recursion at the full window
`(-inf, +inf)` returns exactly the plain exhaustive minimax score, for
every state, depth, maximizing flag and candidate selection. -/
theorem c4_alpha_beta_without_cache_equals_plain_minimax
    (me : Player) (sel : SelFn) (d : Nat) (s : GameState) (maxing : Bool) :
    minimax_no_tt me sel d s .neg_inf .pos_inf maxing =
      plain_minimax me sel d s maxing := by
  have h := minimax_no_tt_triple me sel d s .neg_inf .pos_inf maxing rfl
  rcases hv : plain_minimax me sel d s maxing with _ | n | _ <;>
    rw [hv] at h
  · exact XInt.eq_neg_inf_of_ble (h.1 (XInt.ble_refl _))
  · exact h.2.2 rfl rfl
  · exact XInt.eq_pos_inf_of_ble (h.2.1 (XInt.ble_refl _))

/-- The root loop never abandons its current best candidate while no
later candidate's search value strictly exceeds the running best. -/
theorem best_loop_keeps (me : Player) (sel : SelFn) (d : Nat)
    (s : GameState) (m0 : Move) :
    ∀ (rest : List Move) (bv : XInt) (table : Table),
      loop_values_le me sel d s rest bv table = true →
      (best_loop me sel d s rest (some m0) bv table).1 = some m0 := by
  intro rest
  induction rest with
  | nil => intro bv table _; rfl
  | cons m r ih =>
    intro bv table hlv
    rcases happ : apply_move s m with e | ns2
    · have hv : loop_values_le me sel d s (m :: r) bv table =
          loop_values_le me sel d s r bv table := by
        simp only [loop_values_le, happ]
      have hl : best_loop me sel d s (m :: r) (some m0) bv table =
          best_loop me sel d s r (some m0) bv table := by
        simp only [best_loop, happ]
      rw [hv] at hlv
      rw [hl]
      exact ih bv table hlv
    · have hv : loop_values_le me sel d s (m :: r) bv table =
          (XInt.ble (minimax me sel d ns2 .neg_inf .pos_inf false table).1
              bv &&
            loop_values_le me sel d s r bv
              (minimax me sel d ns2 .neg_inf .pos_inf false table).2) := by
        simp only [loop_values_le, happ]
      rw [hv, Bool.and_eq_true] at hlv
      have hblt : XInt.blt bv
          (minimax me sel d ns2 .neg_inf .pos_inf false table).1 = false := by
        rw [XInt.blt, hlv.1]
        rfl
      have hl : best_loop me sel d s (m :: r) (some m0) bv table =
          best_loop me sel d s r (some m0) bv
            (minimax me sel d ns2 .neg_inf .pos_inf false table).2 := by
        simp only [best_loop, happ]
        rw [hblt, if_neg Bool.false_ne_true]
      rw [hl]
      exact ih bv _ hlv.2

/-- Scanning a concatenation of candidate lists is scanning the first
list, then scanning the second from the state the first one left. -/
theorem best_loop_append (me : Player) (sel : SelFn) (d : Nat)
    (s : GameState) :
    ∀ (l1 l2 : List Move) (best : Option Move) (bv : XInt) (table : Table),
      best_loop me sel d s (l1 ++ l2) best bv table =
        best_loop me sel d s l2
          (best_loop me sel d s l1 best bv table).1
          (best_loop me sel d s l1 best bv table).2.1
          (best_loop me sel d s l1 best bv table).2.2 := by
  intro l1
  induction l1 with
  | nil => intro l2 best bv table; rfl
  | cons m t ih =>
    intro l2 best bv table
    rw [List.cons_append]
    rcases happ : apply_move s m with e | ns2
    · have h1 : best_loop me sel d s (m :: (t ++ l2)) best bv table =
          best_loop me sel d s (t ++ l2) best bv table := by
        simp only [best_loop, happ]
      have h2 : best_loop me sel d s (m :: t) best bv table =
          best_loop me sel d s t best bv table := by
        simp only [best_loop, happ]
      rw [h1, h2, ih]
    · rcases hmm : minimax me sel d ns2 .neg_inf .pos_inf false table
        with ⟨v2, t2⟩
      rcases hblt : XInt.blt bv v2 with _ | _
      · have h1 : best_loop me sel d s (m :: (t ++ l2)) best bv table =
            best_loop me sel d s (t ++ l2) best bv t2 := by
          simp only [best_loop, happ, hmm]
          rw [hblt, if_neg Bool.false_ne_true]
        have h2 : best_loop me sel d s (m :: t) best bv table =
            best_loop me sel d s t best bv t2 := by
          simp only [best_loop, happ, hmm]
          rw [hblt, if_neg Bool.false_ne_true]
        rw [h1, h2, ih]
      · have h1 : best_loop me sel d s (m :: (t ++ l2)) best bv table =
            best_loop me sel d s (t ++ l2) (some m) v2 t2 := by
          simp only [best_loop, happ, hmm]
          rw [hblt, if_pos rfl]
        have h2 : best_loop me sel d s (m :: t) best bv table =
            best_loop me sel d s t (some m) v2 t2 := by
          simp only [best_loop, happ, hmm]
          rw [hblt, if_pos rfl]
        rw [h1, h2, ih]

/-- C5 (amended): the root scan returns the first candidate of the
shuffled order whose backed-up score no later candidate strictly
exceeds.  Formally: split the shuffled order as `pre ++ m0 :: rest`;
if the running best after scanning `pre` (so the maximum over every
earlier candidate, skipped failures included) is strictly below `m0`'s
search value, and no later candidate's value (with the transposition
table threaded exactly as the loop threads it) strictly exceeds `m0`'s
value, then `find_best_move` returns `m0`.  In particular a one-step
winning move is chosen whenever the shuffle lists it before every other
candidate of maximal score, however many lower-scoring candidates
precede it. -/
theorem c5_first_unbeaten_candidate_is_returned (me : Player)
    (sel : SelFn) (depth : Nat) (s : GameState) (pre : List Move)
    (m0 : Move) (rest : List Move) (ns : GameState) (table t1 : Table)
    (om : Option Move) (bv : XInt)
    (hpre : best_loop me sel (depth - 1) s pre none .neg_inf table =
      (om, bv, t1))
    (h0 : apply_move s m0 = .ok ns)
    (hbeat : XInt.blt bv
      (minimax me sel (depth - 1) ns .neg_inf .pos_inf false t1).1 =
        true)
    (hrest : loop_values_le me sel (depth - 1) s rest
        (minimax me sel (depth - 1) ns .neg_inf .pos_inf false t1).1
        (minimax me sel (depth - 1) ns .neg_inf .pos_inf false t1).2 =
          true) :
    find_best_move me sel depth s (pre ++ m0 :: rest) table = .ok m0 := by
  rcases hmm : minimax me sel (depth - 1) ns .neg_inf .pos_inf false t1
    with ⟨v0, t2⟩
  simp only [hmm] at hbeat hrest
  have hsplit := best_loop_append me sel (depth - 1) s pre (m0 :: rest)
    none .neg_inf table
  rw [hpre] at hsplit
  dsimp only at hsplit
  have hb : best_loop me sel (depth - 1) s (m0 :: rest) om bv t1 =
      best_loop me sel (depth - 1) s rest (some m0) v0 t2 := by
    simp only [best_loop, h0, hmm]
    rw [hbeat, if_pos rfl]
  have hkeep := best_loop_keeps me sel (depth - 1) s m0 rest v0 t2 hrest
  rw [find_best_move, hsplit, hb]
  rcases hres : best_loop me sel (depth - 1) s rest (some m0) v0 t2
    with ⟨om2, bv2, tb2⟩
  rw [hres] at hkeep
  have hom : om2 = some m0 := hkeep
  subst hom
  rfl

/-- C5 (amended) witness: at `c5b` under the shuffle outcome that lists
the low-scoring trap `(2,0)` first and the winning step `(0,0)` second,
depth-3 search still returns the winning step. -/
theorem c5_first_unbeaten_candidate_is_returned_witness :
    apply_move c5b (.deplacement (0, 0)) = .ok c5b_win ∧
    find_best_move .two default_sel 3 c5b
      [.deplacement (2, 0), .deplacement (0, 0), .deplacement (1, 1)] [] =
        .ok (.deplacement (0, 0)) :=
  ⟨by decide,
    c5_first_unbeaten_candidate_is_returned .two default_sel 3 c5b
      [.deplacement (2, 0)] (.deplacement (0, 0)) [.deplacement (1, 1)]
      c5b_win []
      (best_loop .two default_sel 2 c5b [.deplacement (2, 0)] none
        .neg_inf []).2.2
      (best_loop .two default_sel 2 c5b [.deplacement (2, 0)] none
        .neg_inf []).1
      (best_loop .two default_sel 2 c5b [.deplacement (2, 0)] none
        .neg_inf []).2.1
      rfl (by decide) (by decide) (by decide)⟩

/-- C5: `find_best_move` does not return the one-step winning pawn move
for every shuffle outcome.  At `c5s` player two (to move, AI player) can
win by `(1,0) → (0,0)`, yet under the legitimate shuffle outcome
`c5_order` — the stalling move `(1,1)` listed first — depth-3 search
returns the stalling move, because both score 20000 and ties keep the
earlier candidate. -/
theorem c5_winning_move_lost_to_shuffle_tie :
    ((0, 0) : Coord) ∈ get_possible_pawn_moves c5s .two ∧
    (0 : Int) = ((0, 0) : Coord).1 ∧
    (c5s.is_game_over).1 = false ∧
    c5_order.Perm (get_all_possible_moves default_sel c5s) ∧
    find_best_move .two default_sel 3 c5s c5_order [] =
      .ok (.deplacement (1, 1)) ∧
    (Move.deplacement (1, 1) : Move) ≠ .deplacement (0, 0) := by
  refine ⟨by decide, by decide, by decide, ?_, by decide, by decide⟩
  have h : get_all_possible_moves default_sel c5s =
      [.deplacement (0, 0), .deplacement (1, 1)] := by decide
  rw [h, c5_order]
  exact List.Perm.swap _ _ _

/-! ### Graph-side lemmas for the breadth-first searches -/

theorem reach_in_succ {walls : Finset Wall} {S : Coord → Prop} {n : Nat}
    {v : Coord} (h : reach_in walls S n v) : reach_in walls S (n + 1) v :=
  Or.inl h

theorem reach_in_mono_n {walls : Finset Wall} {S : Coord → Prop} {m n : Nat}
    (hmn : m ≤ n) {v : Coord} (h : reach_in walls S m v) :
    reach_in walls S n v := by
  induction n with
  | zero =>
    have hm : m = 0 := Nat.le_zero.mp hmn
    exact hm ▸ h
  | succ n ih =>
    rcases Nat.lt_or_ge m (n + 1) with hlt | hge
    · exact Or.inl (ih (Nat.lt_succ_iff.mp hlt))
    · have hm : m = n + 1 := le_antisymm hmn hge
      exact hm ▸ h

theorem reach_in_mono_S {walls : Finset Wall} {S T : Coord → Prop}
    (hST : ∀ c, S c → T c) :
    ∀ {n : Nat} {v : Coord}, reach_in walls S n v → reach_in walls T n v := by
  intro n
  induction n with
  | zero => exact fun h => hST _ h
  | succ n ih =>
    intro v h
    rcases h with h | ⟨u, hu, hadj⟩
    · exact Or.inl (ih h)
    · exact Or.inr ⟨u, ih hu, hadj⟩

theorem reach_in_trans {walls : Finset Wall} {S : Coord → Prop} {m : Nat}
    {u : Coord} (hu : reach_in walls S m u) :
    ∀ {n : Nat} {v : Coord}, reach_in walls (fun c => c = u) n v →
      reach_in walls S (m + n) v := by
  intro n
  induction n with
  | zero =>
    intro v h
    have hv : v = u := h
    rw [hv]
    exact hu
  | succ n ih =>
    intro v h
    rcases h with h | ⟨x, hx, hadj⟩
    · exact reach_in_succ (ih h)
    · exact Or.inr ⟨x, ih hx, hadj⟩

theorem dist_exists {walls : Finset Wall} {S : Coord → Prop} :
    ∀ {k : Nat} {v : Coord}, reach_in walls S k v →
      ∃ j, j ≤ k ∧ dist_is walls S v j := by
  intro k
  induction k using Nat.strong_induction_on with
  | _ k ih =>
    intro v h
    by_cases hmin : ∀ j, reach_in walls S j v → k ≤ j
    · exact ⟨k, le_refl k, h, hmin⟩
    · push_neg at hmin
      rcases hmin with ⟨j, hj, hjk⟩
      rcases ih j hjk hj with ⟨j0, hj0, hd⟩
      exact ⟨j0, le_trans hj0 (le_of_lt hjk), hd⟩

theorem dist_is_unique {walls : Finset Wall} {S : Coord → Prop} {v : Coord}
    {d e : Nat} (h : dist_is walls S v d) (h2 : dist_is walls S v e) :
    d = e :=
  le_antisymm (h.2 e h2.1) (h2.2 d h.1)

theorem mem_neighbors {a b : Coord} :
    b ∈ neighbors a ↔
      b = (a.1 - 1, a.2) ∨ b = (a.1 + 1, a.2) ∨
      b = (a.1, a.2 - 1) ∨ b = (a.1, a.2 + 1) := by
  simp [neighbors]

theorem neighbors_symm {a b : Coord} (h : b ∈ neighbors a) :
    a ∈ neighbors b := by
  rcases a with ⟨a1, a2⟩
  rcases b with ⟨b1, b2⟩
  rw [mem_neighbors] at h ⊢
  simp only [Prod.ext_iff] at h ⊢
  omega

theorem is_wall_between_symm (walls : Finset Wall) (a b : Coord) :
    is_wall_between walls b a ↔ is_wall_between walls a b := by
  simp only [is_wall_between]
  by_cases h2 : a.2 = b.2
  · rw [if_pos h2, if_pos h2.symm, h2, min_comm b.1 a.1]
  · rw [if_neg h2, if_neg fun hh => h2 hh.symm]
    by_cases h1 : a.1 = b.1
    · rw [if_pos h1, if_pos h1.symm, h1, min_comm b.2 a.2]
    · rw [if_neg h1, if_neg fun hh => h1 hh.symm]

theorem step_adj_symm {walls : Finset Wall} {a b : Coord}
    (ha : in_bounds a) (h : step_adj walls a b) : step_adj walls b a :=
  ⟨neighbors_symm h.1, ha,
    fun hw => h.2.2 ((is_wall_between_symm walls a b).mp hw)⟩

theorem mem_board_cells_of_in_bounds {c : Coord} (h : in_bounds c) :
    c ∈ board_cells := by
  rcases c with ⟨r, q⟩
  rcases h with ⟨h1, h2, h3, h4⟩
  have hbs : board_size = 9 := rfl
  rw [board_cells, Finset.mem_image]
  refine ⟨(r.toNat, q.toNat), ?_, ?_⟩
  · rw [Finset.mem_product]
    constructor <;> rw [Finset.mem_range] <;> omega
  · have ht1 : (r.toNat : Int) = r := Int.toNat_of_nonneg h1
    have ht2 : (q.toNat : Int) = q := Int.toNat_of_nonneg h3
    rw [Prod.mk.injEq]
    exact ⟨ht1, ht2⟩

theorem filter_in_bounds_card_le (V : Finset Coord) :
    (V.filter fun c => in_bounds c).card ≤ 81 := by
  have hsub : (V.filter fun c => in_bounds c) ⊆ board_cells := by
    intro c hc
    exact mem_board_cells_of_in_bounds (Finset.mem_filter.mp hc).2
  have hmono := Finset.card_le_card hsub
  have hb : board_cells.card ≤ 81 := by decide
  omega

/-! ### The `_path_exists` BFS computes graph reachability -/

theorem pstep_fold_queue_mono (walls : Finset Wall) (cur : Coord) :
    ∀ (l : List Coord) (acc : List Coord × Finset Coord) (c : Coord),
      c ∈ acc.1 → c ∈ (l.foldl (pstep walls cur) acc).1 := by
  intro l
  induction l with
  | nil => intro acc c h; exact h
  | cons m t ih =>
    intro acc c h
    rw [List.foldl_cons]
    apply ih
    rw [pstep]
    split
    · exact List.mem_append_left _ h
    · exact h

theorem pstep_fold_vis_mono (walls : Finset Wall) (cur : Coord) :
    ∀ (l : List Coord) (acc : List Coord × Finset Coord) (c : Coord),
      c ∈ acc.2 → c ∈ (l.foldl (pstep walls cur) acc).2 := by
  intro l
  induction l with
  | nil => intro acc c h; exact h
  | cons m t ih =>
    intro acc c h
    rw [List.foldl_cons]
    apply ih
    rw [pstep]
    split
    · exact Finset.mem_insert_of_mem h
    · exact h

theorem pstep_fold_queue_src (walls : Finset Wall) (cur : Coord) :
    ∀ (l : List Coord) (acc : List Coord × Finset Coord) (c : Coord),
      c ∈ (l.foldl (pstep walls cur) acc).1 →
      c ∈ acc.1 ∨ (c ∈ l ∧ in_bounds c ∧
        ¬ is_wall_between walls cur c ∧ c ∉ acc.2) := by
  intro l
  induction l with
  | nil => intro acc c h; exact Or.inl h
  | cons m t ih =>
    intro acc c h
    rw [List.foldl_cons] at h
    by_cases hcond : m ∉ acc.2 ∧ in_bounds m ∧ ¬ is_wall_between walls cur m
    · rw [pstep, if_pos hcond] at h
      rcases ih (acc.1 ++ [m], insert m acc.2) c h with h1 | ⟨h1, h2, h3, h4⟩
      · rcases List.mem_append.mp h1 with h1 | h1
        · exact Or.inl h1
        · have hcm : c = m := List.mem_singleton.mp h1
          subst hcm
          exact Or.inr ⟨List.mem_cons_self c t, hcond.2.1, hcond.2.2, hcond.1⟩
      · exact Or.inr ⟨List.mem_cons_of_mem m h1, h2, h3,
          fun hc => h4 (Finset.mem_insert_of_mem hc)⟩
    · rw [pstep, if_neg hcond] at h
      rcases ih acc c h with h1 | ⟨h1, h2, h3, h4⟩
      · exact Or.inl h1
      · exact Or.inr ⟨List.mem_cons_of_mem m h1, h2, h3, h4⟩

theorem pstep_fold_qv (walls : Finset Wall) (cur : Coord) :
    ∀ (l : List Coord) (acc : List Coord × Finset Coord),
      (∀ c ∈ acc.1, c ∈ acc.2) →
      ∀ c ∈ (l.foldl (pstep walls cur) acc).1,
        c ∈ (l.foldl (pstep walls cur) acc).2 := by
  intro l
  induction l with
  | nil => intro acc h c hc; exact h c hc
  | cons m t ih =>
    intro acc h c hc
    rw [List.foldl_cons] at hc ⊢
    by_cases hcond : m ∉ acc.2 ∧ in_bounds m ∧ ¬ is_wall_between walls cur m
    · rw [pstep, if_pos hcond] at hc ⊢
      refine ih _ ?_ c hc
      intro x hx
      rcases List.mem_append.mp hx with hx | hx
      · exact Finset.mem_insert_of_mem (h x hx)
      · have hxm : x = m := List.mem_singleton.mp hx
        rw [hxm]
        exact Finset.mem_insert_self m acc.2
    · rw [pstep, if_neg hcond] at hc ⊢
      exact ih acc h c hc

theorem pstep_fold_vis_src (walls : Finset Wall) (cur : Coord) :
    ∀ (l : List Coord) (acc : List Coord × Finset Coord) (c : Coord),
      c ∈ (l.foldl (pstep walls cur) acc).2 →
      c ∈ acc.2 ∨ c ∈ (l.foldl (pstep walls cur) acc).1 := by
  intro l
  induction l with
  | nil => intro acc c h; exact Or.inl h
  | cons m t ih =>
    intro acc c h
    rw [List.foldl_cons] at h ⊢
    by_cases hcond : m ∉ acc.2 ∧ in_bounds m ∧ ¬ is_wall_between walls cur m
    · rw [pstep, if_pos hcond] at h ⊢
      rcases ih (acc.1 ++ [m], insert m acc.2) c h with h1 | h1
      · rcases Finset.mem_insert.mp h1 with he | hV
        · subst he
          exact Or.inr (pstep_fold_queue_mono walls cur t _ c
            (List.mem_append_right _ (List.mem_singleton.mpr rfl)))
        · exact Or.inl hV
      · exact Or.inr h1
    · rw [pstep, if_neg hcond] at h ⊢
      exact ih acc c h

theorem pstep_fold_closure (walls : Finset Wall) (cur : Coord) :
    ∀ (l : List Coord) (acc : List Coord × Finset Coord) (m : Coord),
      m ∈ l → in_bounds m → ¬ is_wall_between walls cur m →
      m ∈ (l.foldl (pstep walls cur) acc).2 := by
  intro l
  induction l with
  | nil => intro acc m h; cases h
  | cons m0 t ih =>
    intro acc m hm hb hw
    rw [List.foldl_cons]
    rcases List.mem_cons.mp hm with he | ht
    · subst he
      by_cases hcond : m ∉ acc.2 ∧ in_bounds m ∧ ¬ is_wall_between walls cur m
      · rw [pstep, if_pos hcond]
        exact pstep_fold_vis_mono walls cur t _ m
          (Finset.mem_insert_self m acc.2)
      · rw [pstep, if_neg hcond]
        have hmV : m ∈ acc.2 := by
          by_contra hmV
          exact hcond ⟨hmV, hb, hw⟩
        exact pstep_fold_vis_mono walls cur t acc m hmV
    · exact ih _ m ht hb hw

theorem pstep_fold_measure (walls : Finset Wall) (cur : Coord) :
    ∀ (l : List Coord) (acc : List Coord × Finset Coord),
      (l.foldl (pstep walls cur) acc).1.length +
          (acc.2.filter fun c => in_bounds c).card =
        acc.1.length +
          ((l.foldl (pstep walls cur) acc).2.filter
            fun c => in_bounds c).card := by
  intro l
  induction l with
  | nil => intro acc; rfl
  | cons m t ih =>
    intro acc
    rw [List.foldl_cons]
    by_cases hcond : m ∉ acc.2 ∧ in_bounds m ∧ ¬ is_wall_between walls cur m
    · rw [pstep, if_pos hcond]
      have h := ih (acc.1 ++ [m], insert m acc.2)
      dsimp only at h
      have hcard : ((insert m acc.2).filter fun c => in_bounds c).card =
          (acc.2.filter fun c => in_bounds c).card + 1 := by
        rw [Finset.filter_insert, if_pos hcond.2.1,
          Finset.card_insert_of_not_mem]
        intro hc
        exact hcond.1 (Finset.mem_of_mem_filter m hc)
      have hlen : (acc.1 ++ [m]).length = acc.1.length + 1 := by
        rw [List.length_append]
        rfl
      omega
    · rw [pstep, if_neg hcond]
      exact ih acc

theorem bfs_expand_eq (walls : Finset Wall) (cur : Coord)
    (acc : List Coord × Finset Coord) :
    bfs_expand walls cur acc = (neighbors cur).foldl (pstep walls cur) acc :=
  rfl

theorem closed_no_goal (walls : Finset Wall) (goal : Coord → Bool)
    (V : Finset Coord)
    (hproc : ∀ c ∈ V, goal c = false ∧ ∀ m, step_adj walls c m → m ∈ V) :
    ∀ (n : Nat) (w : Coord), reach_in walls (fun c => c ∈ V) n w →
      w ∈ V ∧ goal w = false := by
  intro n
  induction n with
  | zero => intro w hw; exact ⟨hw, (hproc w hw).1⟩
  | succ n ih =>
    intro w hw
    rcases hw with hw | ⟨u, hu, hadj⟩
    · exact ih w hw
    · have hu2 := ih u hu
      have hwV : w ∈ V := (hproc u hu2.1).2 w hadj
      exact ⟨hwV, (hproc w hwV).1⟩

theorem path_aux_sound (walls : Finset Wall) (goal : Coord → Bool)
    (S : Coord → Prop) :
    ∀ (fuel : Nat) (q : List Coord) (V : Finset Coord),
      (∀ c ∈ q, ∃ n, reach_in walls S n c) →
      path_exists_aux walls goal fuel q V = true →
      ∃ v, (∃ n, reach_in walls S n v) ∧ goal v = true := by
  intro fuel
  induction fuel with
  | zero =>
    intro q V _ h
    simp only [path_exists_aux] at h
    cases h
  | succ fuel ih =>
    intro q V hq h
    rcases q with _ | ⟨cur, q⟩
    · simp only [path_exists_aux] at h
      cases h
    · simp only [path_exists_aux] at h
      rcases hgoal : goal cur with _ | _
      · rw [hgoal, if_neg Bool.false_ne_true] at h
        refine ih _ _ ?_ h
        intro c hc
        rw [bfs_expand_eq] at hc
        rcases pstep_fold_queue_src walls cur (neighbors cur) (q, V) c hc
          with h1 | ⟨h1, h2, h3, _⟩
        · exact hq c (List.mem_cons_of_mem cur h1)
        · rcases hq cur (List.mem_cons_self cur q) with ⟨n, hcur⟩
          exact ⟨n + 1, Or.inr ⟨cur, hcur, h1, h2, h3⟩⟩
      · exact ⟨cur, hq cur (List.mem_cons_self cur q), hgoal⟩

theorem path_aux_false (walls : Finset Wall) (goal : Coord → Bool) :
    ∀ (fuel : Nat) (q : List Coord) (V : Finset Coord),
      (∀ c ∈ q, c ∈ V) →
      (∀ c ∈ V, c ∉ q →
        goal c = false ∧ ∀ m, step_adj walls c m → m ∈ V) →
      q.length + 162 ≤ fuel + 2 * (V.filter fun c => in_bounds c).card →
      path_exists_aux walls goal fuel q V = false →
      ∀ (n : Nat) (w : Coord), reach_in walls (fun c => c ∈ V) n w →
        goal w = false := by
  intro fuel
  induction fuel with
  | zero =>
    intro q V hqV hproc hmeas _
    rcases q with _ | ⟨cur, q⟩
    · intro n w hw
      exact (closed_no_goal walls goal V
        (fun c hc => hproc c hc (List.not_mem_nil c)) n w hw).2
    · exfalso
      have hcard := filter_in_bounds_card_le V
      have hlen : (cur :: q).length = q.length + 1 := rfl
      omega
  | succ fuel ih =>
    intro q V hqV hproc hmeas h
    rcases q with _ | ⟨cur, q⟩
    · intro n w hw
      exact (closed_no_goal walls goal V
        (fun c hc => hproc c hc (List.not_mem_nil c)) n w hw).2
    · simp only [path_exists_aux] at h
      rcases hgoal : goal cur with _ | _
      · rw [hgoal, if_neg Bool.false_ne_true] at h
        rw [bfs_expand_eq] at h
        have hsub : ∀ c ∈ V,
            c ∈ ((neighbors cur).foldl (pstep walls cur) (q, V)).2 :=
          fun c hc => pstep_fold_vis_mono walls cur (neighbors cur) (q, V) c hc
        have hinv1 : ∀ c ∈ ((neighbors cur).foldl (pstep walls cur) (q, V)).1,
            c ∈ ((neighbors cur).foldl (pstep walls cur) (q, V)).2 := by
          refine pstep_fold_qv walls cur (neighbors cur) (q, V) ?_
          intro c hc
          exact hqV c (List.mem_cons_of_mem cur hc)
        have hinv2 : ∀ c ∈ ((neighbors cur).foldl (pstep walls cur) (q, V)).2,
            c ∉ ((neighbors cur).foldl (pstep walls cur) (q, V)).1 →
            goal c = false ∧ ∀ m, step_adj walls c m →
              m ∈ ((neighbors cur).foldl (pstep walls cur) (q, V)).2 := by
          intro c hcV hcq
          rcases pstep_fold_vis_src walls cur (neighbors cur) (q, V) c hcV
            with hcV0 | hcq0
          · by_cases hc : c = cur
            · rw [hc]
              refine ⟨hgoal, ?_⟩
              intro m hm
              exact pstep_fold_closure walls cur (neighbors cur) (q, V) m
                hm.1 hm.2.1 hm.2.2
            · have hcq1 : c ∉ q := fun hin =>
                hcq (pstep_fold_queue_mono walls cur (neighbors cur) (q, V)
                  c hin)
              have hold := hproc c hcV0 (by
                intro hmem
                rcases List.mem_cons.mp hmem with hh | hh
                · exact hc hh
                · exact hcq1 hh)
              exact ⟨hold.1, fun m hm => pstep_fold_vis_mono walls cur
                (neighbors cur) (q, V) m (hold.2 m hm)⟩
          · exact absurd hcq0 hcq
        have hmeq := pstep_fold_measure walls cur (neighbors cur) (q, V)
        dsimp only at hmeq
        have hmono := Finset.card_le_card
          (Finset.filter_subset_filter (fun c => in_bounds c)
            (fun c hc => hsub c hc))
        have hlen : (cur :: q).length = q.length + 1 := rfl
        intro n w hw
        refine ih _ _ hinv1 hinv2 (by omega) h n w ?_
        exact reach_in_mono_S (fun c hc => hsub c hc) hw
      · rw [hgoal, if_pos rfl] at h
        cases h

theorem path_exists_iff (walls : Finset Wall) (start : Coord)
    (goal : Coord → Bool) :
    path_exists walls start goal = true ↔
      ∃ v, (∃ n, reach_in walls (fun c => c = start) n v) ∧
        goal v = true := by
  constructor
  · intro h
    refine path_aux_sound walls goal (fun c => c = start) 200 [start]
      {start} ?_ h
    intro c hc
    rw [List.mem_singleton] at hc
    exact ⟨0, hc⟩
  · rintro ⟨v, ⟨n, hv⟩, hg⟩
    rcases hpe : path_exists walls start goal with _ | _
    · exfalso
      have hfalse := path_aux_false walls goal 200 [start] {start}
        (by
          intro c hc
          rw [List.mem_singleton] at hc
          rw [hc]
          exact Finset.mem_singleton_self start)
        (by
          intro c hc hcq
          exfalso
          rw [Finset.mem_singleton] at hc
          exact hcq (by rw [hc]; exact List.mem_singleton.mpr rfl))
        (by
          have hcard0 : 0 ≤ (({start} : Finset Coord).filter
            fun c => in_bounds c).card := Nat.zero_le _
          have hlen : ([start] : List Coord).length = 1 := rfl
          omega)
        hpe n v
        (reach_in_mono_S (fun c hc => by
          rw [Finset.mem_singleton]
          exact hc) hv)
      exact absurd hg (by rw [hfalse]; exact Bool.false_ne_true)
    · rfl

/-! ### The no-block invariant (C1) -/

theorem place_wall_ok {s : GameState} {p : Player} {w : Wall}
    {s2 : GameState} (h : place_wall s p w = .ok s2) :
    s2.pos_one = s.pos_one ∧ s2.pos_two = s.pos_two ∧
    s2.walls = insert w s.walls ∧
    path_exists (insert w s.walls) s.pos_one goal_one = true ∧
    path_exists (insert w s.walls) s.pos_two goal_two = true := by
  simp only [place_wall] at h
  by_cases h1 : p ≠ s.current_player
  · rw [if_pos h1] at h; cases h
  · rw [if_neg h1] at h
    by_cases h2 : s.budget p ≤ 0
    · rw [if_pos h2] at h; cases h
    · rw [if_neg h2] at h
      rcases hv : validate_wall_placement s w with e | u
      · simp only [hv] at h
        cases h
      · simp only [hv] at h
        rcases hp1 : path_exists (insert w s.walls) s.pos_one goal_one
          with _ | _
        · rw [hp1, if_neg Bool.false_ne_true] at h
          cases h
        · rw [hp1, if_pos rfl] at h
          rcases hp2 : path_exists (insert w s.walls) s.pos_two goal_two
            with _ | _
          · rw [hp2, if_neg Bool.false_ne_true] at h
            cases h
          · rw [hp2, if_pos rfl] at h
            have he := Except.ok.inj h
            refine ⟨?_, ?_, ?_, rfl, rfl⟩ <;>
              (rw [← he]; all_goals (cases p <;> rfl))

theorem move_pawn_ok {s : GameState} {p : Player} {t : Coord}
    {s2 : GameState} (h : move_pawn s p t = .ok s2) :
    t ∈ get_possible_pawn_moves s p ∧ s2.walls = s.walls ∧
    s2.pos p = t ∧ s2.pos p.other = s.pos p.other := by
  simp only [move_pawn] at h
  by_cases h1 : p ≠ s.current_player
  · rw [if_pos h1] at h; cases h
  · rw [if_neg h1] at h
    by_cases h2 : t ∉ get_possible_pawn_moves s p
    · rw [if_pos h2] at h; cases h
    · rw [if_neg h2] at h
      have he := Except.ok.inj h
      refine ⟨not_not.mp h2, ?_, ?_, ?_⟩ <;>
        (rw [← he]; all_goals (cases p <;> rfl))

theorem jump_mem_neighbors {cur opp : Coord} (hm : opp ∈ neighbors cur) :
    ((opp.1 + (opp.1 - cur.1), opp.2 + (opp.2 - cur.2)) : Coord) ∈
      neighbors opp := by
  rw [mem_neighbors] at hm ⊢
  rcases cur with ⟨c1, c2⟩
  rcases opp with ⟨o1, o2⟩
  simp only [Prod.ext_iff] at hm ⊢
  omega

/-- A legal pawn move lands on the board, and the mover's old square is
within two traversable edges of the new square (the reverse direction of
the one or two edges the move crossed). -/
theorem pawn_move_connects {s : GameState} {p : Player} {t : Coord}
    (h1 : in_bounds (s.pos p)) (h2 : in_bounds (s.pos p.other))
    (ht : t ∈ get_possible_pawn_moves s p) :
    in_bounds t ∧ reach_in s.walls (fun c => c = t) 2 (s.pos p) := by
  simp only [get_possible_pawn_moves, List.mem_flatMap] at ht
  rcases ht with ⟨m, hm, hbr⟩
  split at hbr
  · exact absurd hbr (List.not_mem_nil t)
  · rename_i hbnn
    have hb : in_bounds m := not_not.mp hbnn
    split at hbr
    · exact absurd hbr (List.not_mem_nil t)
    · rename_i hw
      split at hbr
      · rename_i hop
        subst hop
        have hadj2 : step_adj s.walls (s.pos p) (s.pos p.other) :=
          ⟨hm, hb, hw⟩
        have hback2 : step_adj s.walls (s.pos p.other) (s.pos p) :=
          step_adj_symm h1 hadj2
        split at hbr
        · rename_i hj
          have htj := List.mem_singleton.mp hbr
          subst htj
          refine ⟨hj.1, ?_⟩
          have hadj1 : step_adj s.walls (s.pos p.other)
              ((s.pos p.other).1 + ((s.pos p.other).1 - (s.pos p).1),
               (s.pos p.other).2 + ((s.pos p.other).2 - (s.pos p).2)) :=
            ⟨jump_mem_neighbors hm, hj.1, hj.2⟩
          have hback1 := step_adj_symm h2 hadj1
          exact Or.inr ⟨s.pos p.other, Or.inr ⟨_, rfl, hback1⟩, hback2⟩
        · rename_i hj
          split at hbr
          · rename_i hcol
            simp only [List.mem_flatMap] at hbr
            rcases hbr with ⟨dc, hdc, hbr2⟩
            have hdc2 : dc = -1 ∨ dc = 1 := by simpa using hdc
            split at hbr2
            · rename_i hcond
              have htd := List.mem_singleton.mp hbr2
              subst htd
              have hibt : in_bounds
                  ((s.pos p.other).1, (s.pos p.other).2 + dc) :=
                ⟨h2.1, h2.2.1, hcond.1, hcond.2.1⟩
              refine ⟨hibt, ?_⟩
              have hdn : ((s.pos p.other).1, (s.pos p.other).2 + dc) ∈
                  neighbors (s.pos p.other) := by
                rw [mem_neighbors]
                rcases hdc2 with rfl | rfl
                · right; right; left
                  rw [Prod.mk.injEq]
                  exact ⟨rfl, by ring⟩
                · right; right; right
                  rw [Prod.mk.injEq]
                  exact ⟨rfl, rfl⟩
              have hadj1 : step_adj s.walls (s.pos p.other)
                  ((s.pos p.other).1, (s.pos p.other).2 + dc) :=
                ⟨hdn, hibt, hcond.2.2⟩
              have hback1 := step_adj_symm h2 hadj1
              exact Or.inr ⟨s.pos p.other, Or.inr ⟨_, rfl, hback1⟩, hback2⟩
            · exact absurd hbr2 (List.not_mem_nil t)
          · rename_i hcol
            split at hbr
            · rename_i hrow
              simp only [List.mem_flatMap] at hbr
              rcases hbr with ⟨dr, hdr, hbr2⟩
              have hdr2 : dr = -1 ∨ dr = 1 := by simpa using hdr
              split at hbr2
              · rename_i hcond
                have htd := List.mem_singleton.mp hbr2
                subst htd
                have hibt : in_bounds
                    ((s.pos p.other).1 + dr, (s.pos p.other).2) :=
                  ⟨hcond.1, hcond.2.1, h2.2.2.1, h2.2.2.2⟩
                refine ⟨hibt, ?_⟩
                have hdn : ((s.pos p.other).1 + dr, (s.pos p.other).2) ∈
                    neighbors (s.pos p.other) := by
                  rw [mem_neighbors]
                  rcases hdr2 with rfl | rfl
                  · left
                    rw [Prod.mk.injEq]
                    exact ⟨by ring, rfl⟩
                  · right; left
                    rw [Prod.mk.injEq]
                    exact ⟨rfl, rfl⟩
                have hadj1 : step_adj s.walls (s.pos p.other)
                    ((s.pos p.other).1 + dr, (s.pos p.other).2) :=
                  ⟨hdn, hibt, hcond.2.2⟩
                have hback1 := step_adj_symm h2 hadj1
                exact Or.inr
                  ⟨s.pos p.other, Or.inr ⟨_, rfl, hback1⟩, hback2⟩
              · exact absurd hbr2 (List.not_mem_nil t)
            · exact absurd hbr (List.not_mem_nil t)
      · rename_i hop
        have htm := List.mem_singleton.mp hbr
        subst htm
        refine ⟨hb, ?_⟩
        have hadj : step_adj s.walls (s.pos p) t := ⟨hm, hb, hw⟩
        have hback : step_adj s.walls t (s.pos p) := step_adj_symm h1 hadj
        exact reach_in_succ (Or.inr ⟨t, rfl, hback⟩)

/-- Reachability from a square transfers to any square at most two
traversable edges away. -/
theorem path_exists_step {walls : Finset Wall} {a b : Coord}
    {goal : Coord → Bool}
    (hr : reach_in walls (fun c => c = b) 2 a)
    (hp : path_exists walls a goal = true) :
    path_exists walls b goal = true := by
  rcases (path_exists_iff walls a goal).mp hp with ⟨v, ⟨n, hv⟩, hg⟩
  exact (path_exists_iff walls b goal).mpr
    ⟨v, ⟨2 + n, reach_in_trans hr hv⟩, hg⟩

/-- Every state reachable from `create_new_game()` keeps both pawns on
the board and both players connected to their goal rows. -/
theorem reachable_invariant :
    ∀ s : GameState, Reachable s →
      in_bounds s.pos_one ∧ in_bounds s.pos_two ∧ both_have_paths s := by
  intro s h
  induction h with
  | init => exact ⟨by decide, by decide, by decide, by decide⟩
  | @pawn s p t s2 hR hmv ih =>
    rcases move_pawn_ok hmv with ⟨ht, hwalls, hpos, hposo⟩
    rcases ih with ⟨hb1, hb2, hp1, hp2⟩
    have h1 : in_bounds (s.pos p) := by
      cases p
      · exact hb1
      · exact hb2
    have h2 : in_bounds (s.pos p.other) := by
      cases p
      · exact hb2
      · exact hb1
    rcases pawn_move_connects h1 h2 ht with ⟨hbt, hreach⟩
    cases p with
    | one =>
      have e1 : s2.pos_one = t := hpos
      have e2 : s2.pos_two = s.pos_two := hposo
      refine ⟨?_, ?_, ?_, ?_⟩
      · rw [e1]; exact hbt
      · rw [e2]; exact hb2
      · rw [hwalls, e1]
        exact path_exists_step hreach hp1
      · rw [hwalls, e2]
        exact hp2
    | two =>
      have e1 : s2.pos_one = s.pos_one := hposo
      have e2 : s2.pos_two = t := hpos
      refine ⟨?_, ?_, ?_, ?_⟩
      · rw [e1]; exact hb1
      · rw [e2]; exact hbt
      · rw [hwalls, e1]
        exact hp1
      · rw [hwalls, e2]
        exact path_exists_step hreach hp2
  | @wall s p w s2 hR hpw ih =>
    rcases place_wall_ok hpw with ⟨e1, e2, ew, hq1, hq2⟩
    rcases ih with ⟨hb1, hb2, _, _⟩
    refine ⟨?_, ?_, ?_, ?_⟩
    · rw [e1]; exact hb1
    · rw [e2]; exact hb2
    · rw [ew, e1]; exact hq1
    · rw [ew, e2]; exact hq2

/-- C1: the no-block invariant.  A successful `place_wall` has passed the
dual path-existence check, so the returned state satisfies
`both_have_paths` — equivalently, every wall whose addition would cut
either player off is rejected; and combined with the fact that pawn moves
only shift a pawn along traversable edges, the invariant holds in every
state reachable from `create_new_game()` by legal operations. -/
theorem c1_no_block_invariant :
    (∀ (s : GameState) (p : Player) (w : Wall) (s2 : GameState),
      place_wall s p w = .ok s2 → both_have_paths s2) ∧
    (∀ s : GameState, Reachable s → both_have_paths s) := by
  constructor
  · intro s p w s2 h
    rcases place_wall_ok h with ⟨e1, e2, ew, hq1, hq2⟩
    constructor
    · rw [ew, e1]; exact hq1
    · rw [ew, e2]; exact hq2
  · intro s h
    exact (reachable_invariant s h).2.2

/-- C1 witness: the first wall of a fresh game is accepted, the resulting
state is reachable, and the invariant theorem yields both paths there. -/
theorem c1_no_block_invariant_witness :
    place_wall create_new_game .one ⟨.h, 1, 4⟩ = .ok c1_result ∧
    both_have_paths c1_result :=
  ⟨by decide,
    c1_no_block_invariant.2 c1_result
      (@Reachable.wall create_new_game .one ⟨.h, 1, 4⟩ c1_result
        Reachable.init (by decide))⟩

/-! ### The single-source distance BFS computes exact distances -/

theorem sstep_fold_queue_mono (walls : Finset Wall) (cur : Coord) (d : Int) :
    ∀ (l : List Coord) (acc : List (Coord × Int) × Finset Coord)
      (e : Coord × Int),
      e ∈ acc.1 → e ∈ (l.foldl (sstep walls cur d) acc).1 := by
  intro l
  induction l with
  | nil => intro acc e h; exact h
  | cons m t ih =>
    intro acc e h
    rw [List.foldl_cons]
    apply ih
    rw [sstep]
    split
    · exact List.mem_append_left _ h
    · exact h

theorem sstep_fold_vis_mono (walls : Finset Wall) (cur : Coord) (d : Int) :
    ∀ (l : List Coord) (acc : List (Coord × Int) × Finset Coord)
      (c : Coord),
      c ∈ acc.2 → c ∈ (l.foldl (sstep walls cur d) acc).2 := by
  intro l
  induction l with
  | nil => intro acc c h; exact h
  | cons m t ih =>
    intro acc c h
    rw [List.foldl_cons]
    apply ih
    rw [sstep]
    split
    · exact Finset.mem_insert_of_mem h
    · exact h

theorem sstep_fold_vis_src (walls : Finset Wall) (cur : Coord) (d : Int) :
    ∀ (l : List Coord) (acc : List (Coord × Int) × Finset Coord)
      (c : Coord),
      c ∈ (l.foldl (sstep walls cur d) acc).2 →
      c ∈ acc.2 ∨ (c, d + 1) ∈ (l.foldl (sstep walls cur d) acc).1 := by
  intro l
  induction l with
  | nil => intro acc c h; exact Or.inl h
  | cons m t ih =>
    intro acc c h
    rw [List.foldl_cons] at h ⊢
    by_cases hcond : m ∉ acc.2 ∧ in_bounds m ∧ ¬ is_wall_between walls cur m
    · rw [sstep, if_pos hcond] at h ⊢
      rcases ih (acc.1 ++ [(m, d + 1)], insert m acc.2) c h with h1 | h1
      · rcases Finset.mem_insert.mp h1 with he | hV
        · subst he
          exact Or.inr (sstep_fold_queue_mono walls cur d t _ _
            (List.mem_append_right _ (List.mem_singleton.mpr rfl)))
        · exact Or.inl hV
      · exact Or.inr h1
    · rw [sstep, if_neg hcond] at h ⊢
      exact ih acc c h

theorem sstep_fold_qv (walls : Finset Wall) (cur : Coord) (d : Int) :
    ∀ (l : List Coord) (acc : List (Coord × Int) × Finset Coord),
      (∀ e ∈ acc.1, e.1 ∈ acc.2) →
      ∀ e ∈ (l.foldl (sstep walls cur d) acc).1,
        e.1 ∈ (l.foldl (sstep walls cur d) acc).2 := by
  intro l
  induction l with
  | nil => intro acc h e he; exact h e he
  | cons m t ih =>
    intro acc h e he
    rw [List.foldl_cons] at he ⊢
    by_cases hcond : m ∉ acc.2 ∧ in_bounds m ∧ ¬ is_wall_between walls cur m
    · rw [sstep, if_pos hcond] at he ⊢
      refine ih _ ?_ e he
      intro x hx
      rcases List.mem_append.mp hx with hx | hx
      · exact Finset.mem_insert_of_mem (h x hx)
      · have hxm := List.mem_singleton.mp hx
        rw [hxm]
        exact Finset.mem_insert_self m acc.2
    · rw [sstep, if_neg hcond] at he ⊢
      exact ih acc h e he

theorem sstep_fold_closure (walls : Finset Wall) (cur : Coord) (d : Int) :
    ∀ (l : List Coord) (acc : List (Coord × Int) × Finset Coord)
      (m : Coord),
      m ∈ l → in_bounds m → ¬ is_wall_between walls cur m →
      m ∈ (l.foldl (sstep walls cur d) acc).2 := by
  intro l
  induction l with
  | nil => intro acc m h; cases h
  | cons m0 t ih =>
    intro acc m hm hb hw
    rw [List.foldl_cons]
    rcases List.mem_cons.mp hm with he | ht
    · subst he
      by_cases hcond : m ∉ acc.2 ∧ in_bounds m ∧ ¬ is_wall_between walls cur m
      · rw [sstep, if_pos hcond]
        exact sstep_fold_vis_mono walls cur d t _ m
          (Finset.mem_insert_self m acc.2)
      · rw [sstep, if_neg hcond]
        have hmV : m ∈ acc.2 := by
          by_contra hmV
          exact hcond ⟨hmV, hb, hw⟩
        exact sstep_fold_vis_mono walls cur d t acc m hmV
    · exact ih _ m ht hb hw

theorem sstep_fold_measure (walls : Finset Wall) (cur : Coord) (d : Int) :
    ∀ (l : List Coord) (acc : List (Coord × Int) × Finset Coord),
      (l.foldl (sstep walls cur d) acc).1.length +
          (acc.2.filter fun c => in_bounds c).card =
        acc.1.length +
          ((l.foldl (sstep walls cur d) acc).2.filter
            fun c => in_bounds c).card := by
  intro l
  induction l with
  | nil => intro acc; rfl
  | cons m t ih =>
    intro acc
    rw [List.foldl_cons]
    by_cases hcond : m ∉ acc.2 ∧ in_bounds m ∧ ¬ is_wall_between walls cur m
    · rw [sstep, if_pos hcond]
      have h := ih (acc.1 ++ [(m, d + 1)], insert m acc.2)
      dsimp only at h
      have hcard : ((insert m acc.2).filter fun c => in_bounds c).card =
          (acc.2.filter fun c => in_bounds c).card + 1 := by
        rw [Finset.filter_insert, if_pos hcond.2.1,
          Finset.card_insert_of_not_mem]
        intro hc
        exact hcond.1 (Finset.mem_of_mem_filter m hc)
      have hlen : (acc.1 ++ [(m, d + 1)]).length = acc.1.length + 1 := by
        rw [List.length_append]
        rfl
      omega
    · rw [sstep, if_neg hcond]
      exact ih acc

theorem sstep_fold_nodup (walls : Finset Wall) (cur : Coord) (d : Int) :
    ∀ (l : List Coord) (acc : List (Coord × Int) × Finset Coord),
      (acc.1.map Prod.fst).Nodup → (∀ e ∈ acc.1, e.1 ∈ acc.2) →
      ((l.foldl (sstep walls cur d) acc).1.map Prod.fst).Nodup := by
  intro l
  induction l with
  | nil => intro acc h1 _; exact h1
  | cons m t ih =>
    intro acc h1 h2
    rw [List.foldl_cons]
    by_cases hcond : m ∉ acc.2 ∧ in_bounds m ∧ ¬ is_wall_between walls cur m
    · rw [sstep, if_pos hcond]
      apply ih
      · rw [List.map_append]
        refine List.Nodup.append h1 (List.nodup_singleton _) ?_
        intro a ha hb
        have hb2 : a = m := List.mem_singleton.mp hb
        subst hb2
        rcases List.mem_map.mp ha with ⟨e, he, hfst⟩
        apply hcond.1
        rw [← hfst]
        exact h2 e he
      · intro e he
        rcases List.mem_append.mp he with he | he
        · exact Finset.mem_insert_of_mem (h2 e he)
        · have he2 := List.mem_singleton.mp he
          rw [he2]
          exact Finset.mem_insert_self m acc.2
    · rw [sstep, if_neg hcond]
      exact ih acc h1 h2

theorem sstep_fold_struct (walls : Finset Wall) (cur : Coord) (d : Int) :
    ∀ (l : List Coord) (acc : List (Coord × Int) × Finset Coord),
      ∃ N, (l.foldl (sstep walls cur d) acc).1 = acc.1 ++ N ∧
        ∀ e ∈ N, e.2 = d + 1 ∧ e.1 ∈ l ∧ in_bounds e.1 ∧
          ¬ is_wall_between walls cur e.1 ∧ e.1 ∉ acc.2 := by
  intro l
  induction l with
  | nil =>
    intro acc
    exact ⟨[], (List.append_nil acc.1).symm,
      fun e he => absurd he (List.not_mem_nil e)⟩
  | cons m t ih =>
    intro acc
    rw [List.foldl_cons]
    by_cases hcond : m ∉ acc.2 ∧ in_bounds m ∧ ¬ is_wall_between walls cur m
    · rw [sstep, if_pos hcond]
      rcases ih (acc.1 ++ [(m, d + 1)], insert m acc.2) with ⟨N, hN, hNp⟩
      refine ⟨(m, d + 1) :: N, ?_, ?_⟩
      · rw [hN, List.append_assoc]
        rfl
      · intro e he
        rcases List.mem_cons.mp he with he | he
        · subst he
          exact ⟨rfl, List.mem_cons_self m t, hcond.2.1, hcond.2.2, hcond.1⟩
        · rcases hNp e he with ⟨p1, p2, p3, p4, p5⟩
          exact ⟨p1, List.mem_cons_of_mem m p2, p3, p4,
            fun hc => p5 (Finset.mem_insert_of_mem hc)⟩
    · rw [sstep, if_neg hcond]
      rcases ih acc with ⟨N, hN, hNp⟩
      refine ⟨N, hN, ?_⟩
      intro e he
      rcases hNp e he with ⟨p1, p2, p3, p4, p5⟩
      exact ⟨p1, List.mem_cons_of_mem m p2, p3, p4, p5⟩

/-- If every cell of distance at most `D` is visited, processed and
closed, then there are no reachable cells beyond `D` at all, and no
reachable cell is a goal cell. -/
theorem dist_all_processed (walls : Finset Wall) (S : Coord → Prop)
    (goal : Coord → Bool) (V : Finset Coord) (D : Nat)
    (hmem : ∀ c ∈ V, ∃ j, j ≤ D ∧ dist_is walls S c j)
    (hcov : ∀ c j, j ≤ D → dist_is walls S c j → c ∈ V)
    (hproc : ∀ c j, j ≤ D → dist_is walls S c j →
      goal c = false ∧ ∀ m, step_adj walls c m → m ∈ V) :
    ∀ (j : Nat) (v : Coord), dist_is walls S v j → goal v = false := by
  have key : ∀ (j : Nat) (v : Coord), dist_is walls S v j →
      j ≤ D ∧ v ∈ V := by
    intro j
    induction j using Nat.strong_induction_on with
    | _ j ihj =>
      intro v hv
      rcases j with _ | j
      · exact ⟨Nat.zero_le D, hcov v 0 (Nat.zero_le D) hv⟩
      · rcases hv.1 with hr | ⟨u, hu, hadj⟩
        · rcases dist_exists hr with ⟨j2, hj2, hd2⟩
          have heq := dist_is_unique hv hd2
          omega
        · rcases dist_exists hu with ⟨j2, hj2, hd2⟩
          have hu2 := ihj j2 (by omega) u hd2
          have hvV : v ∈ V := (hproc u j2 hu2.1 hd2).2 v hadj
          rcases hmem v hvV with ⟨j3, hj3, hd3⟩
          have heq := dist_is_unique hv hd3
          exact ⟨by omega, hvV⟩
  intro j v hv
  have h2 := key j v hv
  exact (hproc v j h2.1 hv).1

/-- One pop of the single-source distance BFS, with the full layer
invariant: the head of the `D`-block is either a goal cell realizing the
minimum goal distance, or its fresh neighbours join the `D+1`-block with
exact labels. -/
theorem shortest_aux_pop (walls : Finset Wall) (goal : Coord → Bool)
    (S : Coord → Prop) (fuel : Nat)
    (IH : ∀ (D : Nat) (A B : List (Coord × Int)) (V : Finset Coord),
      (∀ e ∈ A, e.2 = (D : Int) ∧ dist_is walls S e.1 D) →
      (∀ e ∈ B, e.2 = (D : Int) + 1 ∧ dist_is walls S e.1 (D + 1)) →
      (∀ e ∈ A ++ B, e.1 ∈ V) →
      ((A ++ B).map Prod.fst).Nodup →
      (∀ c ∈ V, (∃ j, j ≤ D ∧ dist_is walls S c j) ∨ ∃ e ∈ B, e.1 = c) →
      (∀ c j, j ≤ D → dist_is walls S c j → c ∈ V) →
      (∀ c j, j ≤ D → dist_is walls S c j → (∀ k, (c, k) ∉ A ++ B) →
        goal c = false ∧ ∀ m, step_adj walls c m → m ∈ V) →
      ((A ++ B).length + 162 ≤ fuel +
        2 * (V.filter fun c => in_bounds c).card) →
      (shortest_aux walls goal fuel (A ++ B) V = none →
        ∀ v j, dist_is walls S v j → goal v = false) ∧
      (∀ e, shortest_aux walls goal fuel (A ++ B) V = some e →
        0 ≤ e ∧ ∃ v, goal v = true ∧ dist_is walls S v e.toNat ∧
          ∀ w k, goal w = true → dist_is walls S w k → e.toNat ≤ k))
    (D : Nat) (a0 : Coord × Int) (A2 B : List (Coord × Int))
    (V : Finset Coord)
    (hA : ∀ e ∈ a0 :: A2, e.2 = (D : Int) ∧ dist_is walls S e.1 D)
    (hB : ∀ e ∈ B, e.2 = (D : Int) + 1 ∧ dist_is walls S e.1 (D + 1))
    (hQV : ∀ e ∈ (a0 :: A2) ++ B, e.1 ∈ V)
    (hnd : (((a0 :: A2) ++ B).map Prod.fst).Nodup)
    (hmem : ∀ c ∈ V, (∃ j, j ≤ D ∧ dist_is walls S c j) ∨
      ∃ e ∈ B, e.1 = c)
    (hcov : ∀ c j, j ≤ D → dist_is walls S c j → c ∈ V)
    (hproc : ∀ c j, j ≤ D → dist_is walls S c j →
      (∀ k, (c, k) ∉ (a0 :: A2) ++ B) →
      goal c = false ∧ ∀ m, step_adj walls c m → m ∈ V)
    (hms : ((a0 :: A2) ++ B).length + 162 ≤ (fuel + 1) +
      2 * (V.filter fun c => in_bounds c).card) :
    (shortest_aux walls goal (fuel + 1) ((a0 :: A2) ++ B) V = none →
      ∀ v j, dist_is walls S v j → goal v = false) ∧
    (∀ e, shortest_aux walls goal (fuel + 1) ((a0 :: A2) ++ B) V = some e →
      0 ≤ e ∧ ∃ v, goal v = true ∧ dist_is walls S v e.toNat ∧
        ∀ w k, goal w = true → dist_is walls S w k → e.toNat ≤ k) := by
  have ha0 := hA a0 (List.mem_cons_self a0 A2)
  have hmin : ∀ w k, goal w = true → dist_is walls S w k → D ≤ k := by
    intro w k hgw hdw
    by_contra hlt
    push_neg at hlt
    have hwnq : ∀ k2, (w, k2) ∉ (a0 :: A2) ++ B := by
      intro k2 hk2
      rcases List.mem_append.mp hk2 with hk2 | hk2
      · have hd := (hA _ hk2).2
        have heq := dist_is_unique hd hdw
        omega
      · have hd := (hB _ hk2).2
        have heq := dist_is_unique hd hdw
        omega
    have hgf := (hproc w k (by omega) hdw hwnq).1
    rw [hgf] at hgw
    cases hgw
  rcases hgoal : goal a0.1 with _ | _
  · -- the popped cell is not a goal cell: expand it
    have hred : shortest_aux walls goal (fuel + 1) ((a0 :: A2) ++ B) V =
        shortest_aux walls goal fuel
          ((neighbors a0.1).foldl (sstep walls a0.1 a0.2) (A2 ++ B, V)).1
          ((neighbors a0.1).foldl (sstep walls a0.1 a0.2) (A2 ++ B, V)).2
        := by
      rw [List.cons_append]
      simp only [shortest_aux]
      rw [hgoal, if_neg Bool.false_ne_true]
      rfl
    rcases sstep_fold_struct walls a0.1 a0.2 (neighbors a0.1) (A2 ++ B, V)
      with ⟨N, hN, hNp⟩
    have hq1 : A2 ++ (B ++ N) =
        ((neighbors a0.1).foldl (sstep walls a0.1 a0.2) (A2 ++ B, V)).1 := by
      rw [hN, List.append_assoc]
    have hsubQ : ∀ e ∈ A2 ++ B, e ∈ (a0 :: A2) ++ B := by
      intro e he
      rcases List.mem_append.mp he with h | h
      · exact List.mem_append_left _ (List.mem_cons_of_mem a0 h)
      · exact List.mem_append_right _ h
    have hNdist : ∀ e ∈ N, e.2 = (D : Int) + 1 ∧
        dist_is walls S e.1 (D + 1) := by
      intro e he
      rcases hNp e he with ⟨he2, hmemn, hinb, hnw, hfresh⟩
      constructor
      · rw [he2, ha0.1]
      · constructor
        · exact Or.inr ⟨a0.1, ha0.2.1, hmemn, hinb, hnw⟩
        · intro k hk
          by_contra hlt
          push_neg at hlt
          rcases dist_exists hk with ⟨j2, hj2, hd2⟩
          exact hfresh (hcov e.1 j2 (by omega) hd2)
    have hA2 : ∀ e ∈ A2, e.2 = (D : Int) ∧ dist_is walls S e.1 D :=
      fun e he => hA e (List.mem_cons_of_mem a0 he)
    have hBN : ∀ e ∈ B ++ N, e.2 = (D : Int) + 1 ∧
        dist_is walls S e.1 (D + 1) := by
      intro e he
      rcases List.mem_append.mp he with h | h
      · exact hB e h
      · exact hNdist e h
    have hQV2 : ∀ e ∈ A2 ++ B, e.1 ∈ V := fun e he => hQV e (hsubQ e he)
    have hQV' : ∀ e ∈ A2 ++ (B ++ N), e.1 ∈
        ((neighbors a0.1).foldl (sstep walls a0.1 a0.2) (A2 ++ B, V)).2 := by
      intro e he
      rw [hq1] at he
      exact sstep_fold_qv walls a0.1 a0.2 (neighbors a0.1) (A2 ++ B, V)
        hQV2 e he
    have hndt : ((A2 ++ B).map Prod.fst).Nodup := by
      rw [List.cons_append, List.map_cons] at hnd
      exact (List.nodup_cons.mp hnd).2
    have hnd' : ((A2 ++ (B ++ N)).map Prod.fst).Nodup := by
      rw [hq1]
      exact sstep_fold_nodup walls a0.1 a0.2 (neighbors a0.1) (A2 ++ B, V)
        hndt hQV2
    have hmem' : ∀ c ∈
        ((neighbors a0.1).foldl (sstep walls a0.1 a0.2) (A2 ++ B, V)).2,
        (∃ j, j ≤ D ∧ dist_is walls S c j) ∨ ∃ e ∈ B ++ N, e.1 = c := by
      intro c hc
      rcases sstep_fold_vis_src walls a0.1 a0.2 (neighbors a0.1)
        (A2 ++ B, V) c hc with hcV | hcq
      · rcases hmem c hcV with h | ⟨e, he, hec⟩
        · exact Or.inl h
        · exact Or.inr ⟨e, List.mem_append_left _ he, hec⟩
      · rw [← hq1] at hcq
        rcases List.mem_append.mp hcq with h | h
        · have hcV : c ∈ V := hQV (c, a0.2 + 1)
            (hsubQ _ (List.mem_append_left _ h))
          rcases hmem c hcV with h2 | ⟨e, he, hec⟩
          · exact Or.inl h2
          · exact Or.inr ⟨e, List.mem_append_left _ he, hec⟩
        · exact Or.inr ⟨(c, a0.2 + 1), h, rfl⟩
    have hcov' : ∀ c j, j ≤ D → dist_is walls S c j → c ∈
        ((neighbors a0.1).foldl (sstep walls a0.1 a0.2) (A2 ++ B, V)).2 :=
      fun c j hj hd => sstep_fold_vis_mono walls a0.1 a0.2 (neighbors a0.1)
        (A2 ++ B, V) c (hcov c j hj hd)
    have hproc' : ∀ c j, j ≤ D → dist_is walls S c j →
        (∀ k, (c, k) ∉ A2 ++ (B ++ N)) →
        goal c = false ∧ ∀ m, step_adj walls c m → m ∈
        ((neighbors a0.1).foldl (sstep walls a0.1 a0.2) (A2 ++ B, V)).2 := by
      intro c j hj hd hnq
      by_cases hca : c = a0.1
      · refine ⟨?_, ?_⟩
        · rw [hca]; exact hgoal
        · intro m hm
          rw [hca] at hm
          exact sstep_fold_closure walls a0.1 a0.2 (neighbors a0.1)
            (A2 ++ B, V) m hm.1 hm.2.1 hm.2.2
      · have hnq0 : ∀ k, (c, k) ∉ (a0 :: A2) ++ B := by
          intro k hk
          rw [List.cons_append] at hk
          rcases List.mem_cons.mp hk with he | he
          · exact hca (by rw [← he])
          · apply hnq k
            rw [hq1]
            exact sstep_fold_queue_mono walls a0.1 a0.2 (neighbors a0.1)
              (A2 ++ B, V) (c, k) he
        have hold := hproc c j hj hd hnq0
        exact ⟨hold.1, fun m hm => sstep_fold_vis_mono walls a0.1 a0.2
          (neighbors a0.1) (A2 ++ B, V) m (hold.2 m hm)⟩
    have hms' : (A2 ++ (B ++ N)).length + 162 ≤ fuel +
        2 * ((((neighbors a0.1).foldl (sstep walls a0.1 a0.2)
          (A2 ++ B, V)).2.filter fun c => in_bounds c)).card := by
      have hmeq : ((neighbors a0.1).foldl (sstep walls a0.1 a0.2)
            (A2 ++ B, V)).1.length +
          (V.filter fun c => in_bounds c).card =
          (A2 ++ B).length +
          (((neighbors a0.1).foldl (sstep walls a0.1 a0.2)
            (A2 ++ B, V)).2.filter fun c => in_bounds c).card :=
        sstep_fold_measure walls a0.1 a0.2 (neighbors a0.1) (A2 ++ B, V)
      have hmono : (V.filter fun c => in_bounds c).card ≤
          (((neighbors a0.1).foldl (sstep walls a0.1 a0.2)
            (A2 ++ B, V)).2.filter fun c => in_bounds c).card :=
        Finset.card_le_card
          (Finset.filter_subset_filter (fun c => in_bounds c)
            (fun c hc => sstep_fold_vis_mono walls a0.1 a0.2
              (neighbors a0.1) (A2 ++ B, V) c hc))
      have hlen0 : ((a0 :: A2) ++ B).length = (A2 ++ B).length + 1 := by
        rw [List.cons_append]
        rfl
      have hlen1 : (A2 ++ (B ++ N)).length =
          ((neighbors a0.1).foldl (sstep walls a0.1 a0.2)
            (A2 ++ B, V)).1.length := by
        rw [hq1]
      omega
    have hfin := IH D A2 (B ++ N)
      ((neighbors a0.1).foldl (sstep walls a0.1 a0.2) (A2 ++ B, V)).2
      hA2 hBN hQV' hnd' hmem' hcov' hproc' hms'
    rw [hq1] at hfin
    constructor
    · intro hn
      rw [hred] at hn
      exact hfin.1 hn
    · intro e he
      rw [hred] at he
      exact hfin.2 e he
  · -- the popped cell is a goal cell: its label is the answer
    have hred : shortest_aux walls goal (fuel + 1) ((a0 :: A2) ++ B) V =
        some a0.2 := by
      rw [List.cons_append]
      simp only [shortest_aux]
      rw [hgoal, if_pos rfl]
    constructor
    · intro hn
      rw [hred] at hn
      cases hn
    · intro e he
      rw [hred] at he
      have hea : a0.2 = e := Option.some.inj he
      have het : e.toNat = D := by
        rw [← hea, ha0.1]
        omega
      refine ⟨?_, a0.1, hgoal, ?_, ?_⟩
      · rw [← hea, ha0.1]
        exact Int.natCast_nonneg D
      · rw [het]
        exact ha0.2
      · intro w k hgw hdw
        have hDk := hmin w k hgw hdw
        omega

/-- The single-source distance BFS is correct: starting from a queue that
is an exact `D`-block followed by an exact `D+1`-block, with the layer
invariants, it answers `none` exactly when no reachable cell satisfies
the goal, and `some e` exactly for the minimum goal distance `e`. -/
theorem shortest_aux_spec (walls : Finset Wall) (goal : Coord → Bool)
    (S : Coord → Prop) :
    ∀ (fuel D : Nat) (A B : List (Coord × Int)) (V : Finset Coord),
      (∀ e ∈ A, e.2 = (D : Int) ∧ dist_is walls S e.1 D) →
      (∀ e ∈ B, e.2 = (D : Int) + 1 ∧ dist_is walls S e.1 (D + 1)) →
      (∀ e ∈ A ++ B, e.1 ∈ V) →
      ((A ++ B).map Prod.fst).Nodup →
      (∀ c ∈ V, (∃ j, j ≤ D ∧ dist_is walls S c j) ∨ ∃ e ∈ B, e.1 = c) →
      (∀ c j, j ≤ D → dist_is walls S c j → c ∈ V) →
      (∀ c j, j ≤ D → dist_is walls S c j → (∀ k, (c, k) ∉ A ++ B) →
        goal c = false ∧ ∀ m, step_adj walls c m → m ∈ V) →
      ((A ++ B).length + 162 ≤ fuel +
        2 * (V.filter fun c => in_bounds c).card) →
      (shortest_aux walls goal fuel (A ++ B) V = none →
        ∀ v j, dist_is walls S v j → goal v = false) ∧
      (∀ e, shortest_aux walls goal fuel (A ++ B) V = some e →
        0 ≤ e ∧ ∃ v, goal v = true ∧ dist_is walls S v e.toNat ∧
          ∀ w k, goal w = true → dist_is walls S w k → e.toNat ≤ k) := by
  intro fuel
  induction fuel with
  | zero =>
    intro D A B V hA hB hQV hnd hmem hcov hproc hms
    rcases hq : A ++ B with _ | ⟨e0, q2⟩
    · rcases List.append_eq_nil.mp hq with ⟨hA0, hB0⟩
      constructor
      · intro _ v j hdv
        refine dist_all_processed walls S goal V D ?_ hcov ?_ j v hdv
        · intro c hc
          rcases hmem c hc with h | ⟨e, he, _⟩
          · exact h
          · rw [hB0] at he
            exact absurd he (List.not_mem_nil e)
        · intro c j2 hj2 hd2
          refine hproc c j2 hj2 hd2 ?_
          intro k hk
          rw [hq] at hk
          exact List.not_mem_nil _ hk
      · intro e he
        simp only [shortest_aux] at he
        cases he
    · exfalso
      have hcard := filter_in_bounds_card_le V
      have hlen : (A ++ B).length = q2.length + 1 := by
        rw [hq]
        rfl
      omega
  | succ fuel ih =>
    intro D A B V hA hB hQV hnd hmem hcov hproc hms
    rcases A with _ | ⟨a0, A2⟩
    · rcases B with _ | ⟨b0, B2⟩
      · constructor
        · intro _ v j hdv
          refine dist_all_processed walls S goal V D ?_ hcov ?_ j v hdv
          · intro c hc
            rcases hmem c hc with h | ⟨e, he, _⟩
            · exact h
            · exact absurd he (List.not_mem_nil e)
          · intro c j2 hj2 hd2
            refine hproc c j2 hj2 hd2 ?_
            intro k hk
            exact List.not_mem_nil _ hk
        · intro e he
          simp only [List.nil_append, shortest_aux] at he
          cases he
      · -- layer turnover: relabel the `D+1`-block as the new `D+1`-layer head
        have hcast : ((D + 1 : Nat) : Int) = (D : Int) + 1 := by
          push_cast
          ring
        have hA' : ∀ e ∈ b0 :: B2, e.2 = ((D + 1 : Nat) : Int) ∧
            dist_is walls S e.1 (D + 1) := by
          intro e he
          rcases hB e he with ⟨h1, h2⟩
          exact ⟨by rw [hcast]; exact h1, h2⟩
        have hB' : ∀ e ∈ ([] : List (Coord × Int)),
            e.2 = ((D + 1 : Nat) : Int) + 1 ∧
            dist_is walls S e.1 (D + 1 + 1) :=
          fun e he => absurd he (List.not_mem_nil e)
        have hQV' : ∀ e ∈ (b0 :: B2) ++ [], e.1 ∈ V := by
          intro e he
          rw [List.append_nil] at he
          exact hQV e he
        have hnd' : (((b0 :: B2) ++ []).map Prod.fst).Nodup := by
          rw [List.append_nil]
          exact hnd
        have hcov' : ∀ c j, j ≤ D + 1 → dist_is walls S c j → c ∈ V := by
          intro c j hj hd
          rcases Nat.lt_or_ge j (D + 1) with hlt | hge
          · exact hcov c j (by omega) hd
          · have hj1 : j = D + 1 := by omega
            subst hj1
            rcases hd.1 with hr | ⟨u, hu, hadj⟩
            · rcases dist_exists hr with ⟨j2, hj2, hd2⟩
              have heq := dist_is_unique hd hd2
              omega
            · rcases dist_exists hu with ⟨j2, hj2, hd2⟩
              have hunq : ∀ k, (u, k) ∉ ([] : List (Coord × Int)) ++
                  b0 :: B2 := by
                intro k hk
                have hd3 := (hB _ hk).2
                have heq := dist_is_unique hd2 hd3
                omega
              exact (hproc u j2 (by omega) hd2 hunq).2 c hadj
        have hmem' : ∀ c ∈ V,
            (∃ j, j ≤ D + 1 ∧ dist_is walls S c j) ∨
            ∃ e ∈ ([] : List (Coord × Int)), e.1 = c := by
          intro c hc
          rcases hmem c hc with ⟨j, hj, hd⟩ | ⟨e, he, hec⟩
          · exact Or.inl ⟨j, by omega, hd⟩
          · exact Or.inl ⟨D + 1, le_refl _, hec ▸ (hB e he).2⟩
        have hproc' : ∀ c j, j ≤ D + 1 → dist_is walls S c j →
            (∀ k, (c, k) ∉ (b0 :: B2) ++ []) →
            goal c = false ∧ ∀ m, step_adj walls c m → m ∈ V := by
          intro c j hj hd hnq
          rcases Nat.lt_or_ge j (D + 1) with hlt | hge
          · refine hproc c j (by omega) hd ?_
            intro k hk
            refine hnq k ?_
            rw [List.append_nil]
            exact hk
          · exfalso
            have hj1 : j = D + 1 := by omega
            subst hj1
            have hcV : c ∈ V := hcov' c (D + 1) (le_refl _) hd
            rcases hmem c hcV with ⟨j2, hj2, hd2⟩ | ⟨e, he, hec⟩
            · have heq := dist_is_unique hd hd2
              omega
            · have he2 : ((c, e.2) : Coord × Int) ∈ b0 :: B2 := by
                have hee : ((c, e.2) : Coord × Int) = e := by
                  rw [← hec]
                rw [hee]
                exact he
              exact hnq e.2 (by rw [List.append_nil]; exact he2)
        have hms' : ((b0 :: B2) ++ []).length + 162 ≤ (fuel + 1) +
            2 * (V.filter fun c => in_bounds c).card := by
          rw [List.append_nil]
          have hlen : (([] : List (Coord × Int)) ++ b0 :: B2).length =
              (b0 :: B2).length := rfl
          omega
        have hpop := shortest_aux_pop walls goal S fuel ih (D + 1) b0 B2 []
          V hA' hB' hQV' hnd' hmem' hcov' hproc' hms'
        rw [List.append_nil] at hpop
        exact hpop
    · exact shortest_aux_pop walls goal S fuel ih D a0 A2 B V hA hB hQV
        hnd hmem hcov hproc hms

/-- The single-source BFS at its real start state: from the player's
square with fuel 200, `none` means no reachable goal cell, and `some e`
means `e` is the exact minimum goal distance. -/
theorem shortest_aux_start_spec (walls : Finset Wall) (goal : Coord → Bool)
    (start : Coord) :
    (shortest_aux walls goal 200 [(start, 0)] {start} = none →
      ∀ v j, dist_is walls (fun c => c = start) v j → goal v = false) ∧
    (∀ e, shortest_aux walls goal 200 [(start, 0)] {start} = some e →
      0 ≤ e ∧ ∃ v, goal v = true ∧
        dist_is walls (fun c => c = start) v e.toNat ∧
        ∀ w k, goal w = true → dist_is walls (fun c => c = start) w k →
          e.toNat ≤ k) := by
  have hd0 : dist_is walls (fun c => c = start) start 0 :=
    ⟨rfl, fun k _ => Nat.zero_le k⟩
  have hA : ∀ e ∈ [((start, 0) : Coord × Int)],
      e.2 = ((0 : Nat) : Int) ∧ dist_is walls (fun c => c = start) e.1 0 := by
    intro e he
    have he2 := List.mem_singleton.mp he
    subst he2
    exact ⟨by norm_num, hd0⟩
  have hB : ∀ e ∈ ([] : List (Coord × Int)),
      e.2 = ((0 : Nat) : Int) + 1 ∧
      dist_is walls (fun c => c = start) e.1 (0 + 1) :=
    fun e he => absurd he (List.not_mem_nil e)
  have hQV : ∀ e ∈ [((start, 0) : Coord × Int)] ++ [],
      e.1 ∈ ({start} : Finset Coord) := by
    intro e he
    rw [List.append_nil] at he
    have he2 := List.mem_singleton.mp he
    rw [he2]
    exact Finset.mem_singleton_self start
  have hnd : (([((start, 0) : Coord × Int)] ++ []).map Prod.fst).Nodup := by
    rw [List.append_nil]
    exact List.nodup_singleton start
  have hmem : ∀ c ∈ ({start} : Finset Coord),
      (∃ j, j ≤ 0 ∧ dist_is walls (fun c2 => c2 = start) c j) ∨
      ∃ e ∈ ([] : List (Coord × Int)), e.1 = c := by
    intro c hc
    rw [Finset.mem_singleton] at hc
    subst hc
    exact Or.inl ⟨0, Nat.le_refl 0, hd0⟩
  have hcov : ∀ c j, j ≤ 0 → dist_is walls (fun c2 => c2 = start) c j →
      c ∈ ({start} : Finset Coord) := by
    intro c j hj hd
    have hj0 : j = 0 := Nat.le_zero.mp hj
    subst hj0
    have hcs : c = start := hd.1
    rw [hcs]
    exact Finset.mem_singleton_self start
  have hproc : ∀ c j, j ≤ 0 → dist_is walls (fun c2 => c2 = start) c j →
      (∀ k, (c, k) ∉ [((start, 0) : Coord × Int)] ++ []) →
      goal c = false ∧ ∀ m, step_adj walls c m →
        m ∈ ({start} : Finset Coord) := by
    intro c j hj hd hnq
    exfalso
    have hj0 : j = 0 := Nat.le_zero.mp hj
    subst hj0
    have hcs : c = start := hd.1
    exact hnq 0
      (by rw [hcs, List.append_nil]; exact List.mem_singleton.mpr rfl)
  have hms : ([((start, 0) : Coord × Int)] ++ []).length + 162 ≤ 200 +
      2 * (({start} : Finset Coord).filter fun c => in_bounds c).card := by
    rw [List.append_nil]
    have hlen : ([((start, 0) : Coord × Int)]).length = 1 := rfl
    omega
  have h := shortest_aux_spec walls goal (fun c => c = start) 200 0
    [(start, 0)] [] {start} hA hB hQV hnd hmem hcov hproc hms
  rw [List.append_nil] at h
  exact h

/-! ### The multi-source distance field stores exact distances -/

theorem dlookup_append (l1 l2 : List (Coord × Int)) (c : Coord) :
    dlookup (l1 ++ l2) c =
      match dlookup l1 c with
      | some v => some v
      | none => dlookup l2 c := by
  induction l1 with
  | nil => rfl
  | cons e t ih =>
    rcases e with ⟨k, v⟩
    rw [List.cons_append]
    simp only [dlookup]
    by_cases hk : k = c
    · rw [if_pos hk, if_pos hk]
    · rw [if_neg hk, if_neg hk]
      exact ih

theorem dlookup_append_some {l1 : List (Coord × Int)} {c : Coord}
    {k : Int} (h : dlookup l1 c = some k) (l2 : List (Coord × Int)) :
    dlookup (l1 ++ l2) c = some k := by
  rw [dlookup_append, h]

theorem dlookup_append_none {l1 : List (Coord × Int)} {c : Coord}
    (h : dlookup l1 c = none) (l2 : List (Coord × Int)) :
    dlookup (l1 ++ l2) c = dlookup l2 c := by
  rw [dlookup_append, h]

theorem dlookup_prefix_none {l1 l2 : List (Coord × Int)} {c : Coord}
    (h : dlookup (l1 ++ l2) c = none) : dlookup l1 c = none := by
  rcases hl : dlookup l1 c with _ | k
  · rfl
  · rw [dlookup_append_some hl l2] at h
    cases h

theorem dlookup_const_map (d : Int) :
    ∀ (l : List Coord) (c : Coord), c ∈ l →
      dlookup (l.map fun m => (m, d)) c = some d := by
  intro l
  induction l with
  | nil => intro c hc; cases hc
  | cons m t ih =>
    intro c hc
    rw [List.map_cons]
    simp only [dlookup]
    by_cases hm : m = c
    · rw [if_pos hm]
    · rw [if_neg hm]
      rcases List.mem_cons.mp hc with he | ht
    -- c = m contradicts hm
      · exact absurd he.symm hm
      · exact ih c ht

theorem dlookup_const_map_src (d : Int) :
    ∀ (l : List Coord) (c : Coord) (k : Int),
      dlookup (l.map fun m => (m, d)) c = some k → c ∈ l ∧ k = d := by
  intro l
  induction l with
  | nil => intro c k h; cases h
  | cons m t ih =>
    intro c k h
    rw [List.map_cons] at h
    simp only [dlookup] at h
    by_cases hm : m = c
    · rw [if_pos hm] at h
      have hk := Option.some.inj h
      exact ⟨by rw [← hm]; exact List.mem_cons_self m t, hk.symm⟩
    · rw [if_neg hm] at h
      rcases ih c k h with ⟨h1, h2⟩
      exact ⟨List.mem_cons_of_mem m h1, h2⟩

theorem astep_fold_queue_mono (walls : Finset Wall) (cur : Coord)
    (d : Int) :
    ∀ (l : List Coord) (acc : List Coord × List (Coord × Int)) (c : Coord),
      c ∈ acc.1 → c ∈ (l.foldl (astep walls cur d) acc).1 := by
  intro l
  induction l with
  | nil => intro acc c h; exact h
  | cons m t ih =>
    intro acc c h
    rw [List.foldl_cons]
    apply ih
    rw [astep]
    split
    · exact List.mem_append_left _ h
    · exact h

theorem astep_fold_dict_some (walls : Finset Wall) (cur : Coord)
    (d : Int) :
    ∀ (l : List Coord) (acc : List Coord × List (Coord × Int)) (c : Coord)
      (k : Int), dlookup acc.2 c = some k →
      dlookup (l.foldl (astep walls cur d) acc).2 c = some k := by
  intro l
  induction l with
  | nil => intro acc c k h; exact h
  | cons m t ih =>
    intro acc c k h
    rw [List.foldl_cons]
    apply ih
    rw [astep]
    split
    · exact dlookup_append_some h _
    · exact h

theorem astep_fold_struct (walls : Finset Wall) (cur : Coord) (d : Int) :
    ∀ (l : List Coord) (acc : List Coord × List (Coord × Int)),
      ∃ N, (l.foldl (astep walls cur d) acc).1 = acc.1 ++ N ∧
        (l.foldl (astep walls cur d) acc).2 =
          acc.2 ++ (N.map fun m => (m, d + 1)) ∧
        ∀ m2 ∈ N, m2 ∈ l ∧ in_bounds m2 ∧
          ¬ is_wall_between walls cur m2 ∧ dlookup acc.2 m2 = none := by
  intro l
  induction l with
  | nil =>
    intro acc
    exact ⟨[], (List.append_nil acc.1).symm, (List.append_nil acc.2).symm,
      fun e he => absurd he (List.not_mem_nil e)⟩
  | cons m t ih =>
    intro acc
    rw [List.foldl_cons]
    by_cases hcond : (dlookup acc.2 m).isNone ∧ in_bounds m ∧
        ¬ is_wall_between walls cur m
    · rw [astep, if_pos hcond]
      rcases ih (acc.1 ++ [m], acc.2 ++ [(m, d + 1)]) with ⟨N, h1, h2, hNp⟩
      have hmn : dlookup acc.2 m = none := Option.isNone_iff_eq_none.mp
        hcond.1
      refine ⟨m :: N, ?_, ?_, ?_⟩
      · rw [h1, List.append_assoc]
        rfl
      · rw [h2, List.append_assoc]
        rfl
      · intro m2 hm2
        rcases List.mem_cons.mp hm2 with he | ht
        · subst he
          exact ⟨List.mem_cons_self m2 t, hcond.2.1, hcond.2.2, hmn⟩
        · rcases hNp m2 ht with ⟨p1, p2, p3, p4⟩
          refine ⟨List.mem_cons_of_mem m p1, p2, p3, ?_⟩
          exact dlookup_prefix_none p4
    · rw [astep, if_neg hcond]
      rcases ih acc with ⟨N, h1, h2, hNp⟩
      refine ⟨N, h1, h2, ?_⟩
      intro m2 hm2
      rcases hNp m2 hm2 with ⟨p1, p2, p3, p4⟩
      exact ⟨List.mem_cons_of_mem m p1, p2, p3, p4⟩

theorem astep_fold_closure (walls : Finset Wall) (cur : Coord) (d : Int) :
    ∀ (l : List Coord) (acc : List Coord × List (Coord × Int)) (m : Coord),
      m ∈ l → in_bounds m → ¬ is_wall_between walls cur m →
      dlookup (l.foldl (astep walls cur d) acc).2 m ≠ none := by
  intro l
  induction l with
  | nil => intro acc m h; cases h
  | cons m0 t ih =>
    intro acc m hm hb hw
    rw [List.foldl_cons]
    rcases List.mem_cons.mp hm with he | ht
    · subst he
      by_cases hcond : (dlookup acc.2 m).isNone ∧ in_bounds m ∧
          ¬ is_wall_between walls cur m
      · rw [astep, if_pos hcond]
        have hmn : dlookup acc.2 m = none :=
          Option.isNone_iff_eq_none.mp hcond.1
        have hfind : dlookup (acc.2 ++ [(m, d + 1)]) m = some (d + 1) := by
          rw [dlookup_append_none hmn]
          simp only [dlookup]
          rw [if_true]
        intro hc
        rw [astep_fold_dict_some walls cur d t _ m (d + 1) hfind] at hc
        cases hc
      · rw [astep, if_neg hcond]
        have hms : dlookup acc.2 m ≠ none := by
          intro hmn
          exact hcond ⟨Option.isNone_iff_eq_none.mpr hmn, hb, hw⟩
        rcases hlk : dlookup acc.2 m with _ | k
        · exact absurd hlk hms
        · intro hc
          rw [astep_fold_dict_some walls cur d t acc m k hlk] at hc
          cases hc
    · exact ih _ m ht hb hw

theorem astep_fold_qd (walls : Finset Wall) (cur : Coord) (d : Int) :
    ∀ (l : List Coord) (acc : List Coord × List (Coord × Int)),
      (∀ c ∈ acc.1, dlookup acc.2 c ≠ none) →
      ∀ c ∈ (l.foldl (astep walls cur d) acc).1,
        dlookup (l.foldl (astep walls cur d) acc).2 c ≠ none := by
  intro l
  induction l with
  | nil => intro acc h c hc; exact h c hc
  | cons m t ih =>
    intro acc h c hc
    rw [List.foldl_cons] at hc ⊢
    by_cases hcond : (dlookup acc.2 m).isNone ∧ in_bounds m ∧
        ¬ is_wall_between walls cur m
    · rw [astep, if_pos hcond] at hc ⊢
      refine ih _ ?_ c hc
      intro x hx
      rcases List.mem_append.mp hx with hx | hx
      · rcases hlk : dlookup acc.2 x with _ | k
        · exact absurd hlk (h x hx)
        · rw [dlookup_append_some hlk]
          intro hcc
          cases hcc
      · have hxm := List.mem_singleton.mp hx
        subst hxm
        have hmn : dlookup acc.2 x = none :=
          Option.isNone_iff_eq_none.mp hcond.1
        rw [dlookup_append_none hmn]
        simp only [dlookup]
        rw [if_true]
        intro hcc
        cases hcc
    · rw [astep, if_neg hcond] at hc ⊢
      exact ih acc h c hc

theorem astep_fold_nodup (walls : Finset Wall) (cur : Coord) (d : Int) :
    ∀ (l : List Coord) (acc : List Coord × List (Coord × Int)),
      acc.1.Nodup → (∀ c ∈ acc.1, dlookup acc.2 c ≠ none) →
      (l.foldl (astep walls cur d) acc).1.Nodup := by
  intro l
  induction l with
  | nil => intro acc h1 _; exact h1
  | cons m t ih =>
    intro acc h1 h2
    rw [List.foldl_cons]
    by_cases hcond : (dlookup acc.2 m).isNone ∧ in_bounds m ∧
        ¬ is_wall_between walls cur m
    · rw [astep, if_pos hcond]
      apply ih
      · refine List.Nodup.append h1 (List.nodup_singleton _) ?_
        intro a ha hb
        have hb2 : a = m := List.mem_singleton.mp hb
        subst hb2
        have hmn : dlookup acc.2 a = none :=
          Option.isNone_iff_eq_none.mp hcond.1
        exact h2 a ha hmn
      · intro x hx
        rcases List.mem_append.mp hx with hx | hx
        · rcases hlk : dlookup acc.2 x with _ | k
          · exact absurd hlk (h2 x hx)
          · rw [dlookup_append_some hlk]
            intro hcc
            cases hcc
        · have hxm := List.mem_singleton.mp hx
          subst hxm
          have hmn : dlookup acc.2 x = none :=
            Option.isNone_iff_eq_none.mp hcond.1
          rw [dlookup_append_none hmn]
          simp only [dlookup]
          rw [if_true]
          intro hcc
          cases hcc
    · rw [astep, if_neg hcond]
      exact ih acc h1 h2

/-- One pop of the multi-source distance BFS: the popped cell's label is
its exact distance, and the fresh neighbours it appends get exact
`D+1` labels. -/
theorem all_dists_pop (walls : Finset Wall) (S : Coord → Prop) (fuel : Nat)
    (IH : ∀ (D : Nat) (A B : List Coord) (dists : List (Coord × Int)),
      (∀ c ∈ A, dlookup dists c = some (D : Int) ∧ dist_is walls S c D) →
      (∀ c ∈ B, dlookup dists c = some ((D : Int) + 1) ∧
        dist_is walls S c (D + 1)) →
      (∀ c k, dlookup dists c = some k →
        ∃ j, dist_is walls S c j ∧ k = (j : Int)) →
      (A ++ B).Nodup →
      (∀ c, dlookup dists c ≠ none →
        (∃ j, j ≤ D ∧ dist_is walls S c j) ∨ c ∈ B) →
      (∀ c j, j ≤ D → dist_is walls S c j → dlookup dists c ≠ none) →
      (∀ c j, j ≤ D → dist_is walls S c j → c ∉ A ++ B →
        ∀ m, step_adj walls c m → dlookup dists m ≠ none) →
      ∀ c k, dlookup (all_dists_loop walls fuel (A ++ B) dists) c =
        some k → ∃ j, dist_is walls S c j ∧ k = (j : Int))
    (D : Nat) (a0 : Coord) (A2 B : List Coord)
    (dists : List (Coord × Int))
    (hA : ∀ c ∈ a0 :: A2, dlookup dists c = some (D : Int) ∧
      dist_is walls S c D)
    (hB : ∀ c ∈ B, dlookup dists c = some ((D : Int) + 1) ∧
      dist_is walls S c (D + 1))
    (hsound : ∀ c k, dlookup dists c = some k →
      ∃ j, dist_is walls S c j ∧ k = (j : Int))
    (hnd : ((a0 :: A2) ++ B).Nodup)
    (hmem : ∀ c, dlookup dists c ≠ none →
      (∃ j, j ≤ D ∧ dist_is walls S c j) ∨ c ∈ B)
    (hcov : ∀ c j, j ≤ D → dist_is walls S c j → dlookup dists c ≠ none)
    (hproc : ∀ c j, j ≤ D → dist_is walls S c j →
      c ∉ (a0 :: A2) ++ B →
      ∀ m, step_adj walls c m → dlookup dists m ≠ none) :
    ∀ c k, dlookup (all_dists_loop walls (fuel + 1) ((a0 :: A2) ++ B)
      dists) c = some k → ∃ j, dist_is walls S c j ∧ k = (j : Int) := by
  have ha0 := hA a0 (List.mem_cons_self a0 A2)
  have hred : all_dists_loop walls (fuel + 1) ((a0 :: A2) ++ B) dists =
      all_dists_loop walls fuel
        ((neighbors a0).foldl (astep walls a0 (D : Int))
          (A2 ++ B, dists)).1
        ((neighbors a0).foldl (astep walls a0 (D : Int))
          (A2 ++ B, dists)).2 := by
    rw [List.cons_append]
    simp only [all_dists_loop]
    rw [ha0.1]
    rfl
  rcases astep_fold_struct walls a0 (D : Int) (neighbors a0)
    (A2 ++ B, dists) with ⟨N, hN1, hN2, hNp⟩
  have hq1 : A2 ++ (B ++ N) =
      ((neighbors a0).foldl (astep walls a0 (D : Int))
        (A2 ++ B, dists)).1 := by
    rw [hN1, List.append_assoc]
  have hsubQ : ∀ c ∈ A2 ++ B, c ∈ (a0 :: A2) ++ B := by
    intro c hc
    rcases List.mem_append.mp hc with h | h
    · exact List.mem_append_left _ (List.mem_cons_of_mem a0 h)
    · exact List.mem_append_right _ h
  have hNdist : ∀ m2 ∈ N, dist_is walls S m2 (D + 1) := by
    intro m2 hm2
    rcases hNp m2 hm2 with ⟨hmemn, hinb, hnw, hfresh⟩
    constructor
    · exact Or.inr ⟨a0, ha0.2.1, hmemn, hinb, hnw⟩
    · intro k hk
      by_contra hlt
      push_neg at hlt
      rcases dist_exists hk with ⟨j2, hj2, hd2⟩
      exact hcov m2 j2 (by omega) hd2 hfresh
  have hNlook : ∀ m2 ∈ N,
      dlookup ((neighbors a0).foldl (astep walls a0 (D : Int))
        (A2 ++ B, dists)).2 m2 = some ((D : Int) + 1) := by
    intro m2 hm2
    rcases hNp m2 hm2 with ⟨_, _, _, hfresh⟩
    rw [hN2, dlookup_append_none hfresh]
    exact dlookup_const_map ((D : Int) + 1) N m2 hm2
  have hA2 : ∀ c ∈ A2,
      dlookup ((neighbors a0).foldl (astep walls a0 (D : Int))
        (A2 ++ B, dists)).2 c = some (D : Int) ∧ dist_is walls S c D := by
    intro c hc
    rcases hA c (List.mem_cons_of_mem a0 hc) with ⟨h1, h2⟩
    exact ⟨by rw [hN2]; exact dlookup_append_some h1 _, h2⟩
  have hBN : ∀ c ∈ B ++ N,
      dlookup ((neighbors a0).foldl (astep walls a0 (D : Int))
        (A2 ++ B, dists)).2 c = some ((D : Int) + 1) ∧
      dist_is walls S c (D + 1) := by
    intro c hc
    rcases List.mem_append.mp hc with h | h
    · rcases hB c h with ⟨h1, h2⟩
      exact ⟨by rw [hN2]; exact dlookup_append_some h1 _, h2⟩
    · exact ⟨hNlook c h, hNdist c h⟩
  have hsound' : ∀ c k,
      dlookup ((neighbors a0).foldl (astep walls a0 (D : Int))
        (A2 ++ B, dists)).2 c = some k →
      ∃ j, dist_is walls S c j ∧ k = (j : Int) := by
    intro c k hck
    rw [hN2] at hck
    rcases hlk : dlookup dists c with _ | k2
    · rw [dlookup_append_none hlk] at hck
      rcases dlookup_const_map_src ((D : Int) + 1) N c k hck with ⟨hcN, hkd⟩
      refine ⟨D + 1, hNdist c hcN, ?_⟩
      rw [hkd]
      push_cast
      ring
    · rw [dlookup_append_some hlk] at hck
      have hk2 := Option.some.inj hck
      subst hk2
      exact hsound c k2 hlk
  have hqd : ∀ c ∈ A2 ++ B, dlookup dists c ≠ none := by
    intro c hc heq
    rcases List.mem_append.mp hc with h | h
    · rw [(hA c (List.mem_cons_of_mem a0 h)).1] at heq
      cases heq
    · rw [(hB c h).1] at heq
      cases heq
  have hnd2 : (A2 ++ B).Nodup := by
    rw [List.cons_append] at hnd
    exact (List.nodup_cons.mp hnd).2
  have hnd' : (A2 ++ (B ++ N)).Nodup := by
    rw [hq1]
    exact astep_fold_nodup walls a0 (D : Int) (neighbors a0)
      (A2 ++ B, dists) hnd2 hqd
  have hdmono : ∀ c, dlookup dists c ≠ none →
      dlookup ((neighbors a0).foldl (astep walls a0 (D : Int))
        (A2 ++ B, dists)).2 c ≠ none := by
    intro c hc
    rcases hlk : dlookup dists c with _ | k
    · exact absurd hlk hc
    · rw [hN2, dlookup_append_some hlk]
      intro heq
      cases heq
  have hmem' : ∀ c,
      dlookup ((neighbors a0).foldl (astep walls a0 (D : Int))
        (A2 ++ B, dists)).2 c ≠ none →
      (∃ j, j ≤ D ∧ dist_is walls S c j) ∨ c ∈ B ++ N := by
    intro c hc
    rcases hlk : dlookup dists c with _ | k
    · rw [hN2, dlookup_append_none hlk] at hc
      rcases hlk2 : dlookup (N.map fun m => (m, (D : Int) + 1)) c
        with _ | k2
      · exact absurd hlk2 hc
      · rcases dlookup_const_map_src ((D : Int) + 1) N c k2 hlk2
          with ⟨hcN, _⟩
        exact Or.inr (List.mem_append_right _ hcN)
    · rcases hmem c (by rw [hlk]; intro heq; cases heq) with h | h
      · exact Or.inl h
      · exact Or.inr (List.mem_append_left _ h)
  have hcov' : ∀ c j, j ≤ D → dist_is walls S c j →
      dlookup ((neighbors a0).foldl (astep walls a0 (D : Int))
        (A2 ++ B, dists)).2 c ≠ none :=
    fun c j hj hd => hdmono c (hcov c j hj hd)
  have hproc' : ∀ c j, j ≤ D → dist_is walls S c j →
      c ∉ A2 ++ (B ++ N) →
      ∀ m, step_adj walls c m →
        dlookup ((neighbors a0).foldl (astep walls a0 (D : Int))
          (A2 ++ B, dists)).2 m ≠ none := by
    intro c j hj hd hnq
    by_cases hca : c = a0
    · intro m hm
      rw [hca] at hm
      exact astep_fold_closure walls a0 (D : Int) (neighbors a0)
        (A2 ++ B, dists) m hm.1 hm.2.1 hm.2.2
    · have hnq0 : c ∉ (a0 :: A2) ++ B := by
        intro hk
        rw [List.cons_append] at hk
        rcases List.mem_cons.mp hk with he | he
        · exact hca he
        · apply hnq
          rw [hq1]
          exact astep_fold_queue_mono walls a0 (D : Int) (neighbors a0)
            (A2 ++ B, dists) c he
      exact fun m hm => hdmono m (hproc c j hj hd hnq0 m hm)
  have hfin := IH D A2 (B ++ N)
    ((neighbors a0).foldl (astep walls a0 (D : Int)) (A2 ++ B, dists)).2
    hA2 hBN hsound' hnd' hmem' hcov' hproc'
  rw [hq1] at hfin
  intro c k hck
  rw [hred] at hck
  exact hfin c k hck

/-- The multi-source distance BFS only ever stores exact distances: every
entry of the final dictionary is the exact BFS distance of its key from
the source set. -/
theorem all_dists_loop_spec (walls : Finset Wall) (S : Coord → Prop) :
    ∀ (fuel D : Nat) (A B : List Coord) (dists : List (Coord × Int)),
      (∀ c ∈ A, dlookup dists c = some (D : Int) ∧ dist_is walls S c D) →
      (∀ c ∈ B, dlookup dists c = some ((D : Int) + 1) ∧
        dist_is walls S c (D + 1)) →
      (∀ c k, dlookup dists c = some k →
        ∃ j, dist_is walls S c j ∧ k = (j : Int)) →
      (A ++ B).Nodup →
      (∀ c, dlookup dists c ≠ none →
        (∃ j, j ≤ D ∧ dist_is walls S c j) ∨ c ∈ B) →
      (∀ c j, j ≤ D → dist_is walls S c j → dlookup dists c ≠ none) →
      (∀ c j, j ≤ D → dist_is walls S c j → c ∉ A ++ B →
        ∀ m, step_adj walls c m → dlookup dists m ≠ none) →
      ∀ c k, dlookup (all_dists_loop walls fuel (A ++ B) dists) c =
        some k → ∃ j, dist_is walls S c j ∧ k = (j : Int) := by
  intro fuel
  induction fuel with
  | zero =>
    intro D A B dists hA hB hsound hnd hmem hcov hproc c k hck
    simp only [all_dists_loop] at hck
    exact hsound c k hck
  | succ fuel ih =>
    intro D A B dists hA hB hsound hnd hmem hcov hproc
    rcases A with _ | ⟨a0, A2⟩
    · rcases B with _ | ⟨b0, B2⟩
      · intro c k hck
        simp only [List.nil_append, all_dists_loop] at hck
        exact hsound c k hck
      · -- layer turnover
        have hcast : ((D + 1 : Nat) : Int) = (D : Int) + 1 := by
          push_cast
          ring
        have hA' : ∀ c ∈ b0 :: B2,
            dlookup dists c = some ((D + 1 : Nat) : Int) ∧
            dist_is walls S c (D + 1) := by
          intro c hc
          rcases hB c hc with ⟨h1, h2⟩
          exact ⟨by rw [hcast]; exact h1, h2⟩
        have hB' : ∀ c ∈ ([] : List Coord),
            dlookup dists c = some (((D + 1 : Nat) : Int) + 1) ∧
            dist_is walls S c (D + 1 + 1) :=
          fun c hc => absurd hc (List.not_mem_nil c)
        have hnd' : ((b0 :: B2) ++ []).Nodup := by
          rw [List.append_nil]
          exact hnd
        have hcov' : ∀ c j, j ≤ D + 1 → dist_is walls S c j →
            dlookup dists c ≠ none := by
          intro c j hj hd
          rcases Nat.lt_or_ge j (D + 1) with hlt | hge
          · exact hcov c j (by omega) hd
          · have hj1 : j = D + 1 := by omega
            subst hj1
            rcases hd.1 with hr | ⟨u, hu, hadj⟩
            · rcases dist_exists hr with ⟨j2, hj2, hd2⟩
              have heq := dist_is_unique hd hd2
              omega
            · rcases dist_exists hu with ⟨j2, hj2, hd2⟩
              have hunq : u ∉ ([] : List Coord) ++ b0 :: B2 := by
                intro hk
                have hd3 := (hB _ hk).2
                have heq := dist_is_unique hd2 hd3
                omega
              exact hproc u j2 (by omega) hd2 hunq c hadj
        have hmem' : ∀ c, dlookup dists c ≠ none →
            (∃ j, j ≤ D + 1 ∧ dist_is walls S c j) ∨
            c ∈ ([] : List Coord) := by
          intro c hc
          rcases hmem c hc with ⟨j, hj, hd⟩ | hcB
          · exact Or.inl ⟨j, by omega, hd⟩
          · exact Or.inl ⟨D + 1, le_refl _, (hB c hcB).2⟩
        have hproc' : ∀ c j, j ≤ D + 1 → dist_is walls S c j →
            c ∉ (b0 :: B2) ++ [] →
            ∀ m, step_adj walls c m → dlookup dists m ≠ none := by
          intro c j hj hd hnq
          rcases Nat.lt_or_ge j (D + 1) with hlt | hge
          · refine hproc c j (by omega) hd ?_
            intro hk
            refine hnq ?_
            rw [List.append_nil]
            exact hk
          · exfalso
            have hj1 : j = D + 1 := by omega
            subst hj1
            have hcd : dlookup dists c ≠ none :=
              hcov' c (D + 1) (le_refl _) hd
            rcases hmem c hcd with ⟨j2, hj2, hd2⟩ | hcB
            · have heq := dist_is_unique hd hd2
              omega
            · exact hnq (by rw [List.append_nil]; exact hcB)
        have hpop := all_dists_pop walls S fuel ih (D + 1) b0 B2 []
          dists hA' hB' hsound hnd' hmem' hcov' hproc'
        rw [List.append_nil] at hpop
        exact hpop
    · exact all_dists_pop walls S fuel ih D a0 A2 B dists hA hB hsound
        hnd hmem hcov hproc

theorem mem_goal_seeds {g : Int} {c : Coord} :
    c ∈ goal_seeds g ↔ c.1 = g ∧ 0 ≤ c.2 ∧ c.2 < 9 := by
  rw [goal_seeds]
  constructor
  · intro h
    rcases List.mem_map.mp h with ⟨k, hk, hkc⟩
    have hk9 : k < 9 := List.mem_range.mp hk
    rw [← hkc]
    refine ⟨rfl, Int.natCast_nonneg k, ?_⟩
    show ((k : Nat) : Int) < 9
    exact_mod_cast hk9
  · rintro ⟨h1, h2, h3⟩
    refine List.mem_map.mpr ⟨c.2.toNat, List.mem_range.mpr (by omega), ?_⟩
    rw [Prod.ext_iff]
    exact ⟨h1.symm, Int.toNat_of_nonneg h2⟩

theorem goal_seeds_in_bounds {g : Int} (hg : 0 ≤ g ∧ g < 9) {c : Coord}
    (hc : c ∈ goal_seeds g) : in_bounds c := by
  rcases mem_goal_seeds.mp hc with ⟨h1, h2, h3⟩
  have hbs : board_size = 9 := rfl
  exact ⟨by omega, by omega, h2, by omega⟩

theorem goal_seeds_nodup (g : Int) : (goal_seeds g).Nodup := by
  rw [goal_seeds]
  refine List.Nodup.map ?_ (List.nodup_range 9)
  intro a b hab
  have h2 : ((a : Nat) : Int) = ((b : Nat) : Int) := congrArg Prod.snd hab
  exact_mod_cast h2

/-- The distance field of `_get_all_distances_to_goal` stores only exact
BFS distances from the seeded goal row. -/
theorem all_dists_core_sound (walls : Finset Wall) (g : Int) :
    ∀ c k, dlookup (all_dists_core walls g) c = some k →
      ∃ j, dist_is walls (fun c2 => c2 ∈ goal_seeds g) c j ∧
        k = (j : Int) := by
  have hd0 : ∀ c ∈ goal_seeds g,
      dist_is walls (fun c2 => c2 ∈ goal_seeds g) c 0 :=
    fun c hc => ⟨hc, fun k _ => Nat.zero_le k⟩
  have hA : ∀ c ∈ goal_seeds g,
      dlookup ((goal_seeds g).map fun c2 => (c2, (0 : Int))) c =
        some ((0 : Nat) : Int) ∧
      dist_is walls (fun c2 => c2 ∈ goal_seeds g) c 0 := by
    intro c hc
    refine ⟨?_, hd0 c hc⟩
    rw [dlookup_const_map 0 (goal_seeds g) c hc]
    norm_num
  have hB : ∀ c ∈ ([] : List Coord),
      dlookup ((goal_seeds g).map fun c2 => (c2, (0 : Int))) c =
        some (((0 : Nat) : Int) + 1) ∧
      dist_is walls (fun c2 => c2 ∈ goal_seeds g) c (0 + 1) :=
    fun c hc => absurd hc (List.not_mem_nil c)
  have hsound0 : ∀ c k,
      dlookup ((goal_seeds g).map fun c2 => (c2, (0 : Int))) c = some k →
      ∃ j, dist_is walls (fun c2 => c2 ∈ goal_seeds g) c j ∧
        k = (j : Int) := by
    intro c k hck
    rcases dlookup_const_map_src 0 (goal_seeds g) c k hck with ⟨hc, hk⟩
    refine ⟨0, hd0 c hc, ?_⟩
    rw [hk]
    norm_num
  have hnd : ((goal_seeds g) ++ []).Nodup := by
    rw [List.append_nil]
    exact goal_seeds_nodup g
  have hmem0 : ∀ c,
      dlookup ((goal_seeds g).map fun c2 => (c2, (0 : Int))) c ≠ none →
      (∃ j, j ≤ 0 ∧ dist_is walls (fun c2 => c2 ∈ goal_seeds g) c j) ∨
      c ∈ ([] : List Coord) := by
    intro c hc
    rcases hlk : dlookup ((goal_seeds g).map fun c2 => (c2, (0 : Int))) c
      with _ | k
    · exact absurd hlk hc
    · rcases dlookup_const_map_src 0 (goal_seeds g) c k hlk with ⟨hcm, _⟩
      exact Or.inl ⟨0, le_refl 0, hd0 c hcm⟩
  have hcov0 : ∀ c j, j ≤ 0 →
      dist_is walls (fun c2 => c2 ∈ goal_seeds g) c j →
      dlookup ((goal_seeds g).map fun c2 => (c2, (0 : Int))) c ≠ none := by
    intro c j hj hd
    have hj0 : j = 0 := Nat.le_zero.mp hj
    subst hj0
    have hcm : c ∈ goal_seeds g := hd.1
    rw [dlookup_const_map 0 (goal_seeds g) c hcm]
    intro heq
    cases heq
  have hproc0 : ∀ c j, j ≤ 0 →
      dist_is walls (fun c2 => c2 ∈ goal_seeds g) c j →
      c ∉ (goal_seeds g) ++ [] →
      ∀ m, step_adj walls c m →
        dlookup ((goal_seeds g).map fun c2 => (c2, (0 : Int))) m ≠
          none := by
    intro c j hj hd hnq
    exfalso
    have hj0 : j = 0 := Nat.le_zero.mp hj
    subst hj0
    exact hnq (by rw [List.append_nil]; exact hd.1)
  have h := all_dists_loop_spec walls (fun c2 => c2 ∈ goal_seeds g) 200 0
    (goal_seeds g) [] ((goal_seeds g).map fun c2 => (c2, (0 : Int)))
    hA hB hsound0 hnd hmem0 hcov0 hproc0
  rw [List.append_nil] at h
  exact h

/-- Reversing a point-to-point reach: every cell within `n` edges of an
on-board cell `a` is itself on the board (or is `a`), and `a` is within
`n` edges of it. -/
theorem reach_rev {walls : Finset Wall} {a : Coord} (ha : in_bounds a) :
    ∀ {n : Nat} {b : Coord}, reach_in walls (fun c => c = a) n b →
      (b = a ∨ in_bounds b) ∧ reach_in walls (fun c => c = b) n a := by
  intro n
  induction n with
  | zero =>
    intro b h
    have hb : b = a := h
    subst hb
    exact ⟨Or.inl rfl, rfl⟩
  | succ n ih =>
    intro b h
    rcases h with h | ⟨u, hu, hadj⟩
    · have h2 := ih h
      exact ⟨h2.1, reach_in_succ h2.2⟩
    · have hiu := ih hu
      have huin : in_bounds u := by
        rcases hiu.1 with he | hin
        · rw [he]; exact ha
        · exact hin
      have hback : step_adj walls b u := step_adj_symm huin hadj
      have h1 : reach_in walls (fun c => c = b) 1 u :=
        Or.inr ⟨b, rfl, hback⟩
      have h2 := reach_in_trans h1 hiu.2
      refine ⟨Or.inr hadj.2.1, ?_⟩
      have heq : 1 + n = n + 1 := Nat.add_comm 1 n
      rw [← heq]
      exact h2

/-- Reach from a source set is reach from one of its members. -/
theorem reach_set_iff {walls : Finset Wall} {S : Coord → Prop} :
    ∀ {n : Nat} {b : Coord}, reach_in walls S n b ↔
      ∃ a, S a ∧ reach_in walls (fun c => c = a) n b := by
  intro n
  induction n with
  | zero =>
    intro b
    constructor
    · intro h
      exact ⟨b, h, rfl⟩
    · rintro ⟨a, hSa, h⟩
      have hb : b = a := h
      rw [hb]
      exact hSa
  | succ n ih =>
    intro b
    constructor
    · intro h
      rcases h with h | ⟨u, hu, hadj⟩
      · rcases ih.mp h with ⟨a, hSa, h2⟩
        exact ⟨a, hSa, Or.inl h2⟩
      · rcases ih.mp hu with ⟨a, hSa, h2⟩
        exact ⟨a, hSa, Or.inr ⟨u, h2, hadj⟩⟩
    · rintro ⟨a, hSa, h⟩
      rcases h with h | ⟨u, hu, hadj⟩
      · exact Or.inl (ih.mpr ⟨a, hSa, h⟩)
      · exact Or.inr ⟨u, ih.mpr ⟨a, hSa, hu⟩, hadj⟩

/-- C9: the multi-source distance field is consistent with the
single-source shortest-path search.  Whenever
`_get_all_distances_to_goal` stores a distance at the player's own
square, `_get_shortest_path_length` returns exactly that value: both
searches explore the same traversable grid toward the same (AI-side)
goal row, and BFS distances are symmetric. -/
theorem c9_distance_field_matches_shortest_path (s : GameState)
    (p : Player) (d : Int)
    (h : dlookup (get_all_distances_to_goal s p) (s.pos p) = some d) :
    shortest_path_length s p = some d := by
  have hg : 0 ≤ ai_goal_row p ∧ ai_goal_row p < 9 := by
    cases p
    · exact ⟨by norm_num [ai_goal_row], by norm_num [ai_goal_row]⟩
    · exact ⟨by norm_num [ai_goal_row, board_size],
        by norm_num [ai_goal_row, board_size]⟩
  rcases all_dists_core_sound s.walls (ai_goal_row p) (s.pos p) d h
    with ⟨j, hdj, hkd⟩
  rcases reach_set_iff.mp hdj.1 with ⟨a, haS, hra⟩
  have hain : in_bounds a := goal_seeds_in_bounds hg haS
  have hrev := reach_rev hain hra
  have hb : in_bounds (s.pos p) := by
    rcases hrev.1 with he | hin
    · rw [he]; exact hain
    · exact hin
  have hgoala : (a.1 == ai_goal_row p) = true :=
    beq_iff_eq.mpr (mem_goal_seeds.mp haS).1
  have hminj : ∀ w k, (w.1 == ai_goal_row p) = true →
      dist_is s.walls (fun c => c = s.pos p) w k → j ≤ k := by
    intro w k hgw hdw
    have hrw := reach_rev hb hdw.1
    have hwin : in_bounds w := by
      rcases hrw.1 with he | hin
      · rw [he]; exact hb
      · exact hin
    have hwseed : w ∈ goal_seeds (ai_goal_row p) := by
      refine mem_goal_seeds.mpr ⟨beq_iff_eq.mp hgw, hwin.2.2.1, ?_⟩
      have hbs : board_size = 9 := rfl
      have hw9 := hwin.2.2.2
      omega
    have hreach : reach_in s.walls
        (fun c2 => c2 ∈ goal_seeds (ai_goal_row p)) k (s.pos p) :=
      reach_set_iff.mpr ⟨w, hwseed, hrw.2⟩
    exact hdj.2 k hreach
  have hspec := shortest_aux_start_spec s.walls
    (fun c => c.1 == ai_goal_row p) (s.pos p)
  rcases hres : shortest_aux s.walls (fun c => c.1 == ai_goal_row p) 200
      [(s.pos p, 0)] {s.pos p} with _ | e
  · exfalso
    rcases dist_exists hrev.2 with ⟨j0, hj0, hd0⟩
    have hgf := hspec.1 hres a j0 hd0
    rw [hgf] at hgoala
    cases hgoala
  · rcases hspec.2 e hres with ⟨he0, v, hgv, hdv, hmin⟩
    have h1 : e.toNat ≤ j := by
      rcases dist_exists hrev.2 with ⟨j0, hj0, hd0⟩
      have hle := hmin a j0 hgoala hd0
      omega
    have h2 : j ≤ e.toNat := hminj v e.toNat hgv hdv
    have hfinal : e = d := by omega
    have hout : shortest_path_length s p = some e := hres
    rw [hout, hfinal]

/-- C9 witness: at `c2s` (player one at `(7,4)`, empty walls) the
distance field stores 7 at the player's square, and the shortest-path
search returns 7 as well. -/
theorem c9_distance_field_matches_shortest_path_witness :
    dlookup (get_all_distances_to_goal c2s .one) (c2s.pos .one) =
      some 7 ∧
    shortest_path_length c2s .one = some 7 :=
  ⟨by decide,
    c9_distance_field_matches_shortest_path c2s .one 7 (by decide)⟩

end Quoridor
